import Mathlib

/-!
# RP2040 benchmark kernels: a shallow embedding and its verification

The compute kernels of `rp2040-c-benchmarks/src/*/benchmark.c` are embedded as
Lean functions.  Conventions used throughout:

* a C array is a `List`; `rd arr i` is the read `arr[i]` and `wr arr i v` the
  write `arr[i] = v`;
* the FFT and sort kernels also thread a ghost `log` of every index they
  touch, so that index safety can be stated about the very same definition,
  and the matrix kernel a ghost flag that records 32-bit overflow;
* a counted loop `for (i = 0; i < n; i++)` is a fold over `List.range n`; every
  other loop is run by `whileLoop` with explicit fuel, and running out of fuel
  is the result `none`;
* `int` arithmetic whose result may leave the 32-bit range is wrapped by
  `wrap32` (two's complement).
-/

namespace RP2040

/-! ## Memory and control primitives -/

/-- Array read `arr[i]`.  A read past the end yields `0`; the index logs show
that the kernels never perform one on the inputs the theorems cover. -/
def rd {α : Type} [Zero α] (arr : List α) (i : Nat) : α := arr.getD i 0

/-- Array write `arr[i] = v` (a write past the end leaves the list unchanged). -/
def wr {α : Type} (arr : List α) (i : Nat) (v : α) : List α := arr.set i v

/-- Fuelled `while (cond) body`: `none` when the fuel runs out before the
condition turns false. -/
def whileLoop {σ : Type} (cond : σ → Bool) (body : σ → σ) : Nat → σ → Option σ
  | 0, _ => none
  | fuel + 1, s => if cond s then whileLoop cond body fuel (body s) else some s

/-- Fuelled `while (cond) body` whose body can itself run out of fuel. -/
def whileLoopM {σ : Type} (cond : σ → Bool) (body : σ → Option σ) : Nat → σ → Option σ
  | 0, _ => none
  | fuel + 1, s => if cond s then (body s).bind (whileLoopM cond body fuel) else some s

/-- Two's-complement wrap of an integer into the range of a 32-bit `int`. -/
def wrap32 (x : Int) : Int := (x + 2147483648) % 4294967296 - 2147483648

/-! ## FFT kernel (`src/fft/benchmark.c`) -/

/-- The two parallel arrays of the FFT together with the ghost log of the
indices that have been read or written. -/
structure Signal (α : Type) where
  real : List α
  imag : List α
  log : List Nat
deriving DecidableEq, Repr

/-- Condition of `while (j >= m && m > 0)` on the pair `(j, m)`. -/
def bit_reverse_carry_cond (jm : Nat × Nat) : Bool := decide (jm.1 ≥ jm.2) && decide (jm.2 > 0)

/-- Body `j -= m; m >>= 1;` on the pair `(j, m)`. -/
def bit_reverse_carry_body (jm : Nat × Nat) : Nat × Nat := (jm.1 - jm.2, jm.2 >>> 1)

/-- One iteration of the `for (i ...)` loop of `bit_reverse`, on the state
`(j, arrays)`: the conditional swap of both arrays, then the update of the
running bit-reversed counter `j`. -/
def bit_reverse_step {α : Type} [Zero α] (fuel n : Nat) (st : Nat × Signal α) (i : Nat) :
    Option (Nat × Signal α) :=
  let j := st.1
  let sig := st.2
  let sig1 : Signal α :=
    if i < j then
      { real := wr (wr sig.real i (rd sig.real j)) j (rd sig.real i)
        imag := wr (wr sig.imag i (rd sig.imag j)) j (rd sig.imag i)
        log := sig.log ++ [i, j] }
    else sig
  (whileLoop bit_reverse_carry_cond bit_reverse_carry_body fuel (j, n >>> 1)).map
    fun jm => (jm.1 + jm.2, sig1)

/-- The function `bit_reverse(real, imag, n)`. -/
def bit_reverse {α : Type} [Zero α] (fuel : Nat) (sig : Signal α) (n : Nat) : Option (Signal α) :=
  ((List.range n).foldlM (bit_reverse_step fuel n) (0, sig)).map Prod.snd

/-- State of the `for (j ...)` loop of `fft_radix2`: the running twiddle
`(w_real, w_imag)` and the arrays. -/
structure Butterfly (α : Type) where
  w_real : α
  w_imag : α
  sig : Signal α

/-- Body of the innermost loop of `fft_radix2`: one butterfly on the elements
`t = k + j` and `u = t + m / 2`, then the advance of the twiddle. -/
def fft_butterfly {α : Type} [Zero α] [Add α] [Sub α] [Mul α] (w_m_real w_m_imag : α) (m k : Nat)
    (st : Butterfly α) (j : Nat) : Butterfly α :=
  let real := st.sig.real
  let imag := st.sig.imag
  let t := k + j
  let u := t + m / 2
  let t_real := st.w_real * rd real u - st.w_imag * rd imag u
  let t_imag := st.w_real * rd imag u + st.w_imag * rd real u
  let real1 := wr real u (rd real t - t_real)
  let imag1 := wr imag u (rd imag t - t_imag)
  let real2 := wr real1 t (rd real1 t + t_real)
  let imag2 := wr imag1 t (rd imag1 t + t_imag)
  let w_tmp := st.w_real
  let w_real := st.w_real * w_m_real - st.w_imag * w_m_imag
  let w_imag := w_tmp * w_m_imag + st.w_imag * w_m_real
  { w_real := w_real, w_imag := w_imag
    sig := { real := real2, imag := imag2, log := st.sig.log ++ [t, u] } }

/-- Body of the `for (k = 0; k < n; k += m)` loop on the state `(k, arrays)`:
the twiddle is reset to `(1, 0)`, the `j` loop runs over `[0, m / 2)`, and `k`
advances by `m`. -/
def fft_block {α : Type} [Zero α] [One α] [Add α] [Sub α] [Mul α] (w_m_real w_m_imag : α) (m : Nat)
    (st : Nat × Signal α) : Nat × Signal α :=
  let k := st.1
  let init : Butterfly α := { w_real := 1, w_imag := 0, sig := st.2 }
  (k + m, ((List.range (m / 2)).foldl (fft_butterfly w_m_real w_m_imag m k) init).sig)

/-- Body of the stage loop `for (s = 1; s <= log2f(n); s++)` on the state
`(s, arrays)`; `none` when the block loop exhausts its fuel. -/
def fft_stage {α : Type} [Zero α] [One α] [Add α] [Sub α] [Mul α] [Div α] [Neg α] [NatCast α]
    [OfNat α 2] (PI : α) (cosf sinf : α → α) (fuel n : Nat) (st : Nat × Signal α) :
    Option (Nat × Signal α) :=
  let s := st.1
  let m := 1 <<< s
  let angle := -2 * PI / (m : α)
  let w_m_real := cosf angle
  let w_m_imag := sinf angle
  (whileLoop (fun ks => decide (ks.1 < n)) (fft_block w_m_real w_m_imag m) fuel (0, st.2)).map
    fun ks => (s + 1, ks.2)

/-- The stage loop `for (s = 1; s <= log2f(n); s++)` of `fft_radix2`, returning the final
counter with the arrays.  The test `s <= log2f(n)` is read in exact arithmetic, where it says
`2 ^ s <= n` (and fails for `n = 0`). -/
def fft_stage_loop {α : Type} [Zero α] [One α] [Add α] [Sub α] [Mul α] [Div α] [Neg α]
    [NatCast α] [OfNat α 2] (PI : α) (cosf sinf : α → α) (fuel : Nat) (sig : Signal α)
    (n : Nat) : Option (Nat × Signal α) :=
  whileLoopM (fun st => decide (2 ^ st.1 ≤ n)) (fft_stage PI cosf sinf fuel n) fuel (1, sig)

/-- The function `fft_radix2(real, imag, n)`.  The type `α` stands for `float`: it carries
the arithmetic operations only, with no law assumed; the constant `PI` and the library
functions `cosf`, `sinf` are parameters. -/
def fft_radix2 {α : Type} [Zero α] [One α] [Add α] [Sub α] [Mul α] [Div α] [Neg α]
    [NatCast α] [OfNat α 2] (PI : α) (cosf sinf : α → α) (fuel : Nat) (sig : Signal α)
    (n : Nat) : Option (Signal α) :=
  (bit_reverse fuel sig n).bind fun sig1 =>
    (fft_stage_loop PI cosf sinf fuel sig1 n).map Prod.snd

/-- Reversal of the `p` low bits of `i`. -/
def bitrev : Nat → Nat → Nat
  | 0, _ => 0
  | p + 1, i => (i % 2) * 2 ^ p + bitrev p (i / 2)

/-! ## Sorting kernels (`src/bubblesort/benchmark.c`, `src/quicksort/benchmark.c`) -/

/-- An `int` array together with the ghost log of the indices read or written. -/
structure IntArray where
  arr : List Int
  log : List Int
deriving DecidableEq, Repr

/-- Body of the inner loop of `bubble_sort`: compare `arr[j]` with `arr[j + 1]` and exchange
them when they are out of order. -/
def bubble_sort_inner (st : IntArray) (j : Nat) : IntArray :=
  let arr := st.arr
  { arr :=
      if rd arr j > rd arr (j + 1) then
        let temp := rd arr j
        wr (wr arr j (rd arr (j + 1))) (j + 1) temp
      else arr
    log := st.log ++ [(j : Int), (j : Int) + 1] }

/-- The function `bubble_sort(arr, n)`, for `n >= 0`: the outer loop runs over
`i = 0 .. n - 2` and the inner one over `j = 0 .. n - i - 2`. -/
def bubble_sort (st : IntArray) (n : Nat) : IntArray :=
  (List.range (n - 1)).foldl
    (fun st i => (List.range (n - i - 1)).foldl bubble_sort_inner st) st

/-- The population loop of both sort benchmarks: `test[i] = n - i` for `i < n`. -/
def populate_descending (test : List Int) (n : Nat) : List Int :=
  (List.range n).foldl (fun t i => wr t i ((n : Int) - (i : Int))) test

/-- Body of the `for (j = low; j < high; j++)` loop of `partition`, on the state `(i, arr)`. -/
def partition_step (pivot : Int) (s : Int × IntArray) (j : Int) : Int × IntArray :=
  let i := s.1
  let arr := s.2.arr
  if rd arr j.toNat < pivot then
    let i := i + 1
    let tmp := rd arr i.toNat
    (i, { arr := wr (wr arr i.toNat (rd arr j.toNat)) j.toNat tmp
          log := s.2.log ++ [j, i, j] })
  else (i, { arr := arr, log := s.2.log ++ [j] })

/-- The function `partition(arr, low, high)` (Lomuto scheme, last element as pivot),
returning the final pivot index with the array. -/
def partition (st : IntArray) (low high : Int) : Int × IntArray :=
  let pivot := rd st.arr high.toNat
  let s := ((List.range (high - low).toNat).map fun (d : Nat) => low + (d : Int)).foldl
    (partition_step pivot) (low - 1, { arr := st.arr, log := st.log ++ [high] })
  let i := s.1
  let arr := s.2.arr
  let tmp := rd arr (i + 1).toNat
  (i + 1, { arr := wr (wr arr (i + 1).toNat (rd arr high.toNat)) high.toNat tmp
            log := s.2.log ++ [i + 1, high] })

/-- The function `quick_sort(arr, low, high)`; the fuel bounds the recursion depth and
`none` is the result when it runs out. -/
def quick_sort : Nat → IntArray → Int → Int → Option IntArray
  | 0, _, _, _ => none
  | fuel + 1, st, low, high =>
    if low < high then
      let r := partition st low high
      (quick_sort fuel r.2 low (r.1 - 1)).bind fun st1 => quick_sort fuel st1 (r.1 + 1) high
    else some st

/-- Invariant of the loop of `partition` after the `d` iterations `j = low .. low + d - 1`, on
the state `s = (i, arr)`: cells `low .. i` are below the pivot, cells `i + 1 .. low + d - 1`
are not, cells outside `[low, low + d)` are untouched, and any property shared by the cells of
`[low, high]` is kept. -/
def PartInv (a0 : List Int) (low high pivot : Int) (d : Nat) (s : Int × IntArray) : Prop :=
  s.2.arr.length = a0.length ∧ s.2.arr.Perm a0 ∧ low - 1 ≤ s.1 ∧ s.1 < low + d ∧
  (∀ x : Nat, low ≤ x → (x : Int) ≤ s.1 → rd s.2.arr x < pivot) ∧
  (∀ x : Nat, s.1 < x → (x : Int) < low + d → pivot ≤ rd s.2.arr x) ∧
  (∀ x : Nat, ((x : Int) < low ∨ low + d ≤ x) → rd s.2.arr x = rd a0 x) ∧
  (∀ P : Int → Prop, (∀ x : Nat, low ≤ x → (x : Int) ≤ high → P (rd a0 x)) →
    ∀ x : Nat, low ≤ x → (x : Int) ≤ high → P (rd s.2.arr x))

/-- Postcondition of `quick_sort(arr, low, high)` from the array `st` to the array `out`:
a permutation that is sorted on `[low, high]`, untouched outside, and that keeps any property
shared by the cells of `[low, high]`. -/
def QuickSortPost (st out : IntArray) (low high : Int) : Prop :=
  out.arr.length = st.arr.length ∧ out.arr.Perm st.arr ∧
  (∀ x y : Nat, low ≤ x → x < y → (y : Int) ≤ high → rd out.arr x ≤ rd out.arr y) ∧
  (∀ x : Nat, ((x : Int) < low ∨ high < x) → rd out.arr x = rd st.arr x) ∧
  (∀ P : Int → Prop, (∀ x : Nat, low ≤ x → (x : Int) ≤ high → P (rd st.arr x)) →
    ∀ x : Nat, low ≤ x → (x : Int) ≤ high → P (rd out.arr x))

/-! ## Fibonacci kernels (`src/fibonacci/benchmark.c`) -/

/-- The function `fib_recursive(n)`; the fuel bounds the recursion depth.  The sum is taken
in wrapping 32-bit arithmetic. -/
def fib_recursive : Nat → Int → Option Int
  | 0, _ => none
  | fuel + 1, n =>
    if n ≤ 1 then some n
    else
      (fib_recursive fuel (n - 1)).bind fun a =>
        (fib_recursive fuel (n - 2)).bind fun b => some (wrap32 (a + b))

/-- State of the loop of `fib_iterative`: the two accumulators and the counter `i`. -/
structure FibState where
  prev : Int
  curr : Int
  i : Int
deriving DecidableEq, Repr

/-- Body of the loop of `fib_iterative`, `++i` included; both additions wrap at 32 bits. -/
def fib_iterative_body (s : FibState) : FibState :=
  let next := wrap32 (s.prev + s.curr)
  { prev := s.curr, curr := next, i := wrap32 (s.i + 1) }

/-- The function `fib_iterative(n)`: `none` when the loop `for (i = 2; i <= n; ++i)` has not
ended within the fuel. -/
def fib_iterative (fuel : Nat) (n : Int) : Option Int :=
  if n ≤ 1 then some n
  else
    (whileLoop (fun s => decide (s.i ≤ n)) fib_iterative_body fuel
      { prev := 0, curr := 1, i := 2 }).map fun s => s.curr

/-- The Fibonacci numbers as the specification words them: `F(0) = 0`, `F(1) = 1`,
`F(k) = F(k - 1) + F(k - 2)`. -/
def fibSpec : Nat → Int
  | 0 => 0
  | 1 => 1
  | k + 2 => fibSpec (k + 1) + fibSpec k

/-! ## Matrix kernel (`src/matrix/benchmark.c`) -/

/-- Whether an exact integer fits a 32-bit `int`. -/
def inInt32 (x : Int) : Bool := decide (-2147483648 ≤ x) && decide (x < 2147483648)

/-- The output matrix of `matrix_multiply`, stored row by row with the row stride 20 of
`int C[][20]`, together with a ghost flag raised when a product or a sum left the 32-bit
range before it was wrapped. -/
structure IntMatrix where
  cells : List Int
  overflow : Bool
deriving DecidableEq, Repr

/-- Body of the `k` loop of `matrix_multiply`: `C[i][j] += A[i][k] * B[k][j]`. -/
def matrix_multiply_inner (A B : List Int) (i j : Nat) (C : IntMatrix) (k : Nat) : IntMatrix :=
  let prod := rd A (i * 20 + k) * rd B (k * 20 + j)
  let sum := rd C.cells (i * 20 + j) + wrap32 prod
  { cells := wr C.cells (i * 20 + j) (wrap32 sum)
    overflow := C.overflow || !inInt32 prod || !inInt32 sum }

/-- Body of the `j` loop of `matrix_multiply`: `C[i][j] = 0`, then the `k` loop. -/
def matrix_multiply_cell (size : Nat) (A B : List Int) (i : Nat) (C : IntMatrix) (j : Nat) :
    IntMatrix :=
  (List.range size).foldl (matrix_multiply_inner A B i j)
    { cells := wr C.cells (i * 20 + j) 0, overflow := C.overflow }

/-- The function `matrix_multiply(size, A, B, C)` for `size >= 0`; the matrices are flat
arrays in which `M[i][j]` is the cell `i * 20 + j`, and the ghost overflow flag starts down. -/
def matrix_multiply (size : Nat) (A B C : List Int) : IntMatrix :=
  (List.range size).foldl
    (fun C i => (List.range size).foldl (matrix_multiply_cell size A B i) C)
    { cells := C, overflow := false }

/-- The three matrices of `benchmark_matrix_multiplication`, with the ghost overflow flag of
the latest call of `matrix_multiply`. -/
structure MatrixRun where
  A : List Int
  B : List Int
  C : List Int
  overflow : Bool
deriving DecidableEq, Repr

/-- The population loops of the benchmark: `A[i][j] = i + j` and `B[i][j] = i - j` for
`i, j < n`. -/
def matrix_populate (n : Nat) (st : MatrixRun) : MatrixRun :=
  (List.range n).foldl
    (fun st i => (List.range n).foldl
      (fun st j =>
        { A := wr st.A (i * 20 + j) ((i : Int) + (j : Int))
          B := wr st.B (i * 20 + j) ((i : Int) - (j : Int))
          C := st.C
          overflow := st.overflow }) st) st

/-- One iteration of the loop over `sizes` in `benchmark_matrix_multiplication`: populate,
then multiply (the timing and the printed record are left out). -/
def benchmark_matrix_size (st : MatrixRun) (n : Nat) : MatrixRun :=
  let st1 := matrix_populate n st
  let out := matrix_multiply n st1.A st1.B st1.C
  { A := st1.A, B := st1.B, C := out.cells, overflow := out.overflow }

/-- The matrices after each of the two measurements of `benchmark_matrix_multiplication`
(`sizes = {10, 20}`), starting from arbitrary stack contents `st`. -/
def benchmark_matrix_multiplication (st : MatrixRun) : List MatrixRun :=
  [benchmark_matrix_size st 10, benchmark_matrix_size (benchmark_matrix_size st 10) 20]

/-- The exact integer `sum over k < size of A[i][k] * B[k][j]`. -/
def matrix_dot (size : Nat) (A B : List Int) (i j : Nat) : Int :=
  ∑ k in Finset.range size, rd A (i * 20 + k) * rd B (k * 20 + j)

/-- What C9 says of the matrices `r` after the measurement of size `n`: the inputs are
`A[i][j] = i + j` and `B[i][j] = i - j`, no product or sum overflowed, and the product is the
exact reference sum, which has the closed form of the claim. -/
def MatrixReference (n : Nat) (r : MatrixRun) : Prop :=
  r.overflow = false ∧
  ∀ i j : Nat, i < n → j < n →
    rd r.A (i * 20 + j) = (i : Int) + (j : Int) ∧
    rd r.B (i * 20 + j) = (i : Int) - (j : Int) ∧
    rd r.C (i * 20 + j) = ∑ k in Finset.range n, ((i : Int) + (k : Int)) * ((k : Int) - (j : Int)) ∧
    rd r.C (i * 20 + j) = (n : Int) * ((n : Int) - 1) * (2 * (n : Int) - 1) / 6
      + ((i : Int) - (j : Int)) * ((n : Int) * ((n : Int) - 1) / 2) - (n : Int) * i * j

/-! ## Loop-overhead kernel (`src/loop/benchmark.c`) -/

/-- The function `loop_counter(sink, iterations)`, returning the final value of `*sink`: the
body `*sink += 1` (wrapping at 32 bits) runs once for every `i` in `[0, iterations)`. -/
def loop_counter (sink : Int) (iterations : Int) : Int :=
  (List.range iterations.toNat).foldl (fun s _ => wrap32 (s + 1)) sink

/-! ## The measurement wrappers: clock and console -/

/-- One call of `printf`: its format string and its integer arguments, in order. -/
structure Printf where
  fmt : String
  args : List Int
deriving DecidableEq, Repr

/-- The clock of the Pico SDK, which is not part of the repository: `now k` is what the
`k`-th call of `get_absolute_time()` returns and `diff_us` is `absolute_time_diff_us`. -/
structure Clock (τ : Type) where
  now : Nat → τ
  diff_us : τ → τ → Int

/-- What a benchmark has done to the outside world: the `printf` calls made so far and the
number of clock readings taken so far. -/
structure Console where
  out : List Printf
  ticks : Nat
deriving DecidableEq, Repr

/-- The call `printf(fmt, args...)`. -/
def printf (w : Console) (fmt : String) (args : List Int) : Console :=
  { out := w.out ++ [{ fmt := fmt, args := args }], ticks := w.ticks }

/-- The call `get_absolute_time()`. -/
def get_absolute_time {τ : Type} (clk : Clock τ) (w : Console) : τ × Console :=
  (clk.now w.ticks, { out := w.out, ticks := w.ticks + 1 })

/-- State of `benchmark_loop_overhead`: the console, the local `sink`, and the ghost list of
the values `sink` held at the start of each timed call of `loop_counter`. -/
structure LoopRun where
  console : Console
  sink : Int
  starts : List Int
deriving DecidableEq, Repr

/-- Body of the loop over `iterations[]` in `benchmark_loop_overhead`. -/
def benchmark_loop_overhead_step {τ : Type} (clk : Clock τ) (st : LoopRun) (n : Int) :
    LoopRun :=
  let t0 := get_absolute_time clk st.console
  let start := t0.1
  let sink := loop_counter st.sink n
  let t1 := get_absolute_time clk t0.2
  let elapsed := clk.diff_us start t1.1
  { console := printf t1.2 "loop,for_loop,%d,%lld\n" [n, elapsed]
    sink := sink
    starts := st.starts ++ [st.sink] }

/-- The function `benchmark_loop_overhead()`: `sink` is initialised to 0 once, the header is
printed, and the loop runs over the four iteration counts. -/
def benchmark_loop_overhead {τ : Type} (clk : Clock τ) (w : Console) : LoopRun :=
  [1000, 10000, 100000, 1000000].foldl (benchmark_loop_overhead_step clk)
    { console := printf w "task,method,iterations,time_us\n" [], sink := 0, starts := [] }

/-- Body of the loop over `test_values[]` in `benchmark_fibonacci`: the iterative variant,
then the recursive one, each between two clock readings and followed by its record. -/
def benchmark_fibonacci_step {τ : Type} (clk : Clock τ) (fuel : Nat) (w : Console) (n : Int) :
    Option Console :=
  let t0 := get_absolute_time clk w
  (fib_iterative fuel n).bind fun result =>
    let t1 := get_absolute_time clk t0.2
    let elapsed_us := clk.diff_us t0.1 t1.1
    let w1 := printf t1.2 "fibonacci,iterative,%d,%d,%lld\n" [n, result, elapsed_us]
    let t2 := get_absolute_time clk w1
    (fib_recursive fuel n).bind fun result =>
      let t3 := get_absolute_time clk t2.2
      let elapsed_us := clk.diff_us t2.1 t3.1
      some (printf t3.2 "fibonacci,recursive,%d,%d,%lld\n" [n, result, elapsed_us])

/-- The function `benchmark_fibonacci()`. -/
def benchmark_fibonacci {τ : Type} (clk : Clock τ) (fuel : Nat) (w : Console) :
    Option Console :=
  [10, 20, 30, 35].foldlM (benchmark_fibonacci_step clk fuel)
    (printf w "task,method,n,result,time_us\n" [])

/-- The complex number held at index `i` of the two parallel arrays. -/
def cx (sig : Signal ℝ) (i : ℕ) : ℂ := ⟨rd sig.real i, rd sig.imag i⟩

/-- One level of the radix-2 recombination on a whole array `a` of blocks of length `2 * h`:
the value the butterflies of a stage with twiddle `w` leave at index `x`. -/
def stageFn {R : Type} [CommRing R] (w : R) (h : Nat) (a : Nat → R) (x : Nat) : R :=
  if x % (2 * h) < h then a x + w ^ (x % (2 * h)) * a (x + h)
  else a (x - h) - w ^ (x % (2 * h) - h) * a x

/-- Transform of length `len` of the subsequence `x (l * stride + r)`, `l < len`, at
frequency `j`, for the root `w`. -/
def subDFT {R : Type} [CommRing R] (x : Nat → R) (w : R) (len stride r j : Nat) : R :=
  ∑ l in Finset.range len, x (l * stride + r) * w ^ (j * l)

/-- The number `w` is the twiddle factor `e^(-2 pi i / m)` of a stage with sub-problem size
`m`. -/
def IsTwiddle (m : Nat) (w : ℂ) : Prop :=
  w = Complex.exp (((-2 * Real.pi / (m : ℝ) : ℝ) : ℂ) * Complex.I)

/-- Invariant of the stage loop of `fft_radix2` after the stage with sub-problem size `2 ^ s`:
block `b` holds the transform of the subsequence of `x` with stride `2 ^ q` and offset
`bitrev q b`. -/
def StageInv (x : Nat → ℂ) (p s q : Nat) (sig : Signal ℝ) : Prop :=
  sig.real.length = 2 ^ p ∧ sig.imag.length = 2 ^ p ∧
    ∀ W, IsTwiddle (2 ^ s) W → ∀ b j, b < 2 ^ q → j < 2 ^ s →
      cx sig (b * 2 ^ s + j) = subDFT x W (2 ^ s) (2 ^ q) (bitrev q b) j

/-- Invariant of the `for` loop of `bit_reverse` for one array: `a` is `a0` with every pair
`(x, bitrev p x)` exchanged whose smaller member is below `k`. -/
def RevPrefix {α : Type} [Zero α] (p k : Nat) (a0 a : List α) : Prop :=
  a.length = 2 ^ p ∧
    ∀ x, x < 2 ^ p → rd a x = if x < k ∨ bitrev p x < k then rd a0 (bitrev p x) else rd a0 x

/-! ## The sort benchmarks (`benchmark_bubble_sort`, `benchmark_quick_sort`) -/

/-- The population loop of both sort benchmarks with its index log: `test[i] = n - i`. -/
def benchmark_sort_populate (st : IntArray) (n : Nat) : IntArray :=
  (List.range n).foldl
    (fun st i => { arr := wr st.arr i ((n : Int) - (i : Int)), log := st.log ++ [(i : Int)] }) st

/-- State of a sort benchmark: the console and the local buffer `test` with the log of every
index of `test` that has been read or written. -/
structure SortRun where
  console : Console
  test : IntArray
deriving DecidableEq, Repr

/-- Body of the loop over `sizes[]` in `benchmark_bubble_sort`. -/
def benchmark_bubble_sort_step {τ : Type} (clk : Clock τ) (st : SortRun) (n : Nat) : SortRun :=
  let test1 := benchmark_sort_populate st.test n
  let t0 := get_absolute_time clk st.console
  let test2 := bubble_sort test1 n
  let t1 := get_absolute_time clk t0.2
  let elapsed := clk.diff_us t0.1 t1.1
  { console := printf t1.2 "bubblesort,bubble,%d,%lld\n" [(n : Int), elapsed], test := test2 }

/-- The function `benchmark_bubble_sort()`; `test` is what the uninitialised local buffer
`int test[100]` happens to hold. -/
def benchmark_bubble_sort {τ : Type} (clk : Clock τ) (test : List Int) (w : Console) : SortRun :=
  [10, 50, 100].foldl (benchmark_bubble_sort_step clk)
    { console := printf w "task,method,size,time_us\n" [], test := { arr := test, log := [] } }

/-- Body of the loop over `sizes[]` in `benchmark_quick_sort`. -/
def benchmark_quick_sort_step {τ : Type} (clk : Clock τ) (fuel : Nat) (st : SortRun) (n : Nat) :
    Option SortRun :=
  let test1 := benchmark_sort_populate st.test n
  let t0 := get_absolute_time clk st.console
  (quick_sort fuel test1 0 ((n : Int) - 1)).bind fun test2 =>
    let t1 := get_absolute_time clk t0.2
    let elapsed := clk.diff_us t0.1 t1.1
    some { console := printf t1.2 "quicksort,quick,%d,%lld\n" [(n : Int), elapsed]
           test := test2 }

/-- The function `benchmark_quick_sort()`; `test` is what the uninitialised local buffer
`int test[100]` happens to hold. -/
def benchmark_quick_sort {τ : Type} (clk : Clock τ) (fuel : Nat) (test : List Int)
    (w : Console) : Option SortRun :=
  [10, 50, 100].foldlM (benchmark_quick_sort_step clk fuel)
    { console := printf w "task,method,size,time_us\n" [], test := { arr := test, log := [] } }

/-- The array after the first `k` outer passes of `bubble_sort(arr, n)`. -/
def bubble_sort_passes (st : IntArray) (n k : Nat) : IntArray :=
  (List.range k).foldl
    (fun st i => (List.range (n - i - 1)).foldl bubble_sort_inner st) st

/-- The calls of `partition` that `quick_sort(arr, low, high)` makes, in execution order, each
as the array it receives with its bounds: a ghost trace that follows the recursion of
`quick_sort` itself. -/
def quick_sort_calls : Nat → IntArray → Int → Int → List (IntArray × Int × Int)
  | 0, _, _, _ => []
  | fuel + 1, st, low, high =>
    if low < high then
      let r := partition st low high
      (st, low, high) ::
        (quick_sort_calls fuel r.2 low (r.1 - 1) ++
          match quick_sort fuel r.2 low (r.1 - 1) with
          | some st1 => quick_sort_calls fuel st1 (r.1 + 1) high
          | none => [])
    else []

/-- The inputs on which `quick_sort` degenerates: on `[low, high]` the array is either
`c - x` at every index `x` (consecutive descending values), or `c - x` below `high` with a
larger value at `high`. -/
def WorstShape (a : List Int) (low high : Int) : Prop :=
  (∃ c : Int, ∀ x : Nat, low ≤ x → (x : Int) ≤ high → rd a x = c - x) ∨
  (∃ c : Int, (∀ x : Nat, low ≤ x → (x : Int) < high → rd a x = c - x) ∧
    c - low < rd a high.toNat)

/-- Number of evaluations of `arr[j] < pivot` made by one call `partition(arr, low, high)`: one
for each value of `j` its loop `for (j = low; j < high; j++)` runs through. -/
def partition_comparisons (low high : Int) : Nat :=
  ((List.range (high - low).toNat).map fun (d : Nat) => low + (d : Int)).length

/-! ## The remaining wrappers and the suite driver (`run_software_benchmarks.c`) -/

/-- Body of the loop over `sizes[]` in `benchmark_matrix_multiplication`, with its two clock
readings and its record: the matrices are those of `benchmark_matrix_size`. -/
def benchmark_matrix_multiplication_step {τ : Type} (clk : Clock τ) (st : MatrixRun × Console)
    (n : Nat) : MatrixRun × Console :=
  let st1 := matrix_populate n st.1
  let t0 := get_absolute_time clk st.2
  let out := matrix_multiply n st1.A st1.B st1.C
  let t1 := get_absolute_time clk t0.2
  let elapsed := clk.diff_us t0.1 t1.1
  ({ A := st1.A, B := st1.B, C := out.cells, overflow := out.overflow },
    printf t1.2 "matrix,multiply,%d,%lld\n" [(n : Int), elapsed])

/-- The function `benchmark_matrix_multiplication()` with its output; `st` is what the
uninitialised local matrices happen to hold. -/
def benchmark_matrix_multiplication_run {τ : Type} (clk : Clock τ) (st : MatrixRun)
    (w : Console) : MatrixRun × Console :=
  [10, 20].foldl (benchmark_matrix_multiplication_step clk)
    (st, printf w "task,method,size,time_us\n" [])

/-- The population loop of `benchmark_fft`: `real[i] = sinf(2 * PI * i / N)` and
`imag[i] = 0` for `i < N`. -/
def fft_populate {α : Type} [Zero α] [Mul α] [Div α] [NatCast α] [OfNat α 2] (PI : α)
    (sinf : α → α) (N : Nat) (sig : Signal α) : Signal α :=
  (List.range N).foldl
    (fun sig i =>
      { real := wr sig.real i (sinf (2 * PI * (i : α) / (N : α)))
        imag := wr sig.imag i 0
        log := sig.log ++ [i] }) sig

/-- The function `benchmark_fft()`, returning the arrays with the console; `real` and `imag`
are what the uninitialised local buffers `float real[N]`, `float imag[N]` happen to hold. -/
def benchmark_fft {α τ : Type} [Zero α] [One α] [Add α] [Sub α] [Mul α] [Div α] [Neg α]
    [NatCast α] [OfNat α 2] (PI : α) (cosf sinf : α → α) (clk : Clock τ) (fuel : Nat)
    (real imag : List α) (w : Console) : Option (Signal α × Console) :=
  let N := 128
  let sig := fft_populate PI sinf N { real := real, imag := imag, log := [] }
  let t0 := get_absolute_time clk w
  (fft_radix2 PI cosf sinf fuel sig N).map fun out =>
    let t1 := get_absolute_time clk t0.2
    let elapsed := clk.diff_us t0.1 t1.1
    (out, printf (printf t1.2 "task,method,size,time_us\n" [])
      "fft,radix2,%d,%lld\n" [(N : Int), elapsed])

/-- What the uninitialised local buffers of the benchmarks happen to hold when
`run_software_benchmarks` calls them. -/
structure Stack (α : Type) where
  bubble_test : List Int
  quick_test : List Int
  matrices : MatrixRun
  real : List α
  imag : List α

/-- The function `run_software_benchmarks()`: the six benchmarks in the order of the source,
each followed by the divider. -/
def run_software_benchmarks {α τ : Type} [Zero α] [One α] [Add α] [Sub α] [Mul α] [Div α]
    [Neg α] [NatCast α] [OfNat α 2] (PI : α) (cosf sinf : α → α) (clk : Clock τ) (fuel : Nat)
    (stack : Stack α) (w : Console) : Option Console :=
  (benchmark_fibonacci clk fuel w).bind fun w1 =>
    let w1 := printf w1 "----------------------\n" []
    let w2 := (benchmark_bubble_sort clk stack.bubble_test w1).console
    let w2 := printf w2 "----------------------\n" []
    (benchmark_quick_sort clk fuel stack.quick_test w2).bind fun r3 =>
      let w3 := printf r3.console "----------------------\n" []
      let w4 := (benchmark_loop_overhead clk w3).console
      let w4 := printf w4 "----------------------\n" []
      let w5 := (benchmark_matrix_multiplication_run clk stack.matrices w4).2
      let w5 := printf w5 "----------------------\n" []
      (benchmark_fft PI cosf sinf clk fuel stack.real stack.imag w5).map fun r6 =>
        printf r6.2 "----------------------\n" []

/-- The inverse transform that the specification describes; the repository has no such
function.  It is the forward kernel with conjugated twiddles and `1/n` scaling, obtained from
`fft_radix2` itself: conjugate the input, transform, conjugate the output, divide by `n`. -/
def inverse_by_conjugation {α : Type} [Zero α] [One α] [Add α] [Sub α] [Mul α] [Div α]
    [Neg α] [NatCast α] [OfNat α 2] (PI : α) (cosf sinf : α → α) (fuel : Nat) (sig : Signal α)
    (n : Nat) : Option (Signal α) :=
  (fft_radix2 PI cosf sinf fuel
      { real := sig.real
        imag := sig.imag.map (fun v => -v)
        log := sig.log } n).map
    fun out =>
      { real := out.real.map (fun v => v / (n : α))
        imag := out.imag.map (fun v => -v / (n : α))
        log := out.log }

/-! ## Ghost traces of the additions of the Fibonacci kernels -/

/-- The exact, unwrapped values of the sums `fib_recursive(n - 1) + fib_recursive(n - 2)` that
a call `fib_recursive(n)` performs, in execution order: a ghost trace that follows the
recursion of `fib_recursive` itself and takes the operands from it. -/
def fib_recursive_sums : Nat → Int → List Int
  | 0, _ => []
  | fuel + 1, n =>
    if n ≤ 1 then []
    else
      fib_recursive_sums fuel (n - 1) ++ fib_recursive_sums fuel (n - 2) ++
        match fib_recursive fuel (n - 1), fib_recursive fuel (n - 2) with
        | some a, some b => [a + b]
        | _, _ => []

/-- Body of the loop of `fib_iterative` with the ghost list of the exact, unwrapped values of
its two additions: `prev + curr`, then `++i`. -/
def fib_iterative_body_sums (s : FibState × List Int) : FibState × List Int :=
  (fib_iterative_body s.1, s.2 ++ [s.1.prev + s.1.curr, s.1.i + 1])

/-- The exact values of the additions that `fib_iterative(n)` performs, in execution order;
`none` when the loop has not ended within the fuel. -/
def fib_iterative_sums (fuel : Nat) (n : Int) : Option (List Int) :=
  if n ≤ 1 then some []
  else
    (whileLoop (fun s => decide (s.1.i ≤ n)) fib_iterative_body_sums fuel
      ({ prev := 0, curr := 1, i := 2 }, [])).map fun s => s.2

/-! ## `matrix_multiply` on one memory -/

/-- Body of the `k` loop of `matrix_multiply` when the three matrices live in one memory
`mem`, `A` from cell `a`, `B` from cell `b` and `C` from cell `c`:
`C[i][j] += A[i][k] * B[k][j]`. -/
def matrix_multiply_at_inner (a b c i j : Nat) (mem : List Int) (k : Nat) : List Int :=
  let prod := rd mem (a + (i * 20 + k)) * rd mem (b + (k * 20 + j))
  let sum := rd mem (c + (i * 20 + j)) + wrap32 prod
  wr mem (c + (i * 20 + j)) (wrap32 sum)

/-- Body of the `j` loop of `matrix_multiply` in one memory: `C[i][j] = 0`, then the `k`
loop. -/
def matrix_multiply_at_cell (size a b c i : Nat) (mem : List Int) (j : Nat) : List Int :=
  (List.range size).foldl (matrix_multiply_at_inner a b c i j) (wr mem (c + (i * 20 + j)) 0)

/-- The function `matrix_multiply(size, A, B, C)` for `size >= 0` as a transformation of one
memory that holds the three matrices at the cells `a`, `b`, `c`, so that what it leaves
untouched can be stated. -/
def matrix_multiply_at (size a b c : Nat) (mem : List Int) : List Int :=
  (List.range size).foldl
    (fun mem i => (List.range size).foldl (matrix_multiply_at_cell size a b c i) mem) mem

/-- The 400 cells of the matrix that starts at cell `a` of the memory `mem`. -/
def matrix_at (mem : List Int) (a : Nat) : List Int :=
  (List.range 400).map fun (y : Nat) => rd mem (a + y)

/-- The memory `m` holds the matrix `C` from cell `c` on and agrees with `mem` everywhere
else. -/
def MemSim (mem : List Int) (c : Nat) (m : List Int) (C : IntMatrix) : Prop :=
  m.length = mem.length ∧ C.cells.length = 400 ∧
  (∀ y, y < 400 → rd m (c + y) = rd C.cells y) ∧
  ∀ x, (x < c ∨ c + 400 ≤ x) → rd m x = rd mem x

/-! ## Lemmas on the memory primitives -/

theorem length_wr {α : Type} (arr : List α) (i : Nat) (v : α) : (wr arr i v).length = arr.length := by
  simp [wr]

theorem rd_wr_same {α : Type} [Zero α] (arr : List α) (i : Nat) (v : α) (h : i < arr.length) :
    rd (wr arr i v) i = v := by
  simp [rd, wr, List.getD_eq_getElem?_getD, List.getElem?_set, h]

theorem rd_wr_other {α : Type} [Zero α] (arr : List α) (i j : Nat) (v : α) (h : i ≠ j) :
    rd (wr arr i v) j = rd arr j := by
  simp [rd, wr, List.getD_eq_getElem?_getD, List.getElem?_set, h]

theorem rd_wr {α : Type} [Zero α] (arr : List α) (i j : Nat) (v : α) (h : i < arr.length) :
    rd (wr arr i v) j = if j = i then v else rd arr j := by
  by_cases e : j = i
  · subst e; simp [rd_wr_same _ _ _ h]
  · simp [e, rd_wr_other _ _ _ _ (Ne.symm e)]

theorem rd_eq_getElem {α : Type} [Zero α] (arr : List α) (i : Nat) (h : i < arr.length) : rd arr i = arr[i] := by
  simp [rd, List.getD_eq_getElem?_getD, h]

theorem ext_rd {α : Type} [Zero α] (a b : List α) (hl : a.length = b.length)
    (h : ∀ i, i < a.length → rd a i = rd b i) : a = b := by
  apply List.ext_getElem hl
  intro i h1 h2
  have := h i h1
  rwa [rd_eq_getElem _ _ h1, rd_eq_getElem _ _ h2] at this

/-! ## Bit reversal -/

theorem bitrev_lt (p i : Nat) : bitrev p i < 2 ^ p := by
  induction p generalizing i with
  | zero => simp [bitrev]
  | succ p ih =>
    have h := ih (i / 2)
    have h2 : i % 2 < 2 := Nat.mod_lt _ (by decide)
    simp only [bitrev, pow_succ]
    rcases Nat.lt_succ_iff.mp h2 with h3
    interval_cases (i % 2) <;> omega

/-- The carry loop of `bit_reverse` turns the reversed counter of `i` into that of `i + 1`. -/
theorem bit_reverse_carry (p fuel i : Nat) (hf : p < fuel) (hi : i < 2 ^ p) :
    ∃ jm, whileLoop bit_reverse_carry_cond bit_reverse_carry_body fuel (bitrev p i, 2 ^ p / 2)
        = some jm ∧ (i + 1 < 2 ^ p → jm.1 + jm.2 = bitrev p (i + 1)) := by
  induction p generalizing fuel i with
  | zero =>
    obtain ⟨f, rfl⟩ : ∃ f, fuel = f + 1 := ⟨fuel - 1, by omega⟩
    refine ⟨(0, 0), ?_, ?_⟩
    · simp [whileLoop, bitrev, bit_reverse_carry_cond]
    · intro h; simp at hi; omega
  | succ p ih =>
    obtain ⟨f, rfl⟩ : ∃ f, fuel = f + 1 := ⟨fuel - 1, by omega⟩
    have hb := bitrev_lt p (i / 2)
    have hm : 2 ^ (p + 1) / 2 = 2 ^ p := by rw [pow_succ]; omega
    have hpos : 0 < 2 ^ p := by positivity
    rw [hm]
    rcases Nat.mod_two_eq_zero_or_one i with h0 | h1
    · refine ⟨(bitrev p (i / 2), 2 ^ p), ?_, ?_⟩
      · have : ¬ (2 ^ p ≤ bitrev p (i / 2)) := by omega
        simp [whileLoop, bitrev, bit_reverse_carry_cond, h0, this]
      · intro _
        have e1 : (i + 1) % 2 = 1 := by omega
        have e2 : (i + 1) / 2 = i / 2 := by omega
        simp only [bitrev, e1, e2]
        omega
    · have h2 : i / 2 < 2 ^ p := by rw [pow_succ] at hi; omega
      obtain ⟨jm, hjm, hsum⟩ := ih f (i / 2) (by omega) h2
      refine ⟨jm, ?_, ?_⟩
      · have e : bitrev (p + 1) i = 2 ^ p + bitrev p (i / 2) := by simp [bitrev, h1]
        rw [e, whileLoop]
        have c : bit_reverse_carry_cond (2 ^ p + bitrev p (i / 2), 2 ^ p) = true := by
          simp [bit_reverse_carry_cond, hpos]
        rw [if_pos c]
        have b : bit_reverse_carry_body (2 ^ p + bitrev p (i / 2), 2 ^ p)
            = (bitrev p (i / 2), 2 ^ p / 2) := by
          simp [bit_reverse_carry_body, Nat.shiftRight_eq_div_pow]
        rw [b]; exact hjm
      · intro h
        have e1 : (i + 1) % 2 = 0 := by omega
        have e2 : (i + 1) / 2 = i / 2 + 1 := by omega
        rw [pow_succ] at h
        rw [hsum (by omega)]
        simp [bitrev, e1, e2]
theorem bitrev_zero (p : Nat) : bitrev p 0 = 0 := by
  induction p with
  | zero => rfl
  | succ p ih => simp [bitrev, ih]

theorem bitrev_succ_high (p i : Nat) (hi : i < 2 ^ (p + 1)) :
    bitrev (p + 1) i = 2 * bitrev p (i % 2 ^ p) + i / 2 ^ p := by
  induction p generalizing i with
  | zero =>
    simp only [bitrev, pow_zero, Nat.mod_one, Nat.div_one]
    simp at hi
    omega
  | succ p ih =>
    have h1 : i / 2 < 2 ^ (p + 1) := by
      rw [pow_succ] at hi; omega
    have e1 : i % 2 ^ (p + 1) % 2 = i % 2 := by
      rw [pow_succ, Nat.mul_comm]; exact Nat.mod_mul_right_mod _ _ _
    have e2 : i % 2 ^ (p + 1) / 2 = i / 2 % 2 ^ p := by
      rw [pow_succ, Nat.mul_comm]; exact Nat.mod_mul_right_div_self _ _ _
    have e3 : i / 2 ^ (p + 1) = i / 2 / 2 ^ p := by
      rw [pow_succ, Nat.mul_comm, Nat.div_div_eq_div_mul]
    rw [bitrev, ih (i / 2) h1]
    conv_rhs => rw [bitrev, e1, e2, e3]
    rw [pow_succ]
    ring

theorem bitrev_bitrev (p i : Nat) (hi : i < 2 ^ p) : bitrev p (bitrev p i) = i := by
  induction p generalizing i with
  | zero => simp at hi; simp [bitrev, hi]
  | succ p ih =>
    have hb := bitrev_lt p (i / 2)
    have h1 : i / 2 < 2 ^ p := by rw [pow_succ] at hi; omega
    rw [bitrev_succ_high p _ (bitrev_lt _ _)]
    have h2 : i % 2 < 2 := Nat.mod_lt _ (by decide)
    have e1 : bitrev (p + 1) i % 2 ^ p = bitrev p (i / 2) := by
      rw [bitrev, Nat.add_comm, Nat.add_mul_mod_self_right, Nat.mod_eq_of_lt hb]
    have e2 : bitrev (p + 1) i / 2 ^ p = i % 2 := by
      rw [bitrev, Nat.add_comm, Nat.add_mul_div_right _ _ (by positivity), Nat.div_eq_of_lt hb]
      simp
    rw [e1, e2, ih _ h1]
    omega
theorem RevPrefix.step {α : Type} [Zero α] (p k : Nat) (a0 a : List α) (h : RevPrefix p k a0 a)
    (hk : k < 2 ^ p) :
    RevPrefix p (k + 1) a0
      (if k < bitrev p k then wr (wr a k (rd a (bitrev p k))) (bitrev p k) (rd a k) else a) := by
  obtain ⟨hl, hx⟩ := h
  have hbk := bitrev_lt p k
  have hkk := bitrev_bitrev p k hk
  refine ⟨by split <;> simp [length_wr, hl], ?_⟩
  intro x hxn
  have hbx := bitrev_lt p x
  have hxx := bitrev_bitrev p x hxn
  have key : bitrev p x = k ↔ x = bitrev p k := by
    constructor
    · intro e; rw [← e, hxx]
    · intro e; rw [e, hkk]
  by_cases c : k < bitrev p k
  · rw [if_pos c, rd_wr _ _ _ _ (by simp [length_wr, hl, hbk]), rd_wr _ _ _ _ (by omega)]
    by_cases e1 : x = bitrev p k
    · have : bitrev p x = k := key.mpr e1
      rw [if_pos e1, hx k hk, if_neg (by omega), if_pos (by omega), this]
    · rw [if_neg e1]
      by_cases e2 : x = k
      · subst e2
        rw [if_pos rfl, hx _ hbk, if_neg (by omega), if_pos (by omega)]
      · rw [if_neg e2, hx x hxn]
        have : bitrev p x ≠ k := fun e => e1 (key.mp e)
        have iff : (x < k ∨ bitrev p x < k) ↔ (x < k + 1 ∨ bitrev p x < k + 1) := by omega
        simp only [iff]
  · rw [if_neg c, hx x hxn]
    by_cases e2 : x = k
    · subst e2
      by_cases e3 : bitrev p x = x
      · simp [e3]
      · rw [if_pos (by omega), if_pos (by omega)]
    · by_cases e1 : x = bitrev p k
      · have : bitrev p x = k := key.mpr e1
        rw [if_pos (by omega), if_pos (by omega)]
      · have : bitrev p x ≠ k := fun e => e1 (key.mp e)
        have iff : (x < k ∨ bitrev p x < k) ↔ (x < k + 1 ∨ bitrev p x < k + 1) := by omega
        simp only [iff]

theorem bit_reverse_prefix {α : Type} [Zero α] (p fuel : Nat) (hf : p < fuel) (sig : Signal α)
    (hr : sig.real.length = 2 ^ p) (hi : sig.imag.length = 2 ^ p) (k : Nat) (hk : k ≤ 2 ^ p) :
    ∃ j out, (List.range k).foldlM (bit_reverse_step fuel (2 ^ p)) (0, sig) = some (j, out) ∧
      (k < 2 ^ p → j = bitrev p k) ∧ RevPrefix p k sig.real out.real ∧
      RevPrefix p k sig.imag out.imag ∧ (∀ y ∈ out.log, y ∈ sig.log ∨ y < 2 ^ p) := by
  induction k with
  | zero =>
    refine ⟨0, sig, by simp, ?_, ⟨hr, ?_⟩, ⟨hi, ?_⟩, ?_⟩
    · intro _; exact (bitrev_zero p).symm
    · intro x _; simp
    · intro x _; simp
    · intro y hy; exact Or.inl hy
  | succ k ih =>
    obtain ⟨j, out, hfold, hj, hre, him, hlog⟩ := ih (by omega)
    have hk' : k < 2 ^ p := by omega
    have hjk := hj hk'
    subst hjk
    obtain ⟨jm, hjm, hsum⟩ := bit_reverse_carry p fuel k hf hk'
    have hbk := bitrev_lt p k
    rw [List.range_succ, List.foldlM_append, hfold]
    simp only [Option.bind_eq_bind, Option.some_bind, List.foldlM_cons, List.foldlM_nil,
      bit_reverse_step, Nat.shiftRight_eq_div_pow, pow_one, hjm, Option.map_some', Option.bind_some]
    refine ⟨_, _, rfl, hsum, ?_, ?_, ?_⟩
    · have := hre.step p k _ _ hk'
      split <;> simp_all
    · have := him.step p k _ _ hk'
      split <;> simp_all
    · intro y hy
      split at hy
      · simp only [List.mem_append, List.mem_cons, List.mem_singleton, List.not_mem_nil,
          or_false] at hy
        rcases hy with h | h | h
        · exact hlog y h
        · right; omega
        · right; omega
      · exact hlog y hy

/-- Result of `bit_reverse` on arrays of length `2 ^ p`: it returns, keeps both lengths, holds
`a0[bitrev p x]` at every index `x`, and touches only indices below `2 ^ p`. -/
theorem bit_reverse_spec {α : Type} [Zero α] (p fuel : Nat) (hf : p < fuel) (sig : Signal α)
    (hr : sig.real.length = 2 ^ p) (hi : sig.imag.length = 2 ^ p) :
    ∃ out, bit_reverse fuel sig (2 ^ p) = some out ∧
      out.real.length = 2 ^ p ∧ out.imag.length = 2 ^ p ∧
      (∀ x, x < 2 ^ p → rd out.real x = rd sig.real (bitrev p x) ∧
        rd out.imag x = rd sig.imag (bitrev p x)) ∧
      (∀ y ∈ out.log, y ∈ sig.log ∨ y < 2 ^ p) := by
  obtain ⟨j, out, hfold, -, hre, him, hlog⟩ :=
    bit_reverse_prefix p fuel hf sig hr hi (2 ^ p) (le_refl _)
  refine ⟨out, by simp [bit_reverse, hfold], hre.1, him.1, ?_, hlog⟩
  intro x hx
  have h1 := hre.2 x hx
  have h2 := him.2 x hx
  rw [if_pos (Or.inl hx)] at h1 h2
  exact ⟨h1, h2⟩

/-- C2: for `n = 2 ^ p` and arrays `real`, `imag` of length `n`, `bit_reverse` (given fuel
above `p` for its carry loop) returns and has moved the element at every index `i < n` to the
index `bitrev p i`, the reversal of the `p` low bits of `i`, in both arrays alike. -/
theorem bit_reverse_moves_to_reversed_index {α : Type} [Zero α] (p fuel : Nat) (hf : p < fuel)
    (real imag : List α) (log : List Nat)
    (hr : real.length = 2 ^ p) (hi : imag.length = 2 ^ p) :
    ∃ out, bit_reverse fuel ⟨real, imag, log⟩ (2 ^ p) = some out ∧
      out.real.length = 2 ^ p ∧ out.imag.length = 2 ^ p ∧
      ∀ i, i < 2 ^ p → rd out.real (bitrev p i) = rd real i ∧
        rd out.imag (bitrev p i) = rd imag i := by
  obtain ⟨out, h, h1, h2, h3, -⟩ := bit_reverse_spec p fuel hf ⟨real, imag, log⟩ hr hi
  refine ⟨out, h, h1, h2, ?_⟩
  intro i hi'
  have := h3 (bitrev p i) (bitrev_lt p i)
  simpa [bitrev_bitrev p i hi'] using this

/-- Witness for C2 at `n = 8`: the hypotheses hold there, and the input indices end up in the
order `0, 4, 2, 6, 1, 5, 3, 7`. -/
theorem bit_reverse_moves_to_reversed_index_witness :
    (∃ out, bit_reverse 4 ⟨[0, 1, 2, 3, 4, 5, 6, 7], [10, 11, 12, 13, 14, 15, 16, 17], []⟩ (2 ^ 3)
        = some out ∧ out.real.length = 2 ^ 3 ∧ out.imag.length = 2 ^ 3 ∧
      ∀ i, i < 2 ^ 3 → rd out.real (bitrev 3 i) = rd ([0, 1, 2, 3, 4, 5, 6, 7] : List Int) i ∧
        rd out.imag (bitrev 3 i) = rd ([10, 11, 12, 13, 14, 15, 16, 17] : List Int) i) ∧
    bit_reverse 4 (⟨[0, 1, 2, 3, 4, 5, 6, 7], [10, 11, 12, 13, 14, 15, 16, 17], []⟩ : Signal Int) 8
      = some ⟨[0, 4, 2, 6, 1, 5, 3, 7], [10, 14, 12, 16, 11, 15, 13, 17], [1, 4, 3, 6]⟩ :=
  ⟨bit_reverse_moves_to_reversed_index 3 4 (by decide) _ _ _ rfl rfl, by decide⟩

/-! ## Lemmas on the loop combinators -/

/-- A fuelled loop whose condition holds along the first `N` iterates and fails at the `N`-th
returns that iterate, given more than `N` units of fuel. -/
theorem whileLoop_iterate {σ : Type} (cond : σ → Bool) (body : σ → σ) (N fuel : Nat) (s : σ)
    (hc : ∀ i, i < N → cond (body^[i] s) = true) (he : cond (body^[N] s) = false)
    (hf : N < fuel) : whileLoop cond body fuel s = some (body^[N] s) := by
  induction N generalizing s fuel with
  | zero =>
    obtain ⟨f, rfl⟩ : ∃ f, fuel = f + 1 := ⟨fuel - 1, by omega⟩
    simp only [Function.iterate_zero, id_eq] at he
    simp [whileLoop, he]
  | succ N ih =>
    obtain ⟨f, rfl⟩ : ∃ f, fuel = f + 1 := ⟨fuel - 1, by omega⟩
    have h0 : cond s = true := hc 0 (by omega)
    rw [whileLoop, if_pos h0, Function.iterate_succ_apply]
    apply ih
    · intro i hi
      have := hc (i + 1) (by omega)
      rwa [Function.iterate_succ_apply] at this
    · rwa [Function.iterate_succ_apply] at he
    · omega

/-- A fuelled loop that returns does so with a state on which the loop condition fails. -/
theorem whileLoop_exit {σ : Type} (cond : σ → Bool) (body : σ → σ) (fuel : Nat) (s r : σ)
    (h : whileLoop cond body fuel s = some r) : cond r = false := by
  induction fuel generalizing s with
  | zero => simp [whileLoop] at h
  | succ f ih =>
    rw [whileLoop] at h
    by_cases c : cond s = true
    · rw [if_pos c] at h; exact ih _ h
    · rw [if_neg c] at h
      cases h
      simpa using c

/-! ## The butterfly network of `fft_radix2` -/

theorem fft_butterfly_spec (w_m_real w_m_imag : ℝ) (m k j n : Nat) (st : Butterfly ℝ)
    (hr : st.sig.real.length = n) (hi : st.sig.imag.length = n)
    (hh : 0 < m / 2) (hu : k + j + m / 2 < n) :
    (fft_butterfly w_m_real w_m_imag m k st j).sig.real.length = n ∧
    (fft_butterfly w_m_real w_m_imag m k st j).sig.imag.length = n ∧
    (fft_butterfly w_m_real w_m_imag m k st j).sig.log = st.sig.log ++ [k + j, k + j + m / 2] ∧
    (⟨(fft_butterfly w_m_real w_m_imag m k st j).w_real,
        (fft_butterfly w_m_real w_m_imag m k st j).w_imag⟩ : ℂ)
      = ⟨st.w_real, st.w_imag⟩ * ⟨w_m_real, w_m_imag⟩ ∧
    ∀ x, cx (fft_butterfly w_m_real w_m_imag m k st j).sig x =
      if x = k + j then cx st.sig (k + j) + ⟨st.w_real, st.w_imag⟩ * cx st.sig (k + j + m / 2)
      else if x = k + j + m / 2 then
        cx st.sig (k + j) - ⟨st.w_real, st.w_imag⟩ * cx st.sig (k + j + m / 2)
      else cx st.sig x := by
  have ht : k + j < n := by omega
  have hne : k + j + m / 2 ≠ k + j := by omega
  refine ⟨by simp [fft_butterfly, length_wr, hr], by simp [fft_butterfly, length_wr, hi],
    by simp [fft_butterfly], ?_, ?_⟩
  · apply Complex.ext <;> simp [fft_butterfly]
  · intro x
    have hne' : k + j ≠ k + j + m / 2 := fun e => hne e.symm
    by_cases e1 : x = k + j
    · subst e1
      apply Complex.ext <;>
        simp [cx, fft_butterfly, rd_wr, length_wr, hr, hi, ht, hu, hne']
    · by_cases e2 : x = k + j + m / 2
      · subst e2
        apply Complex.ext <;>
          simp [cx, fft_butterfly, rd_wr, length_wr, hr, hi, ht, hu, hne]
      · simp [cx, fft_butterfly, rd_wr, length_wr, hr, hi, ht, hu, e1, e2]

theorem fft_jloop_spec (w_m_real w_m_imag : ℝ) (m k n : Nat) (sig0 : Signal ℝ)
    (hr : sig0.real.length = n) (hi : sig0.imag.length = n)
    (hh : 0 < m / 2) (hk : k + 2 * (m / 2) ≤ n) (J : Nat) (hJ : J ≤ m / 2) :
    ∃ st, (List.range J).foldl (fft_butterfly w_m_real w_m_imag m k) ⟨1, 0, sig0⟩ = st ∧
      st.sig.real.length = n ∧ st.sig.imag.length = n ∧
      (⟨st.w_real, st.w_imag⟩ : ℂ) = (⟨w_m_real, w_m_imag⟩ : ℂ) ^ J ∧
      (∀ y ∈ st.sig.log, y ∈ sig0.log ∨ y < n) ∧
      ∀ x, cx st.sig x =
        if k ≤ x ∧ x < k + J then
          cx sig0 x + (⟨w_m_real, w_m_imag⟩ : ℂ) ^ (x - k) * cx sig0 (x + m / 2)
        else if k + m / 2 ≤ x ∧ x < k + m / 2 + J then
          cx sig0 (x - m / 2) - (⟨w_m_real, w_m_imag⟩ : ℂ) ^ (x - k - m / 2) * cx sig0 x
        else cx sig0 x := by
  induction J with
  | zero =>
    refine ⟨_, rfl, hr, hi, ?_, fun y hy => Or.inl hy, ?_⟩
    · simp; rfl
    · intro x
      simp only [List.range_zero, List.foldl_nil]
      rw [if_neg (by omega), if_neg (by omega)]
  | succ J ih =>
    obtain ⟨st, hst, h1, h2, hw, hlog, hcx⟩ := ih (by omega)
    obtain ⟨b1, b2, b3, b4, b5⟩ :=
      fft_butterfly_spec w_m_real w_m_imag m k J n st h1 h2 hh (by omega)
    refine ⟨_, rfl, ?_, ?_, ?_, ?_, ?_⟩
    · rw [List.range_succ, List.foldl_append, hst]; exact b1
    · rw [List.range_succ, List.foldl_append, hst]; exact b2
    · rw [List.range_succ, List.foldl_append, hst]
      simp only [List.foldl_cons, List.foldl_nil]
      rw [b4, hw, pow_succ]
    · rw [List.range_succ, List.foldl_append, hst]
      simp only [List.foldl_cons, List.foldl_nil]
      intro y hy
      rw [b3] at hy
      simp only [List.mem_append, List.mem_cons, List.mem_singleton, List.not_mem_nil,
        or_false] at hy
      rcases hy with h | h | h
      · exact hlog y h
      · right; omega
      · right; omega
    · intro x
      rw [List.range_succ, List.foldl_append, hst]
      simp only [List.foldl_cons, List.foldl_nil]
      rw [b5 x, hw]
      have c1 := hcx (k + J)
      rw [if_neg (by omega), if_neg (by omega)] at c1
      have c2 := hcx (k + J + m / 2)
      rw [if_neg (by omega), if_neg (by omega)] at c2
      by_cases e1 : x = k + J
      · subst e1
        have n1 : k ≤ k + J ∧ k + J < k + (J + 1) := by omega
        rw [if_pos rfl, if_pos n1, c1, c2]
        simp
      · rw [if_neg e1]
        by_cases e2 : x = k + J + m / 2
        · subst e2
          have n1 : ¬ (k ≤ k + J + m / 2 ∧ k + J + m / 2 < k + (J + 1)) := by omega
          have n2 : k + m / 2 ≤ k + J + m / 2 ∧ k + J + m / 2 < k + m / 2 + (J + 1) := by omega
          rw [if_pos rfl, if_neg n1, if_pos n2, c1, c2]
          have : k + J + m / 2 - k - m / 2 = J := by omega
          simp [this]
        · rw [if_neg e2, hcx x]
          by_cases e3 : k ≤ x ∧ x < k + J
          · have n1 : k ≤ x ∧ x < k + (J + 1) := by omega
            rw [if_pos e3, if_pos n1]
          · have n1 : ¬ (k ≤ x ∧ x < k + (J + 1)) := by omega
            rw [if_neg e3, if_neg n1]
            by_cases e4 : k + m / 2 ≤ x ∧ x < k + m / 2 + J
            · have n2 : k + m / 2 ≤ x ∧ x < k + m / 2 + (J + 1) := by omega
              rw [if_pos e4, if_pos n2]
            · have n2 : ¬ (k + m / 2 ≤ x ∧ x < k + m / 2 + (J + 1)) := by omega
              rw [if_neg e4, if_neg n2]

theorem stageFn_block_low {R : Type} [CommRing R] (w : R) (h B x : Nat) (a : Nat → R)
    (h1 : B * (2 * h) ≤ x) (h2 : x < B * (2 * h) + h) :
    stageFn w h a x = a x + w ^ (x - B * (2 * h)) * a (x + h) := by
  obtain ⟨d, rfl⟩ : ∃ d, x = B * (2 * h) + d := ⟨x - B * (2 * h), by omega⟩
  have hd : d < 2 * h := by omega
  have e : (B * (2 * h) + d) % (2 * h) = d := by
    rw [Nat.add_comm, Nat.add_mul_mod_self_right, Nat.mod_eq_of_lt hd]
  have e' : B * (2 * h) + d - B * (2 * h) = d := by omega
  rw [stageFn, e, if_pos (by omega), e']

theorem stageFn_block_high {R : Type} [CommRing R] (w : R) (h B x : Nat) (a : Nat → R)
    (h1 : B * (2 * h) + h ≤ x) (h2 : x < B * (2 * h) + h + h) :
    stageFn w h a x = a (x - h) - w ^ (x - B * (2 * h) - h) * a x := by
  obtain ⟨d, rfl⟩ : ∃ d, x = B * (2 * h) + d := ⟨x - B * (2 * h), by omega⟩
  have hd : d < 2 * h := by omega
  have e : (B * (2 * h) + d) % (2 * h) = d := by
    rw [Nat.add_comm, Nat.add_mul_mod_self_right, Nat.mod_eq_of_lt hd]
  have e' : B * (2 * h) + d - B * (2 * h) = d := by omega
  rw [stageFn, e, if_neg (by omega), e']

theorem fft_kloop_spec (w_m_real w_m_imag : ℝ) (h n : Nat) (sig0 : Signal ℝ)
    (hr : sig0.real.length = n) (hi : sig0.imag.length = n) (hh : 0 < h)
    (B : Nat) (hB : B * (2 * h) ≤ n) :
    ∃ sig, (fft_block w_m_real w_m_imag (2 * h))^[B] (0, sig0) = (B * (2 * h), sig) ∧
      sig.real.length = n ∧ sig.imag.length = n ∧
      (∀ y ∈ sig.log, y ∈ sig0.log ∨ y < n) ∧
      ∀ x, cx sig x =
        if x < B * (2 * h) then stageFn (⟨w_m_real, w_m_imag⟩ : ℂ) h (cx sig0) x
        else cx sig0 x := by
  induction B with
  | zero =>
    refine ⟨sig0, by simp, hr, hi, fun y hy => Or.inl hy, ?_⟩
    intro x
    rw [if_neg (by omega)]
  | succ B ih =>
    have hs : (B + 1) * (2 * h) = B * (2 * h) + 2 * h := by ring
    have hB' : B * (2 * h) + 2 * h ≤ n := by rw [hs] at hB; exact hB
    obtain ⟨sig, hit, h1, h2, hlog, hcx⟩ := ih (by omega)
    have e : 2 * h / 2 = h := Nat.mul_div_cancel_left h (by decide)
    obtain ⟨st, hst, j1, j2, -, jlog, jcx⟩ :=
      fft_jloop_spec w_m_real w_m_imag (2 * h) (B * (2 * h)) n sig h1 h2 (by omega)
        (by omega) (2 * h / 2) (le_refl _)
    rw [e] at hst jcx
    refine ⟨st.sig, ?_, j1, j2, ?_, ?_⟩
    · rw [Function.iterate_succ_apply', hit]
      simp only [fft_block, e, hst]
      congr 1
      ring
    · intro y hy
      rcases jlog y hy with h' | h'
      · exact hlog y h'
      · exact Or.inr h'
    · intro x
      rw [jcx x]
      by_cases c1 : B * (2 * h) ≤ x ∧ x < B * (2 * h) + h
      · have n1 : x < (B + 1) * (2 * h) := by rw [hs]; omega
        have a1 := hcx x
        have a2 := hcx (x + h)
        rw [if_neg (by omega)] at a1 a2
        rw [if_pos c1, if_pos n1, stageFn_block_low _ h B x _ c1.1 c1.2, a1, a2]
      · rw [if_neg c1]
        by_cases c2 : B * (2 * h) + h ≤ x ∧ x < B * (2 * h) + h + h
        · have n1 : x < (B + 1) * (2 * h) := by rw [hs]; omega
          have a1 := hcx x
          have a2 := hcx (x - h)
          rw [if_neg (by omega)] at a1 a2
          rw [if_pos c2, if_pos n1, stageFn_block_high _ h B x _ c2.1 c2.2, a1, a2]
        · rw [if_neg c2, hcx x]
          by_cases c3 : x < B * (2 * h)
          · have n1 : x < (B + 1) * (2 * h) := by rw [hs]; omega
            rw [if_pos c3, if_pos n1]
          · have n1 : ¬ x < (B + 1) * (2 * h) := by rw [hs]; omega
            rw [if_neg c3, if_neg n1]

/-- One stage of the butterfly network on an array of `B` blocks of length `2 * h`. -/
theorem fft_block_loop_spec (w_m_real w_m_imag : ℝ) (h B fuel : Nat) (sig0 : Signal ℝ)
    (hr : sig0.real.length = B * (2 * h)) (hi : sig0.imag.length = B * (2 * h)) (hh : 0 < h)
    (hf : B < fuel) :
    ∃ sig, whileLoop (fun ks : Nat × Signal ℝ => decide (ks.1 < B * (2 * h)))
        (fft_block w_m_real w_m_imag (2 * h)) fuel (0, sig0) = some (B * (2 * h), sig) ∧
      sig.real.length = B * (2 * h) ∧ sig.imag.length = B * (2 * h) ∧
      (∀ y ∈ sig.log, y ∈ sig0.log ∨ y < B * (2 * h)) ∧
      ∀ x, x < B * (2 * h) → cx sig x = stageFn (⟨w_m_real, w_m_imag⟩ : ℂ) h (cx sig0) x := by
  obtain ⟨sig, hit, h1, h2, hlog, hcx⟩ :=
    fft_kloop_spec w_m_real w_m_imag h (B * (2 * h)) sig0 hr hi hh B (le_refl _)
  refine ⟨sig, ?_, h1, h2, hlog, ?_⟩
  · rw [← hit]
    apply whileLoop_iterate _ _ B fuel _ _ _ hf
    · intro i hi'
      have hle : i * (2 * h) ≤ B * (2 * h) := Nat.mul_le_mul_right _ (by omega)
      obtain ⟨sg, hsg, -⟩ := fft_kloop_spec w_m_real w_m_imag h (B * (2 * h)) sig0 hr hi hh i hle
      rw [hsg]
      have : i * (2 * h) < B * (2 * h) := Nat.mul_lt_mul_of_pos_right hi' (by omega)
      simpa using this
    · rw [hit]; simp
  · intro x hx
    rw [hcx x, if_pos hx]

/-! ## The algebra of one radix-2 level -/

theorem sum_range_even_odd {R : Type} [CommRing R] (f : Nat → R) (L : Nat) :
    ∑ l in Finset.range (2 * L), f l =
      ∑ l in Finset.range L, f (2 * l) + ∑ l in Finset.range L, f (2 * l + 1) := by
  induction L with
  | zero => simp
  | succ L ih =>
    have e : 2 * (L + 1) = 2 * L + 1 + 1 := by ring
    rw [e, Finset.sum_range_succ, Finset.sum_range_succ, ih, Finset.sum_range_succ,
      Finset.sum_range_succ]
    ring

theorem subDFT_low {R : Type} [CommRing R] (x : Nat → R) (W1 W0 : R) (hW : W1 ^ 2 = W0)
    (L Q r j : Nat) :
    subDFT x W1 (2 * L) Q r j =
      subDFT x W0 L (2 * Q) r j + W1 ^ j * subDFT x W0 L (2 * Q) (Q + r) j := by
  simp only [subDFT]
  rw [sum_range_even_odd, Finset.mul_sum]
  congr 1
  · apply Finset.sum_congr rfl
    intro l _
    have e : 2 * l * Q + r = l * (2 * Q) + r := by ring
    rw [e, ← hW, ← pow_mul]
    congr 2
    ring
  · apply Finset.sum_congr rfl
    intro l _
    have e : (2 * l + 1) * Q + r = l * (2 * Q) + (Q + r) := by ring
    rw [e, ← hW, ← pow_mul]
    have e2 : j * (2 * l + 1) = j + 2 * (j * l) := by ring
    rw [e2, pow_add]
    ring

theorem subDFT_high {R : Type} [CommRing R] (x : Nat → R) (W1 W0 : R) (hW : W1 ^ 2 = W0)
    (L Q r j : Nat) (hL : W1 ^ L = -1) :
    subDFT x W1 (2 * L) Q r (j + L) =
      subDFT x W0 L (2 * Q) r j - W1 ^ j * subDFT x W0 L (2 * Q) (Q + r) j := by
  simp only [subDFT]
  rw [sum_range_even_odd, Finset.mul_sum, sub_eq_add_neg, ← Finset.sum_neg_distrib]
  congr 1
  · apply Finset.sum_congr rfl
    intro l _
    have e : 2 * l * Q + r = l * (2 * Q) + r := by ring
    have e2 : (j + L) * (2 * l) = 2 * (j * l) + L * (2 * l) := by ring
    rw [e, ← hW, ← pow_mul, e2, pow_add, pow_mul W1 L, hL]
    simp
  · apply Finset.sum_congr rfl
    intro l _
    have e : (2 * l + 1) * Q + r = l * (2 * Q) + (Q + r) := by ring
    have e2 : (j + L) * (2 * l + 1) = j + 2 * (j * l) + L * (2 * l + 1) := by ring
    rw [e, ← hW, ← pow_mul, e2, pow_add, pow_add, pow_mul W1 L, hL]
    have : (-1 : R) ^ (2 * l + 1) = -1 := by
      rw [pow_succ, pow_mul]; simp
    rw [this]
    ring

theorem bitrev_double (q b : Nat) : bitrev (q + 1) (2 * b) = bitrev q b := by
  have e1 : 2 * b % 2 = 0 := by omega
  have e2 : 2 * b / 2 = b := by omega
  simp [bitrev, e1, e2]

theorem bitrev_double_succ (q b : Nat) : bitrev (q + 1) (2 * b + 1) = 2 ^ q + bitrev q b := by
  have e1 : (2 * b + 1) % 2 = 1 := by omega
  have e2 : (2 * b + 1) / 2 = b := by omega
  simp [bitrev, e1, e2]

/-- Invariant of the stage loop: block `b` of length `2 ^ s` holds the transform of the
subsequence of `x` with stride `2 ^ q` and offset `bitrev q b`. -/
theorem stageFn_subDFT {R : Type} [CommRing R] (x a : Nat → R) (W1 W0 : R) (s q : Nat)
    (hW : W1 ^ 2 = W0) (hL : W1 ^ (2 ^ s) = -1)
    (ha : ∀ b j, b < 2 ^ (q + 1) → j < 2 ^ s →
      a (b * 2 ^ s + j) = subDFT x W0 (2 ^ s) (2 ^ (q + 1)) (bitrev (q + 1) b) j)
    (b j : Nat) (hb : b < 2 ^ q) (hj : j < 2 ^ (s + 1)) :
    stageFn W1 (2 ^ s) a (b * 2 ^ (s + 1) + j)
      = subDFT x W1 (2 ^ (s + 1)) (2 ^ q) (bitrev q b) j := by
  have p1 : 2 ^ (s + 1) = 2 * 2 ^ s := by ring
  have p2 : 2 ^ (q + 1) = 2 * 2 ^ q := by ring
  have hb2 : 2 * b + 1 < 2 ^ (q + 1) := by omega
  rw [p1] at hj ⊢
  by_cases c : j < 2 ^ s
  · rw [stageFn_block_low W1 (2 ^ s) b _ a (by omega) (by omega)]
    have i1 : b * (2 * 2 ^ s) + j = (2 * b) * 2 ^ s + j := by ring
    have i2 : b * (2 * 2 ^ s) + j + 2 ^ s = (2 * b + 1) * 2 ^ s + j := by ring
    have i3 : b * (2 * 2 ^ s) + j - b * (2 * 2 ^ s) = j := by omega
    rw [i3, i2, ha (2 * b + 1) j hb2 c, i1, ha (2 * b) j (by omega) c, bitrev_double,
      bitrev_double_succ, p2]
    exact (subDFT_low x W1 W0 hW _ _ _ _).symm
  · obtain ⟨d, rfl⟩ : ∃ d, j = d + 2 ^ s := ⟨j - 2 ^ s, by omega⟩
    have hd : d < 2 ^ s := by omega
    rw [stageFn_block_high W1 (2 ^ s) b _ a (by omega) (by omega)]
    have i1 : b * (2 * 2 ^ s) + (d + 2 ^ s) - 2 ^ s = (2 * b) * 2 ^ s + d := by
      have : b * (2 * 2 ^ s) = (2 * b) * 2 ^ s := by ring
      omega
    have i2 : b * (2 * 2 ^ s) + (d + 2 ^ s) = (2 * b + 1) * 2 ^ s + d := by ring
    have i3 : b * (2 * 2 ^ s) + (d + 2 ^ s) - b * (2 * 2 ^ s) - 2 ^ s = d := by omega
    rw [i3, i1, ha (2 * b) d (by omega) hd, i2, ha (2 * b + 1) d hb2 hd, bitrev_double,
      bitrev_double_succ, p2]
    exact (subDFT_high x W1 W0 hW _ _ _ _ hL).symm

/-! ## Twiddle factors -/

theorem isTwiddle_mk (m : Nat) :
    IsTwiddle m ⟨Real.cos (-2 * Real.pi / (m : ℝ)), Real.sin (-2 * Real.pi / (m : ℝ))⟩ := by
  unfold IsTwiddle
  apply Complex.ext
  · rw [Complex.exp_ofReal_mul_I_re]
  · rw [Complex.exp_ofReal_mul_I_im]

theorem IsTwiddle.sq (m : Nat) (w1 w0 : ℂ) (hm : 0 < m) (h1 : IsTwiddle (2 * m) w1)
    (h0 : IsTwiddle m w0) : w1 ^ 2 = w0 := by
  unfold IsTwiddle at h1 h0
  rw [h1, h0, ← Complex.exp_nat_mul]
  congr 1
  have : (m : ℂ) ≠ 0 := by exact_mod_cast hm.ne'
  push_cast
  field_simp
  ring

theorem IsTwiddle.pow_half (m : Nat) (w1 : ℂ) (hm : 0 < m) (h1 : IsTwiddle (2 * m) w1) :
    w1 ^ m = -1 := by
  unfold IsTwiddle at h1
  rw [h1, ← Complex.exp_nat_mul]
  have : (m : ℂ) ≠ 0 := by exact_mod_cast hm.ne'
  have e : (m : ℂ) * (((-2 * Real.pi / ((2 * m : ℕ) : ℝ) : ℝ) : ℂ) * Complex.I)
      = -(Real.pi * Complex.I) := by
    push_cast
    field_simp
    ring
  rw [e, Complex.exp_neg, Complex.exp_pi_mul_I]
  norm_num

theorem IsTwiddle.one (w : ℂ) (h : IsTwiddle 1 w) : w = 1 := by
  unfold IsTwiddle at h
  rw [h]
  have e : (((-2 * Real.pi / ((1 : ℕ) : ℝ) : ℝ) : ℂ) * Complex.I) = -(2 * Real.pi * Complex.I) := by
    push_cast
    ring
  rw [e, Complex.exp_neg, Complex.exp_two_pi_mul_I]
  norm_num

/-! ## The stage loop -/

theorem fft_stage_spec (x : Nat → ℂ) (p s q fuel : Nat) (hp : s + (q + 1) = p)
    (hf : 2 ^ q < fuel) (sig : Signal ℝ) (hinv : StageInv x p s (q + 1) sig) :
    ∃ out, fft_stage Real.pi Real.cos Real.sin fuel (2 ^ p) (s + 1, sig) = some (s + 2, out) ∧
      StageInv x p (s + 1) q out ∧ (∀ y ∈ out.log, y ∈ sig.log ∨ y < 2 ^ p) := by
  obtain ⟨hr, hi, hcx⟩ := hinv
  have hm : 1 <<< (s + 1) = 2 * 2 ^ s := by rw [Nat.one_shiftLeft]; ring
  have hn : 2 ^ p = 2 ^ q * (2 * 2 ^ s) := by rw [← hp]; ring
  have hpos : 0 < 2 ^ s := by positivity
  obtain ⟨out, hloop, h1, h2, hlog, hout⟩ :=
    fft_block_loop_spec (Real.cos (-2 * Real.pi / ((2 * 2 ^ s : ℕ) : ℝ)))
      (Real.sin (-2 * Real.pi / ((2 * 2 ^ s : ℕ) : ℝ))) (2 ^ s) (2 ^ q) fuel sig
      (by rw [← hn]; exact hr) (by rw [← hn]; exact hi) hpos hf
  have hW1 := isTwiddle_mk (2 * 2 ^ s)
  rw [← hn] at hloop h1 h2 hlog hout
  refine ⟨out, ?_, ⟨h1, h2, ?_⟩, hlog⟩
  · simp only [fft_stage, hm, hloop, Option.map_some']
  · intro W hW b j hb hj
    have hWeq : W = ⟨Real.cos (-2 * Real.pi / ((2 * 2 ^ s : ℕ) : ℝ)),
        Real.sin (-2 * Real.pi / ((2 * 2 ^ s : ℕ) : ℝ))⟩ := by
      have e : 2 ^ (s + 1) = 2 * 2 ^ s := by ring
      rw [e] at hW
      rw [hW, hW1]
    have hlt : b * 2 ^ (s + 1) + j < 2 ^ p := by
      have e : 2 ^ (s + 1) = 2 * 2 ^ s := by ring
      rw [hn, ← e]
      calc b * 2 ^ (s + 1) + j < b * 2 ^ (s + 1) + 2 ^ (s + 1) := by omega
        _ = (b + 1) * 2 ^ (s + 1) := by ring
        _ ≤ 2 ^ q * 2 ^ (s + 1) := Nat.mul_le_mul_right _ hb
    rw [hout _ hlt, ← hWeq]
    have hW' : IsTwiddle (2 * 2 ^ s) W := by
      have e : 2 ^ (s + 1) = 2 * 2 ^ s := by ring
      rwa [e] at hW
    obtain ⟨W0, hW0⟩ : ∃ W0, IsTwiddle (2 ^ s) W0 := ⟨_, isTwiddle_mk (2 ^ s)⟩
    exact stageFn_subDFT x (cx sig) W W0 s q (IsTwiddle.sq _ _ _ hpos hW' hW0)
      (IsTwiddle.pow_half _ _ hpos hW') (hcx W0 hW0) b j hb hj

theorem fft_stages_spec (x : Nat → ℂ) (p fuel : Nat) (hf : 2 ^ p < fuel) (q : Nat) :
    ∀ (s : Nat) (sig : Signal ℝ) (fuel1 : Nat), s + q = p → q < fuel1 → StageInv x p s q sig →
      ∃ out, whileLoopM (fun st : Nat × Signal ℝ => decide (2 ^ st.1 ≤ 2 ^ p))
          (fft_stage Real.pi Real.cos Real.sin fuel (2 ^ p)) fuel1 (s + 1, sig)
            = some (p + 1, out) ∧
        StageInv x p p 0 out ∧ (∀ y ∈ out.log, y ∈ sig.log ∨ y < 2 ^ p) := by
  induction q with
  | zero =>
    intro s sig fuel1 hs hq hinv
    obtain ⟨f, rfl⟩ : ∃ f, fuel1 = f + 1 := ⟨fuel1 - 1, by omega⟩
    have hs' : s = p := by omega
    subst hs'
    refine ⟨sig, ?_, hinv, fun y hy => Or.inl hy⟩
    have : ¬ (2 ^ (s + 1) ≤ 2 ^ s) := by
      rw [pow_succ]; have : 0 < 2 ^ s := by positivity
      omega
    simp [whileLoopM, this]
  | succ q ih =>
    intro s sig fuel1 hs hq hinv
    obtain ⟨f, rfl⟩ : ∃ f, fuel1 = f + 1 := ⟨fuel1 - 1, by omega⟩
    have hle : 2 ^ (s + 1) ≤ 2 ^ p := Nat.pow_le_pow_right (by decide) (by omega)
    have hq2 : 2 ^ q < fuel := by
      have : 2 ^ q ≤ 2 ^ p := Nat.pow_le_pow_right (by decide) (by omega)
      omega
    obtain ⟨mid, hmid, hinv', hlog'⟩ := fft_stage_spec x p s q fuel hs hq2 sig hinv
    obtain ⟨out, hout, hfin, hlog⟩ := ih (s + 1) mid f (by omega) (by omega) hinv'
    refine ⟨out, ?_, hfin, ?_⟩
    · rw [whileLoopM]
      simp only [hle, decide_True, if_true, hmid, Option.some_bind]
      exact hout
    · intro y hy
      rcases hlog y hy with h | h
      · exact hlog' y h
      · exact Or.inr h

/-! ## C1: `fft_radix2` computes the discrete Fourier transform -/

/-- On arrays of length `2 ^ p`, `fft_radix2` returns, and its output satisfies the stage
invariant of the last stage for the input sequence. -/
theorem fft_radix2_spec (p fuel : Nat) (hf : 2 ^ p < fuel) (sig : Signal ℝ)
    (hr : sig.real.length = 2 ^ p) (hi : sig.imag.length = 2 ^ p) :
    ∃ out, fft_radix2 Real.pi Real.cos Real.sin fuel sig (2 ^ p) = some out ∧
      StageInv (cx sig) p p 0 out := by
  have hp : p < fuel := lt_trans (Nat.lt_pow_self (by decide) p) hf
  obtain ⟨sig1, hrev, r1, i1, hperm, -⟩ := bit_reverse_spec p fuel hp sig hr hi
  have hinv : StageInv (cx sig) p 0 p sig1 := by
    refine ⟨r1, i1, ?_⟩
    intro W _ b j hb hj
    have hj0 : j = 0 := by simpa using hj
    subst hj0
    have := hperm b hb
    simp [subDFT, cx, this.1, this.2]
  obtain ⟨out, hloop, hfin, -⟩ :=
    fft_stages_spec (cx sig) p fuel hf p 0 sig1 fuel (by omega) hp hinv
  refine ⟨out, ?_, hfin⟩
  simp only [fft_radix2, hrev, Option.some_bind, fft_stage_loop]
  rw [show (0 : Nat) + 1 = 1 from rfl] at hloop
  rw [hloop]
  rfl

/-- C1: for `n = 2 ^ p` and arrays `real`, `imag` of length `n`, `fft_radix2` over exact real
arithmetic (with `PI`, `cosf`, `sinf` the real `pi`, `cos`, `sin`, and fuel above `n`) returns
and leaves at every index `k < n` the unnormalised transform
`X[k] = sum over j < n of x[j] * e^(-2 pi i j k / n)` of the input, with no `1/n` scaling. -/
theorem fft_radix2_computes_dft (p fuel : Nat) (hf : 2 ^ p < fuel) (real imag : List ℝ)
    (log : List Nat) (hr : real.length = 2 ^ p) (hi : imag.length = 2 ^ p) :
    ∃ out, fft_radix2 Real.pi Real.cos Real.sin fuel ⟨real, imag, log⟩ (2 ^ p) = some out ∧
      out.real.length = 2 ^ p ∧ out.imag.length = 2 ^ p ∧
      ∀ k, k < 2 ^ p →
        (⟨rd out.real k, rd out.imag k⟩ : ℂ) =
          ∑ j in Finset.range (2 ^ p), (⟨rd real j, rd imag j⟩ : ℂ) *
            Complex.exp (-2 * Real.pi * Complex.I * j * k / (2 ^ p : ℕ)) := by
  obtain ⟨out, hout, h1, h2, hcx⟩ := fft_radix2_spec p fuel hf ⟨real, imag, log⟩ hr hi
  refine ⟨out, hout, h1, h2, ?_⟩
  intro k hk
  have h := hcx _ (isTwiddle_mk (2 ^ p)) 0 k (by simp) hk
  simp only [zero_mul, zero_add, bitrev, subDFT, mul_one, add_zero, pow_zero] at h
  have e : (⟨rd out.real k, rd out.imag k⟩ : ℂ) = cx out k := rfl
  rw [e, h]
  apply Finset.sum_congr rfl
  intro j _
  have hw := isTwiddle_mk (2 ^ p)
  unfold IsTwiddle at hw
  have hne : ((2 ^ p : ℕ) : ℂ) ≠ 0 := by
    have : 0 < 2 ^ p := by positivity
    exact_mod_cast this.ne'
  rw [hw, ← Complex.exp_nat_mul]
  congr 2
  push_cast at hne ⊢
  field_simp
  ring

/-- Witness for C1 at `n = 2`, `x = (1, 0)`. -/
theorem fft_radix2_computes_dft_witness :
    ∃ out, fft_radix2 Real.pi Real.cos Real.sin 5 ⟨[1, 0], [0, 0], []⟩ (2 ^ 1) = some out ∧
      out.real.length = 2 ^ 1 ∧ out.imag.length = 2 ^ 1 ∧
      ∀ k, k < 2 ^ 1 →
        (⟨rd out.real k, rd out.imag k⟩ : ℂ) =
          ∑ j in Finset.range (2 ^ 1), (⟨rd ([1, 0] : List ℝ) j, rd ([0, 0] : List ℝ) j⟩ : ℂ) *
            Complex.exp (-2 * Real.pi * Complex.I * j * k / (2 ^ 1 : ℕ)) :=
  fft_radix2_computes_dft 1 5 (by decide) [1, 0] [0, 0] [] rfl rfl

/-! ## C10: index safety of `fft_radix2`, for any arithmetic -/

theorem fft_butterfly_shape {α : Type} [Zero α] [Add α] [Sub α] [Mul α] (w_m_real w_m_imag : α)
    (m k j : Nat) (st : Butterfly α) :
    (fft_butterfly w_m_real w_m_imag m k st j).sig.real.length = st.sig.real.length ∧
    (fft_butterfly w_m_real w_m_imag m k st j).sig.imag.length = st.sig.imag.length ∧
    (fft_butterfly w_m_real w_m_imag m k st j).sig.log
      = st.sig.log ++ [k + j, k + j + m / 2] := by
  simp [fft_butterfly, length_wr]

theorem fft_jloop_shape {α : Type} [Zero α] [Add α] [Sub α] [Mul α] (w_m_real w_m_imag : α)
    (m k : Nat) (st0 : Butterfly α) (J : Nat) (hJ : J ≤ m / 2) :
    ((List.range J).foldl (fft_butterfly w_m_real w_m_imag m k) st0).sig.real.length
      = st0.sig.real.length ∧
    ((List.range J).foldl (fft_butterfly w_m_real w_m_imag m k) st0).sig.imag.length
      = st0.sig.imag.length ∧
    ∀ y ∈ ((List.range J).foldl (fft_butterfly w_m_real w_m_imag m k) st0).sig.log,
      y ∈ st0.sig.log ∨ y < k + 2 * (m / 2) := by
  induction J with
  | zero => exact ⟨rfl, rfl, fun y hy => Or.inl hy⟩
  | succ J ih =>
    obtain ⟨h1, h2, h3⟩ := ih (by omega)
    rw [List.range_succ, List.foldl_append]
    simp only [List.foldl_cons, List.foldl_nil]
    obtain ⟨b1, b2, b3⟩ := fft_butterfly_shape w_m_real w_m_imag m k J
      ((List.range J).foldl (fft_butterfly w_m_real w_m_imag m k) st0)
    refine ⟨b1.trans h1, b2.trans h2, ?_⟩
    intro y hy
    rw [b3] at hy
    simp only [List.mem_append, List.mem_cons, List.mem_singleton, List.not_mem_nil,
      or_false] at hy
    rcases hy with h | h | h
    · exact h3 y h
    · right; omega
    · right; omega

theorem fft_kloop_shape {α : Type} [Zero α] [One α] [Add α] [Sub α] [Mul α]
    (w_m_real w_m_imag : α) (h : Nat) (sig0 : Signal α) (B : Nat) :
    ∃ sig, (fft_block w_m_real w_m_imag (2 * h))^[B] (0, sig0) = (B * (2 * h), sig) ∧
      sig.real.length = sig0.real.length ∧ sig.imag.length = sig0.imag.length ∧
      ∀ y ∈ sig.log, y ∈ sig0.log ∨ y < B * (2 * h) := by
  induction B with
  | zero => exact ⟨sig0, by simp, rfl, rfl, fun y hy => Or.inl hy⟩
  | succ B ih =>
    obtain ⟨sig, hit, h1, h2, hlog⟩ := ih
    have e : 2 * h / 2 = h := Nat.mul_div_cancel_left h (by decide)
    have hs : (B + 1) * (2 * h) = B * (2 * h) + 2 * h := by ring
    obtain ⟨j1, j2, j3⟩ := fft_jloop_shape w_m_real w_m_imag (2 * h) (B * (2 * h))
      ⟨1, 0, sig⟩ (2 * h / 2) (le_refl _)
    refine ⟨_, ?_, j1.trans h1, j2.trans h2, ?_⟩
    · rw [Function.iterate_succ_apply', hit, hs]
      rfl
    · intro y hy
      rcases j3 y hy with h' | h'
      · rcases hlog y h' with h'' | h''
        · exact Or.inl h''
        · right; omega
      · right; rw [e] at h'; omega

theorem fft_stage_shape {α : Type} [Zero α] [One α] [Add α] [Sub α] [Mul α] [Div α] [Neg α]
    [NatCast α] [OfNat α 2] (PI : α) (cosf sinf : α → α) (p s q fuel : Nat)
    (hp : s + (q + 1) = p) (hf : 2 ^ q < fuel) (sig : Signal α) :
    ∃ out, fft_stage PI cosf sinf fuel (2 ^ p) (s + 1, sig) = some (s + 2, out) ∧
      out.real.length = sig.real.length ∧ out.imag.length = sig.imag.length ∧
      ∀ y ∈ out.log, y ∈ sig.log ∨ y < 2 ^ p := by
  have hm : 1 <<< (s + 1) = 2 * 2 ^ s := by rw [Nat.one_shiftLeft]; ring
  have hn : 2 ^ p = 2 ^ q * (2 * 2 ^ s) := by rw [← hp]; ring
  have hpos : 0 < 2 ^ s := by positivity
  obtain ⟨out, hit, h1, h2, hlog⟩ := fft_kloop_shape
    (cosf (-2 * PI / ((2 * 2 ^ s : ℕ) : α))) (sinf (-2 * PI / ((2 * 2 ^ s : ℕ) : α)))
    (2 ^ s) sig (2 ^ q)
  refine ⟨out, ?_, h1, h2, by rw [hn]; exact hlog⟩
  have hloop : whileLoop (fun ks : Nat × Signal α => decide (ks.1 < 2 ^ q * (2 * 2 ^ s)))
      (fft_block (cosf (-2 * PI / ((2 * 2 ^ s : ℕ) : α)))
        (sinf (-2 * PI / ((2 * 2 ^ s : ℕ) : α))) (2 * 2 ^ s)) fuel (0, sig)
      = some (2 ^ q * (2 * 2 ^ s), out) := by
    rw [← hit]
    apply whileLoop_iterate _ _ (2 ^ q) fuel _ _ _ hf
    · intro i hi
      obtain ⟨sg, hsg, -⟩ := fft_kloop_shape
        (cosf (-2 * PI / ((2 * 2 ^ s : ℕ) : α))) (sinf (-2 * PI / ((2 * 2 ^ s : ℕ) : α)))
        (2 ^ s) sig i
      rw [hsg]
      have : i * (2 * 2 ^ s) < 2 ^ q * (2 * 2 ^ s) :=
        Nat.mul_lt_mul_of_pos_right hi (by omega)
      simpa using this
    · rw [hit]; simp
  simp only [fft_stage, hm, hn, hloop, Option.map_some']

theorem fft_stage_loop_shape {α : Type} [Zero α] [One α] [Add α] [Sub α] [Mul α] [Div α]
    [Neg α] [NatCast α] [OfNat α 2] (PI : α) (cosf sinf : α → α) (p fuel : Nat)
    (hf : 2 ^ p < fuel) (q : Nat) :
    ∀ (s : Nat) (sig : Signal α) (fuel1 : Nat), s + q = p → q < fuel1 →
      ∃ out, whileLoopM (fun st : Nat × Signal α => decide (2 ^ st.1 ≤ 2 ^ p))
          (fft_stage PI cosf sinf fuel (2 ^ p)) fuel1 (s + 1, sig) = some (p + 1, out) ∧
        out.real.length = sig.real.length ∧ out.imag.length = sig.imag.length ∧
        ∀ y ∈ out.log, y ∈ sig.log ∨ y < 2 ^ p := by
  induction q with
  | zero =>
    intro s sig fuel1 hs hq
    obtain ⟨f, rfl⟩ : ∃ f, fuel1 = f + 1 := ⟨fuel1 - 1, by omega⟩
    have hs' : s = p := by omega
    subst hs'
    refine ⟨sig, ?_, rfl, rfl, fun y hy => Or.inl hy⟩
    have : ¬ (2 ^ (s + 1) ≤ 2 ^ s) := by
      rw [pow_succ]; have : 0 < 2 ^ s := by positivity
      omega
    simp [whileLoopM, this]
  | succ q ih =>
    intro s sig fuel1 hs hq
    obtain ⟨f, rfl⟩ : ∃ f, fuel1 = f + 1 := ⟨fuel1 - 1, by omega⟩
    have hle : 2 ^ (s + 1) ≤ 2 ^ p := Nat.pow_le_pow_right (by decide) (by omega)
    have hq2 : 2 ^ q < fuel := by
      have : 2 ^ q ≤ 2 ^ p := Nat.pow_le_pow_right (by decide) (by omega)
      omega
    obtain ⟨mid, hmid, m1, m2, hlog'⟩ := fft_stage_shape PI cosf sinf p s q fuel hs hq2 sig
    obtain ⟨out, hout, o1, o2, hlog⟩ := ih (s + 1) mid f (by omega) (by omega)
    refine ⟨out, ?_, o1.trans m1, o2.trans m2, ?_⟩
    · rw [whileLoopM]
      simp only [hle, decide_True, if_true, hmid, Option.some_bind]
      exact hout
    · intro y hy
      rcases hlog y hy with h | h
      · exact hlog' y h
      · exact Or.inr h

/-- C10: for `n = 2 ^ p` with buffers of length `n` (and fuel above `n`), whatever the
arithmetic of `float` does, `bit_reverse` returns, the stage loop then returns with its counter
at `p + 1` (its test `2 ^ s <= n` holds exactly for `s <= p`, so it ran the `p` stages
`s = 1 .. p` with `m = 1 << s = 2, 4, ..., n`), and every index that `bit_reverse` and the
butterflies touched is below `n`.  Without the precondition this fails: for `n = 6` the stage
`m = 4` touches the pairs `(4, 6)` and `(5, 7)`, so `6` and `7`. -/
theorem fft_radix2_index_safe {α : Type} [Zero α] [One α] [Add α] [Sub α] [Mul α] [Div α]
    [Neg α] [NatCast α] [OfNat α 2] (PI : α) (cosf sinf : α → α) :
    (∀ (p fuel : Nat) (real imag : List α), 2 ^ p < fuel → real.length = 2 ^ p →
      imag.length = 2 ^ p →
      ∃ sig1 out, bit_reverse fuel ⟨real, imag, []⟩ (2 ^ p) = some sig1 ∧
        fft_stage_loop PI cosf sinf fuel sig1 (2 ^ p) = some (p + 1, out) ∧
        fft_radix2 PI cosf sinf fuel ⟨real, imag, []⟩ (2 ^ p) = some out ∧
        (∀ s, (2 ^ s ≤ 2 ^ p ↔ s ≤ p) ∧ 1 <<< s = 2 ^ s) ∧
        out.real.length = 2 ^ p ∧ out.imag.length = 2 ^ p ∧
        ∀ y ∈ out.log, y < 2 ^ p) ∧
    (∀ a0 a1 a2 a3 a4 a5 b0 b1 b2 b3 b4 b5 : α,
      (fft_radix2 PI cosf sinf 7 ⟨[a0, a1, a2, a3, a4, a5], [b0, b1, b2, b3, b4, b5], []⟩ 6).map
        (fun s => s.log) = some [1, 3, 3, 4, 0, 1, 2, 3, 4, 5, 0, 2, 1, 3, 4, 6, 5, 7]) := by
  refine ⟨?_, ?_⟩
  · intro p fuel real imag hf hr hi
    have hp : p < fuel := lt_trans (Nat.lt_pow_self (by decide) p) hf
    obtain ⟨sig1, hrev, r1, i1, -, hlog1⟩ := bit_reverse_spec p fuel hp ⟨real, imag, []⟩ hr hi
    obtain ⟨out, hloop, o1, o2, hlog⟩ :=
      fft_stage_loop_shape PI cosf sinf p fuel hf p 0 sig1 fuel (by omega) hp
    rw [show (0 : Nat) + 1 = 1 from rfl] at hloop
    have hloop' : fft_stage_loop PI cosf sinf fuel sig1 (2 ^ p) = some (p + 1, out) := hloop
    refine ⟨sig1, out, hrev, hloop', ?_, ?_, o1.trans r1, o2.trans i1, ?_⟩
    · simp only [fft_radix2, hrev, Option.some_bind]
      rw [hloop']; rfl
    · intro s
      exact ⟨Nat.pow_le_pow_iff_right (by decide), Nat.one_shiftLeft s⟩
    · intro y hy
      rcases hlog y hy with h | h
      · rcases hlog1 y h with h' | h'
        · simp at h'
        · exact h'
      · exact h
  · intro a0 a1 a2 a3 a4 a5 b0 b1 b2 b3 b4 b5
    with_unfolding_all rfl

/-- Witness for C10 at `n = 4`. -/
theorem fft_radix2_index_safe_witness :
    ∃ sig1 out, bit_reverse 5 ⟨[1, 2, 3, 4], [0, 0, 0, 0], []⟩ (2 ^ 2) = some sig1 ∧
      fft_stage_loop (3 : ℚ) (fun _ => 0) (fun _ => -1) 5 sig1 (2 ^ 2) = some (2 + 1, out) ∧
      fft_radix2 (3 : ℚ) (fun _ => 0) (fun _ => -1) 5 ⟨[1, 2, 3, 4], [0, 0, 0, 0], []⟩ (2 ^ 2)
        = some out ∧
      (∀ s, (2 ^ s ≤ 2 ^ 2 ↔ s ≤ 2) ∧ 1 <<< s = 2 ^ s) ∧
      out.real.length = 2 ^ 2 ∧ out.imag.length = 2 ^ 2 ∧ ∀ y ∈ out.log, y < 2 ^ 2 :=
  (fft_radix2_index_safe (3 : ℚ) (fun _ => 0) (fun _ => -1)).1 2 5 [1, 2, 3, 4] [0, 0, 0, 0]
    (by decide) rfl rfl

/-! ## Sorting kernels: swaps -/

/-- Exchanging two cells of an array permutes it. -/
theorem swap_perm (a : List Int) (i j : Nat) (hi : i < a.length) (hj : j < a.length) :
    (wr (wr a i (rd a j)) j (rd a i)).Perm a := by
  rw [rd_eq_getElem a i hi, rd_eq_getElem a j hj]
  by_cases e : i = j
  · subst e
    have : (a.set i a[i]).set i a[i] = a := by
      apply List.ext_getElem (by simp)
      intro k h1 h2
      simp only [List.getElem_set]
      split <;> simp_all
    simp only [wr, this]
    exact List.Perm.refl _
  · rw [List.perm_iff_count]
    intro b
    have hj' : j < (a.set i a[j]).length := by simpa using hj
    have hget : (a.set i a[j])[j] = a[j] := by
      rw [List.getElem_set_ne e]
    have hpos : (if (a[i] == b) = true then 1 else 0) ≤ List.count b a := by
      split
      · rename_i h
        have : a[i] = b := by simpa using h
        rw [← this]
        exact List.count_pos_iff.mpr (List.getElem_mem hi)
      · omega
    simp only [wr]
    rw [List.count_set _ _ _ _ hj', hget, List.count_set _ _ _ _ hi]
    generalize (if (a[i] == b) = true then 1 else 0) = B at hpos ⊢
    generalize (if (a[j] == b) = true then 1 else 0) = A
    omega

theorem swap_length {α : Type} (a : List α) (i j : Nat) (x y : α) :
    (wr (wr a i x) j y).length = a.length := by
  simp [length_wr]

theorem swap_rd (a : List Int) (i j x : Nat) (hi : i < a.length) (hj : j < a.length) :
    rd (wr (wr a i (rd a j)) j (rd a i)) x =
      if x = j then rd a i else if x = i then rd a j else rd a x := by
  rw [rd_wr _ _ _ _ (by simpa [length_wr] using hj), rd_wr _ _ _ _ hi]

/-! ## Bubble sort -/

theorem bubble_sort_inner_spec (st : IntArray) (j : Nat) (hj : j + 1 < st.arr.length) :
    (bubble_sort_inner st j).arr.length = st.arr.length ∧
    (bubble_sort_inner st j).arr.Perm st.arr ∧
    rd (bubble_sort_inner st j).arr j = min (rd st.arr j) (rd st.arr (j + 1)) ∧
    rd (bubble_sort_inner st j).arr (j + 1) = max (rd st.arr j) (rd st.arr (j + 1)) ∧
    ∀ x, x ≠ j → x ≠ j + 1 → rd (bubble_sort_inner st j).arr x = rd st.arr x := by
  have hj0 : j < st.arr.length := by omega
  by_cases c : rd st.arr j > rd st.arr (j + 1)
  · have e : (bubble_sort_inner st j).arr
        = wr (wr st.arr j (rd st.arr (j + 1))) (j + 1) (rd st.arr j) := by
      simp only [bubble_sort_inner, if_pos c]
    rw [e]
    refine ⟨swap_length _ _ _ _ _, swap_perm _ _ _ hj0 hj, ?_, ?_, ?_⟩
    · rw [swap_rd _ _ _ _ hj0 hj, if_neg (by omega), if_pos rfl, min_eq_right (le_of_lt c)]
    · rw [swap_rd _ _ _ _ hj0 hj, if_pos rfl, max_eq_left (le_of_lt c)]
    · intro x h1 h2
      rw [swap_rd _ _ _ _ hj0 hj, if_neg h2, if_neg h1]
  · have e : (bubble_sort_inner st j).arr = st.arr := by
      simp only [bubble_sort_inner, if_neg c]
    rw [e]
    have c' : rd st.arr j ≤ rd st.arr (j + 1) := not_lt.mp c
    exact ⟨rfl, List.Perm.refl _, (min_eq_left c').symm, (max_eq_right c').symm,
      fun _ _ _ => rfl⟩

/-- One inner pass over `j = 0 .. J - 1`: the largest of the first `J + 1` elements is
carried to index `J`, and elements already in their final place stay above the rest. -/
theorem bubble_pass_spec (st : IntArray) (n L : Nat) (hL : L < n) (hn : n ≤ st.arr.length)
    (htop : ∀ x y, x < y → L < y → y < n → rd st.arr x ≤ rd st.arr y) (J : Nat) (hJ : J ≤ L) :
    ((List.range J).foldl bubble_sort_inner st).arr.length = st.arr.length ∧
    ((List.range J).foldl bubble_sort_inner st).arr.Perm st.arr ∧
    (∀ x, x ≤ J → rd ((List.range J).foldl bubble_sort_inner st).arr x
      ≤ rd ((List.range J).foldl bubble_sort_inner st).arr J) ∧
    (∀ x y, x < y → L < y → y < n → rd ((List.range J).foldl bubble_sort_inner st).arr x
      ≤ rd ((List.range J).foldl bubble_sort_inner st).arr y) ∧
    ∀ x, J < x → rd ((List.range J).foldl bubble_sort_inner st).arr x = rd st.arr x := by
  induction J with
  | zero =>
    refine ⟨rfl, List.Perm.refl _, ?_, htop, fun _ _ => rfl⟩
    intro x hx
    have : x = 0 := by omega
    subst this
    exact le_refl _
  | succ J ih =>
    obtain ⟨h1, h2, h3, h4, h5⟩ := ih (by omega)
    rw [List.range_succ, List.foldl_append]
    simp only [List.foldl_cons, List.foldl_nil]
    generalize (List.range J).foldl bubble_sort_inner st = mid at h1 h2 h3 h4 h5 ⊢
    obtain ⟨s1, s2, s3, s4, s5⟩ := bubble_sort_inner_spec mid J (by omega)
    refine ⟨s1.trans h1, s2.trans h2, ?_, ?_, ?_⟩
    · intro x hx
      rw [s4]
      by_cases e1 : x = J + 1
      · subst e1; rw [s4]
      · by_cases e2 : x = J
        · subst e2; rw [s3]; exact le_trans (min_le_left _ _) (le_max_left _ _)
        · rw [s5 x e2 e1]
          exact le_trans (h3 x (by omega)) (le_max_left _ _)
    · intro x y hxy hy1 hy2
      rw [s5 y (by omega) (by omega)]
      by_cases e1 : x = J + 1
      · subst e1
        rw [s4]
        exact max_le (h4 J y (by omega) hy1 hy2) (h4 (J + 1) y hxy hy1 hy2)
      · by_cases e2 : x = J
        · subst e2
          rw [s3]
          exact le_trans (min_le_left _ _) (h4 x y hxy hy1 hy2)
        · rw [s5 x e2 e1]
          exact h4 x y hxy hy1 hy2
    · intro x hx
      rw [s5 x (by omega) (by omega)]
      exact h5 x (by omega)

/-- The outer loop of `bubble_sort` after `i` passes. -/
theorem bubble_outer_spec (st : IntArray) (n : Nat) (hn : n ≤ st.arr.length) (i : Nat)
    (hi : i ≤ n - 1) :
    ((List.range i).foldl
      (fun st i => (List.range (n - i - 1)).foldl bubble_sort_inner st) st).arr.length
        = st.arr.length ∧
    ((List.range i).foldl
      (fun st i => (List.range (n - i - 1)).foldl bubble_sort_inner st) st).arr.Perm st.arr ∧
    (∀ x y, x < y → n - i ≤ y → y < n →
      rd ((List.range i).foldl
        (fun st i => (List.range (n - i - 1)).foldl bubble_sort_inner st) st).arr x
      ≤ rd ((List.range i).foldl
        (fun st i => (List.range (n - i - 1)).foldl bubble_sort_inner st) st).arr y) ∧
    ∀ x, n ≤ x →
      rd ((List.range i).foldl
        (fun st i => (List.range (n - i - 1)).foldl bubble_sort_inner st) st).arr x
        = rd st.arr x := by
  induction i with
  | zero =>
    refine ⟨rfl, List.Perm.refl _, ?_, fun _ _ => rfl⟩
    intro x y _ h1 h2
    omega
  | succ i ih =>
    obtain ⟨h1, h2, h3, h4⟩ := ih (by omega)
    rw [List.range_succ, List.foldl_append]
    simp only [List.foldl_cons, List.foldl_nil]
    generalize (List.range i).foldl
      (fun st i => (List.range (n - i - 1)).foldl bubble_sort_inner st) st = mid
      at h1 h2 h3 h4 ⊢
    obtain ⟨p1, p2, p3, p4, p5⟩ := bubble_pass_spec mid n (n - i - 1) (by omega) (by omega)
      (fun x y hxy hy1 hy2 => h3 x y hxy (by omega) hy2) (n - i - 1) (le_refl _)
    refine ⟨p1.trans h1, p2.trans h2, ?_, ?_⟩
    · intro x y hxy hy1 hy2
      by_cases e : y = n - i - 1
      · subst e
        exact p3 x (by omega)
      · exact p4 x y hxy (by omega) hy2
    · intro x hx
      rw [p5 x (by omega)]
      exact h4 x hx

/-! ## From cell-wise facts to list facts -/

theorem sorted_take_of_rd (a : List Int) (n : Nat) (hn : n ≤ a.length)
    (h : ∀ x y, x < y → y < n → rd a x ≤ rd a y) : (a.take n).Sorted (· ≤ ·) := by
  rw [List.Sorted, List.pairwise_iff_getElem]
  intro i j hi hj hij
  rw [List.length_take] at hi hj
  have hi' : i < a.length := by omega
  have hj' : j < a.length := by omega
  rw [List.getElem_take, List.getElem_take, ← rd_eq_getElem a i hi', ← rd_eq_getElem a j hj']
  exact h i j hij (by omega)

theorem drop_eq_of_rd (a b : List Int) (n : Nat) (hl : a.length = b.length)
    (h : ∀ x, n ≤ x → rd a x = rd b x) : a.drop n = b.drop n := by
  apply List.ext_getElem (by simp [hl])
  intro i h1 h2
  rw [List.length_drop] at h1 h2
  rw [List.getElem_drop, List.getElem_drop, ← rd_eq_getElem a _ (by omega),
    ← rd_eq_getElem b _ (by omega)]
  exact h _ (by omega)

theorem take_perm_of_drop_eq (a b : List Int) (n : Nat) (hp : a.Perm b)
    (hd : a.drop n = b.drop n) : (a.take n).Perm (b.take n) := by
  have h1 := List.take_append_drop n a
  have h2 := List.take_append_drop n b
  rw [← h1, ← h2, hd] at hp
  exact (List.perm_append_right_iff _).mp hp

/-! ## C3: `bubble_sort` sorts -/

theorem bubble_sort_spec (st : IntArray) (n : Nat) (hn : n ≤ st.arr.length) :
    (bubble_sort st n).arr.length = st.arr.length ∧
    (bubble_sort st n).arr.Perm st.arr ∧
    (∀ x y, x < y → y < n → rd (bubble_sort st n).arr x ≤ rd (bubble_sort st n).arr y) ∧
    ∀ x, n ≤ x → rd (bubble_sort st n).arr x = rd st.arr x := by
  obtain ⟨h1, h2, h3, h4⟩ := bubble_outer_spec st n hn (n - 1) (le_refl _)
  refine ⟨h1, h2, ?_, h4⟩
  intro x y hxy hy
  exact h3 x y hxy (by omega) hy

theorem bubble_sort_take_spec (st : IntArray) (n : Nat) (hn : n ≤ st.arr.length) :
    (bubble_sort st n).arr.length = st.arr.length ∧
    ((bubble_sort st n).arr.take n).Sorted (· ≤ ·) ∧
    ((bubble_sort st n).arr.take n).Perm (st.arr.take n) ∧
    (bubble_sort st n).arr.drop n = st.arr.drop n := by
  obtain ⟨h1, h2, h3, h4⟩ := bubble_sort_spec st n hn
  have hd := drop_eq_of_rd _ _ n h1 h4
  exact ⟨h1, sorted_take_of_rd _ n (by rw [h1]; exact hn) h3,
    take_perm_of_drop_eq _ _ n h2 hd, hd⟩

/-- C3: for every `int` array `arr` and every `n` with `0 <= n <= length`, `bubble_sort(arr, n)`
leaves the first `n` elements in non-decreasing order, holding a permutation of what they held
before (the rest of the array is untouched); when those `n` input elements are pairwise
distinct the result is strictly ascending. -/
theorem bubble_sort_sorts (arr : List Int) (log : List Int) (n : Nat) (hn : n ≤ arr.length) :
    (bubble_sort ⟨arr, log⟩ n).arr.length = arr.length ∧
    ((bubble_sort ⟨arr, log⟩ n).arr.take n).Sorted (· ≤ ·) ∧
    ((bubble_sort ⟨arr, log⟩ n).arr.take n).Perm (arr.take n) ∧
    (bubble_sort ⟨arr, log⟩ n).arr.drop n = arr.drop n ∧
    ((arr.take n).Nodup → ((bubble_sort ⟨arr, log⟩ n).arr.take n).Sorted (· < ·)) := by
  obtain ⟨h1, hs, hp, hd⟩ := bubble_sort_take_spec ⟨arr, log⟩ n hn
  exact ⟨h1, hs, hp, hd, fun hnd => hs.lt_of_le (hp.nodup_iff.mpr hnd)⟩

/-- Witness for C3: an array of six cells of which the first five are sorted. -/
theorem bubble_sort_sorts_witness :
    (bubble_sort ⟨[3, 1, 2, 5, -4, 0], []⟩ 5).arr.length = [3, 1, 2, 5, -4, (0 : Int)].length ∧
    ((bubble_sort ⟨[3, 1, 2, 5, -4, 0], []⟩ 5).arr.take 5).Sorted (· ≤ ·) ∧
    ((bubble_sort ⟨[3, 1, 2, 5, -4, 0], []⟩ 5).arr.take 5).Perm
      ([3, 1, 2, 5, -4, (0 : Int)].take 5) ∧
    (bubble_sort ⟨[3, 1, 2, 5, -4, 0], []⟩ 5).arr.drop 5 = [3, 1, 2, 5, -4, (0 : Int)].drop 5 ∧
    (([3, 1, 2, 5, -4, (0 : Int)].take 5).Nodup →
      ((bubble_sort ⟨[3, 1, 2, 5, -4, 0], []⟩ 5).arr.take 5).Sorted (· < ·)) :=
  bubble_sort_sorts [3, 1, 2, 5, -4, 0] [] 5 (by decide)

/-! ## Quick sort: the Lomuto partition -/

theorem partition_step_inv (a0 : List Int) (low high pivot : Int) (d : Nat)
    (s : Int × IntArray) (h0 : 0 ≤ low) (hd : low + d < high) (hh : high < a0.length)
    (hinv : PartInv a0 low high pivot d s) :
    PartInv a0 low high pivot (d + 1) (partition_step pivot s (low + d)) := by
  obtain ⟨h1, h2, h3, h4, h5, h6, h7, h8⟩ := hinv
  obtain ⟨jN, hjN⟩ : ∃ jN : Nat, low + d = (jN : Int) := ⟨(low + d).toNat, by omega⟩
  have hjt : (low + (d : Int)).toNat = jN := by omega
  by_cases c : rd s.2.arr (low + (d : Int)).toNat < pivot
  · obtain ⟨iN, hiN⟩ : ∃ iN : Nat, s.1 + 1 = (iN : Int) := ⟨(s.1 + 1).toNat, by omega⟩
    have hit : (s.1 + 1).toNat = iN := by omega
    have e : partition_step pivot s (low + d) =
        (s.1 + 1, { arr := wr (wr s.2.arr iN (rd s.2.arr jN)) jN (rd s.2.arr iN)
                    log := s.2.log ++ [low + d, s.1 + 1, low + d] }) := by
      rw [hjt] at c
      simp only [partition_step, hjt, hit, if_pos c]
    rw [e]
    rw [hjt] at c
    have hib : iN < s.2.arr.length := by omega
    have hjb : jN < s.2.arr.length := by omega
    refine ⟨?_, ?_, ?_, ?_, ?_, ?_, ?_, ?_⟩
    · simp only [swap_length, h1]
    · exact (swap_perm _ _ _ hib hjb).trans h2
    · show low - 1 ≤ s.1 + 1
      omega
    · show s.1 + 1 < low + ((d + 1 : Nat) : Int)
      omega
    · intro x hx1 hx2
      simp only at hx2 ⊢
      rw [swap_rd _ _ _ _ hib hjb]
      by_cases e1 : x = jN
      · rw [if_pos e1]
        have : iN = jN := by omega
        rw [this]; exact c
      · rw [if_neg e1]
        by_cases e2 : x = iN
        · rw [if_pos e2]; exact c
        · rw [if_neg e2]
          exact h5 x hx1 (by omega)
    · intro x hx1 hx2
      simp only at hx1 ⊢
      rw [swap_rd _ _ _ _ hib hjb]
      by_cases e1 : x = jN
      · rw [if_pos e1]
        exact h6 iN (by omega) (by omega)
      · rw [if_neg e1, if_neg (by omega)]
        exact h6 x (by omega) (by omega)
    · intro x hx
      simp only
      rw [swap_rd _ _ _ _ hib hjb, if_neg (by omega), if_neg (by omega)]
      exact h7 x (by omega)
    · intro P hP x hx1 hx2
      simp only
      rw [swap_rd _ _ _ _ hib hjb]
      by_cases e1 : x = jN
      · rw [if_pos e1]
        exact h8 P hP iN (by omega) (by omega)
      · rw [if_neg e1]
        by_cases e2 : x = iN
        · rw [if_pos e2]
          exact h8 P hP jN (by omega) (by omega)
        · rw [if_neg e2]
          exact h8 P hP x hx1 hx2
  · have e : partition_step pivot s (low + d) =
        (s.1, { arr := s.2.arr, log := s.2.log ++ [low + d] }) := by
      simp only [partition_step, if_neg c]
    rw [e]
    rw [hjt] at c
    refine ⟨h1, h2, h3, ?_, h5, ?_, ?_, h8⟩
    · show s.1 < low + ((d + 1 : Nat) : Int)
      omega
    · intro x hx1 hx2
      simp only at hx1 ⊢
      by_cases e1 : x = jN
      · rw [e1]; exact not_lt.mp c
      · exact h6 x hx1 (by omega)
    · intro x hx
      exact h7 x (by omega)

theorem partition_loop_inv (a0 : List Int) (log : List Int) (low high : Int)
    (h0 : 0 ≤ low) (hh : high < a0.length) (d : Nat) (hd : low + d ≤ high) :
    PartInv a0 low high (rd a0 high.toNat) d
      (((List.range d).map fun (k : Nat) => low + (k : Int)).foldl
        (partition_step (rd a0 high.toNat)) (low - 1, { arr := a0, log := log })) := by
  induction d with
  | zero =>
    refine ⟨rfl, List.Perm.refl _, le_refl _, by simp, ?_, ?_, fun _ _ => rfl,
      fun P hP => hP⟩
    · intro x hx1 hx2
      simp only [List.range_zero, List.map_nil, List.foldl_nil] at hx2
      omega
    · intro x hx1 hx2
      simp only [List.range_zero, List.map_nil, List.foldl_nil] at hx1
      push_cast at hx2
      omega
  | succ d ih =>
    have hd' : low + (d : Int) < high := by push_cast at hd; omega
    rw [List.range_succ, List.map_append, List.foldl_append]
    simp only [List.map_cons, List.map_nil, List.foldl_cons, List.foldl_nil]
    exact partition_step_inv a0 low high _ d _ h0 hd' hh (ih (by omega))

/-- Result of `partition(arr, low, high)` for `0 <= low <= high < length`: the returned index
`p` lies in `[low, high]` and holds the pivot (the old `arr[high]`); the cells of `[low, p)`
are below the pivot and those of `(p, high]` are not; the array is permuted and untouched
outside `[low, high]`. -/
theorem partition_spec (st : IntArray) (low high : Int) (h0 : 0 ≤ low) (hlh : low ≤ high)
    (hh : high < st.arr.length) :
    (partition st low high).2.arr.length = st.arr.length ∧
    (partition st low high).2.arr.Perm st.arr ∧
    low ≤ (partition st low high).1 ∧ (partition st low high).1 ≤ high ∧
    (∀ x : Nat, (x : Int) = (partition st low high).1 →
      rd (partition st low high).2.arr x = rd st.arr high.toNat) ∧
    (∀ x : Nat, low ≤ x → (x : Int) < (partition st low high).1 →
      rd (partition st low high).2.arr x < rd st.arr high.toNat) ∧
    (∀ x : Nat, (partition st low high).1 < x → (x : Int) ≤ high →
      rd st.arr high.toNat ≤ rd (partition st low high).2.arr x) ∧
    (∀ x : Nat, ((x : Int) < low ∨ high < x) →
      rd (partition st low high).2.arr x = rd st.arr x) ∧
    (∀ P : Int → Prop, (∀ x : Nat, low ≤ x → (x : Int) ≤ high → P (rd st.arr x)) →
      ∀ x : Nat, low ≤ x → (x : Int) ≤ high → P (rd (partition st low high).2.arr x)) := by
  have hd : low + (((high - low).toNat : Nat) : Int) = high := by omega
  have hinv := partition_loop_inv st.arr (st.log ++ [high]) low high h0 hh (high - low).toNat
    (by omega)
  generalize hs : ((List.range (high - low).toNat).map fun (k : Nat) => low + (k : Int)).foldl
    (partition_step (rd st.arr high.toNat)) (low - 1, { arr := st.arr, log := st.log ++ [high] })
    = s at hinv
  obtain ⟨h1, h2, h3, h4, h5, h6, h7, h8⟩ := hinv
  rw [hd] at h4 h6 h7
  obtain ⟨iN, hiN⟩ : ∃ iN : Nat, s.1 + 1 = (iN : Int) := ⟨(s.1 + 1).toNat, by omega⟩
  obtain ⟨hN, hhN⟩ : ∃ hN : Nat, high = (hN : Int) := ⟨high.toNat, by omega⟩
  have hit : (s.1 + 1).toNat = iN := by omega
  have hht : high.toNat = hN := by omega
  have e : partition st low high =
      (s.1 + 1, { arr := wr (wr s.2.arr iN (rd s.2.arr hN)) hN (rd s.2.arr iN)
                  log := s.2.log ++ [s.1 + 1, high] }) := by
    simp only [partition]
    rw [hs, hit, hht]
  rw [e, hht]
  rw [hht] at h5 h6
  have hib : iN < s.2.arr.length := by omega
  have hhb : hN < s.2.arr.length := by omega
  have hpiv : rd s.2.arr hN = rd st.arr hN := h7 hN (by omega)
  refine ⟨?_, ?_, ?_, ?_, ?_, ?_, ?_, ?_, ?_⟩
  · simp only [swap_length, h1]
  · exact (swap_perm _ _ _ hib hhb).trans h2
  · show low ≤ s.1 + 1
    omega
  · show s.1 + 1 ≤ high
    omega
  · intro x hx
    simp only at hx ⊢
    rw [swap_rd _ _ _ _ hib hhb]
    have hx' : x = iN := by omega
    by_cases e1 : x = hN
    · rw [if_pos e1, ← hx', e1, hpiv]
    · rw [if_neg e1, if_pos hx', hpiv]
  · intro x hx1 hx2
    simp only at hx2 ⊢
    rw [swap_rd _ _ _ _ hib hhb, if_neg (by omega), if_neg (by omega)]
    exact h5 x hx1 (by omega)
  · intro x hx1 hx2
    simp only at hx1 ⊢
    rw [swap_rd _ _ _ _ hib hhb]
    by_cases e1 : x = hN
    · rw [if_pos e1]
      exact h6 iN (by omega) (by omega)
    · rw [if_neg e1, if_neg (by omega)]
      exact h6 x (by omega) (by omega)
  · intro x hx
    simp only
    rw [swap_rd _ _ _ _ hib hhb, if_neg (by omega), if_neg (by omega)]
    exact h7 x (by omega)
  · intro P hP x hx1 hx2
    simp only
    rw [swap_rd _ _ _ _ hib hhb]
    by_cases e1 : x = hN
    · rw [if_pos e1]
      exact h8 P hP iN (by omega) (by omega)
    · rw [if_neg e1]
      by_cases e2 : x = iN
      · rw [if_pos e2]
        exact h8 P hP hN (by omega) (by omega)
      · rw [if_neg e2]
        exact h8 P hP x hx1 hx2

/-! ## C4: `quick_sort` terminates and sorts -/

theorem quick_sort_spec : ∀ (fuel : Nat) (st : IntArray) (low high : Int), 0 ≤ low →
    high < st.arr.length → 1 ≤ fuel → high - low + 1 ≤ fuel →
    ∃ out, quick_sort fuel st low high = some out ∧ QuickSortPost st out low high := by
  intro fuel
  induction fuel with
  | zero => intro st low high _ _ h; omega
  | succ fuel ih =>
    intro st low high h0 hh _ hsz
    by_cases c : low < high
    · obtain ⟨p1, p2, p3, p4, p5, p6, p7, p8, p9⟩ := partition_spec st low high h0 (le_of_lt c) hh
      generalize hr : partition st low high = r at p1 p2 p3 p4 p5 p6 p7 p8 p9
      obtain ⟨st1, hq1, l1, l2, l3, l4, l5⟩ :=
        ih r.2 low (r.1 - 1) h0 (by omega) (by omega) (by omega)
      obtain ⟨out, hq2, r1, r2, r3, r4, r5⟩ :=
        ih st1 (r.1 + 1) high (by omega) (by omega) (by omega) (by omega)
      refine ⟨out, ?_, r1.trans (l1.trans p1), r2.trans (l2.trans p2), ?_, ?_, ?_⟩
      · rw [quick_sort, if_pos c]
        simp only [hr, hq1, Option.some_bind, hq2]
      · intro x y hx hxy hy
        have below : ∀ z : Nat, low ≤ z → (z : Int) < r.1 →
            rd out.arr z < rd st.arr high.toNat := by
          intro z hz1 hz2
          rw [r4 z (by omega)]
          exact l5 (fun v => v < rd st.arr high.toNat)
            (fun w hw1 hw2 => p6 w hw1 (by omega)) z hz1 (by omega)
        have atp : ∀ z : Nat, (z : Int) = r.1 → rd out.arr z = rd st.arr high.toNat := by
          intro z hz
          rw [r4 z (by omega), l4 z (by omega)]
          exact p5 z hz
        have above : ∀ z : Nat, r.1 < z → (z : Int) ≤ high →
            rd st.arr high.toNat ≤ rd out.arr z := by
          intro z hz1 hz2
          refine r5 (fun v => rd st.arr high.toNat ≤ v) ?_ z (by omega) hz2
          intro w hw1 hw2
          rw [l4 w (by omega)]
          exact p7 w (by omega) hw2
        by_cases cy : (y : Int) < r.1
        · rw [r4 x (by omega), r4 y (by omega)]
          exact l3 x y hx hxy (by omega)
        · by_cases cy2 : (y : Int) = r.1
          · rw [atp y cy2]
            exact le_of_lt (below x hx (by omega))
          · have hy' : r.1 < (y : Int) := by omega
            by_cases cx : (x : Int) < r.1
            · exact le_trans (le_of_lt (below x hx cx)) (above y hy' hy)
            · by_cases cx2 : (x : Int) = r.1
              · rw [atp x cx2]
                exact above y hy' hy
              · exact r3 x y (by omega) hxy hy
      · intro x hx
        rw [r4 x (by omega), l4 x (by omega)]
        exact p8 x hx
      · intro P hP x hx1 hx2
        have hA1 := p9 P hP
        have hA2 : ∀ z : Nat, low ≤ z → (z : Int) ≤ high → P (rd st1.arr z) := by
          intro z hz1 hz2
          by_cases cz : (z : Int) ≤ r.1 - 1
          · exact l5 P (fun w hw1 hw2 => hA1 w hw1 (by omega)) z hz1 cz
          · rw [l4 z (by omega)]
            exact hA1 z hz1 hz2
        by_cases cx : r.1 + 1 ≤ (x : Int)
        · exact r5 P (fun w hw1 hw2 => hA2 w (by omega) hw2) x cx hx2
        · rw [r4 x (by omega)]
          exact hA2 x hx1 hx2
    · refine ⟨st, by rw [quick_sort, if_neg c], rfl, List.Perm.refl _, ?_, fun _ _ => rfl,
        fun P hP => hP⟩
      intro x y hx hxy hy
      omega

/-- C4: for every `int` array `arr` of length `n >= 0`, `quick_sort(arr, 0, n - 1)` terminates
(any recursion fuel above `n` is enough) and leaves `arr` in non-decreasing order, holding a
permutation of the input; when the input elements are pairwise distinct the result is strictly
ascending. -/
theorem quick_sort_sorts (arr : List Int) (log : List Int) (fuel : Nat)
    (hf : arr.length < fuel) :
    ∃ out, quick_sort fuel ⟨arr, log⟩ 0 ((arr.length : Int) - 1) = some out ∧
      out.arr.Sorted (· ≤ ·) ∧ out.arr.Perm arr ∧ (arr.Nodup → out.arr.Sorted (· < ·)) := by
  obtain ⟨out, hq, h1, h2, h3, -, -⟩ := quick_sort_spec fuel ⟨arr, log⟩ 0 (arr.length - 1)
    (le_refl _) (by simp) (by omega) (by simp; omega)
  have hs : out.arr.Sorted (· ≤ ·) := by
    have := sorted_take_of_rd out.arr out.arr.length (le_refl _)
      (fun x y hxy hy => h3 x y (by omega) hxy (by rw [h1] at hy; simp only at hy ⊢; omega))
    rwa [List.take_length] at this
  exact ⟨out, hq, hs, h2, fun hnd => hs.lt_of_le (h2.nodup_iff.mpr hnd)⟩

/-- Witness for C4 on an array of five distinct elements. -/
theorem quick_sort_sorts_witness :
    ∃ out, quick_sort 6 ⟨[3, 1, 5, -4, 0], []⟩ 0 ((([3, 1, 5, -4, 0] : List Int).length : Int) - 1)
        = some out ∧
      out.arr.Sorted (· ≤ ·) ∧ out.arr.Perm [3, 1, 5, -4, 0] ∧
      (([3, 1, 5, -4, 0] : List Int).Nodup → out.arr.Sorted (· < ·)) :=
  quick_sort_sorts [3, 1, 5, -4, 0] [] 6 (by decide)

/-! ## C5: both sorts on the benchmark input `n, n - 1, ..., 1` -/

theorem rd_of_length_le {α : Type} [Zero α] (a : List α) (x : Nat) (h : a.length ≤ x) :
    rd a x = 0 := by
  simp [rd, List.getD_eq_getElem?_getD, List.getElem?_eq_none h]

theorem populate_descending_prefix (test : List Int) (n k : Nat) :
    ((List.range k).foldl (fun t i => wr t i ((n : Int) - (i : Int))) test).length
      = test.length ∧
    ∀ x, rd ((List.range k).foldl (fun t i => wr t i ((n : Int) - (i : Int))) test) x =
      if x < k ∧ x < test.length then (n : Int) - (x : Int) else rd test x := by
  induction k with
  | zero => exact ⟨rfl, fun x => by simp⟩
  | succ k ih =>
    obtain ⟨h1, h2⟩ := ih
    rw [List.range_succ, List.foldl_append]
    simp only [List.foldl_cons, List.foldl_nil]
    refine ⟨by rw [length_wr, h1], ?_⟩
    intro x
    by_cases e : x = k
    · subst e
      by_cases hb : x < test.length
      · rw [rd_wr_same _ _ _ (by rw [h1]; exact hb), if_pos ⟨by omega, hb⟩]
      · have hnb : ¬ (x < x + 1 ∧ x < test.length) := fun h => hb h.2
        rw [if_neg hnb, rd_of_length_le _ _ (by rw [length_wr, h1]; omega),
          rd_of_length_le _ _ (by omega)]
    · rw [rd_wr_other _ _ _ _ (Ne.symm e), h2 x]
      by_cases c : x < k ∧ x < test.length
      · rw [if_pos c, if_pos ⟨by omega, c.2⟩]
      · have c' : ¬ (x < k + 1 ∧ x < test.length) := by omega
        rw [if_neg c, if_neg c']

theorem populate_descending_take (test : List Int) (n : Nat) (hn : n ≤ test.length) :
    (populate_descending test n).length = test.length ∧
    (populate_descending test n).take n = (List.range n).map fun (i : Nat) => (n : Int) - (i : Int) := by
  obtain ⟨h1, h2⟩ := populate_descending_prefix test n n
  refine ⟨h1, ?_⟩
  apply List.ext_getElem
  · simp [populate_descending, h1, hn]
  · intro i hi1 hi2
    rw [List.length_take] at hi1
    have hi : i < n := by omega
    rw [List.getElem_take, ← rd_eq_getElem _ _ (by unfold populate_descending; omega)]
    simp only [populate_descending, List.getElem_map, List.getElem_range]
    rw [h2 i, if_pos ⟨hi, by omega⟩]

theorem descending_perm_ascending (n : Nat) :
    ((List.range n).map fun (i : Nat) => (n : Int) - (i : Int)).Perm
      ((List.range n).map fun (i : Nat) => (i : Int) + 1) := by
  have e : ((List.range n).map fun (i : Nat) => (n : Int) - (i : Int))
      = ((List.range n).map fun (i : Nat) => (i : Int) + 1).reverse := by
    apply List.ext_getElem
    · simp
    · intro i h1 h2
      simp only [List.length_map, List.length_range] at h1
      simp only [List.getElem_map, List.getElem_range, List.getElem_reverse, List.length_map,
        List.length_range]
      omega
  rw [e]
  exact List.reverse_perm _

theorem ascending_sorted (n : Nat) :
    ((List.range n).map fun (i : Nat) => (i : Int) + 1).Sorted (· < ·) := by
  rw [List.Sorted, List.pairwise_iff_getElem]
  intro i j hi hj hij
  simp only [List.getElem_map, List.getElem_range]
  omega

/-- C5: for every `n >= 1` that fits the buffer (so for the tested sizes 10, 50, 100 in the
100-element buffer), after the benchmark's population `test[i] = n - i` both
`bubble_sort(test, n)` and `quick_sort(test, 0, n - 1)` (with recursion fuel above `n`) leave
exactly `1, 2, ..., n` in the first `n` cells: a strictly ascending permutation of the input
`n, n - 1, ..., 1`. -/
theorem sorts_on_descending_input (test : List Int) (n fuel : Nat) (hn1 : 1 ≤ n)
    (hn : n ≤ test.length) (hf : n < fuel) :
    (populate_descending test n).take n
      = ((List.range n).map fun (i : Nat) => (n : Int) - (i : Int)) ∧
    (bubble_sort ⟨populate_descending test n, []⟩ n).arr.take n
      = ((List.range n).map fun (i : Nat) => (i : Int) + 1) ∧
    (∃ out, quick_sort fuel ⟨populate_descending test n, []⟩ 0 ((n : Int) - 1) = some out ∧
      out.arr.take n = ((List.range n).map fun (i : Nat) => (i : Int) + 1)) ∧
    ((List.range n).map fun (i : Nat) => (i : Int) + 1).Sorted (· < ·) ∧
    ((List.range n).map fun (i : Nat) => (i : Int) + 1).Perm
      ((List.range n).map fun (i : Nat) => (n : Int) - (i : Int)) := by
  obtain ⟨hl, ht⟩ := populate_descending_take test n hn
  have hasc := ascending_sorted n
  have hasc' : ((List.range n).map fun (i : Nat) => (i : Int) + 1).Sorted (· ≤ ·) :=
    hasc.imp (fun h => le_of_lt h)
  refine ⟨ht, ?_, ?_, hasc, (descending_perm_ascending n).symm⟩
  · obtain ⟨-, b2, b3, -⟩ := bubble_sort_take_spec ⟨populate_descending test n, []⟩ n
      (by simp only [hl]; exact hn)
    simp only at b3
    rw [ht] at b3
    exact List.eq_of_perm_of_sorted (b3.trans (descending_perm_ascending n)) b2 hasc'
  · obtain ⟨out, hq, q1, q2, q3, q4, -⟩ := quick_sort_spec fuel ⟨populate_descending test n, []⟩
      0 ((n : Int) - 1) (le_refl _) (by simp only [hl]; omega) (by omega) (by omega)
    refine ⟨out, hq, ?_⟩
    have hs := sorted_take_of_rd out.arr n (by rw [q1]; simp only [hl]; exact hn)
      (fun x y hxy hy => q3 x y (by omega) hxy (by omega))
    have hd := drop_eq_of_rd _ _ n q1 (fun x hx => q4 x (Or.inr (by omega)))
    have hp := take_perm_of_drop_eq _ _ n q2 hd
    simp only at hp
    rw [ht] at hp
    exact List.eq_of_perm_of_sorted (hp.trans (descending_perm_ascending n)) hs hasc'

/-- Witness for C5 at the tested size `n = 10` in the 100-element buffer. -/
theorem sorts_on_descending_input_witness :
    (populate_descending (List.replicate 100 0) 10).take 10
      = ((List.range 10).map fun (i : Nat) => ((10 : Nat) : Int) - (i : Int)) ∧
    (bubble_sort ⟨populate_descending (List.replicate 100 0) 10, []⟩ 10).arr.take 10
      = ((List.range 10).map fun (i : Nat) => (i : Int) + 1) ∧
    (∃ out, quick_sort 11 ⟨populate_descending (List.replicate 100 0) 10, []⟩ 0
        (((10 : Nat) : Int) - 1) = some out ∧
      out.arr.take 10 = ((List.range 10).map fun (i : Nat) => (i : Int) + 1)) ∧
    ((List.range 10).map fun (i : Nat) => (i : Int) + 1).Sorted (· < ·) ∧
    ((List.range 10).map fun (i : Nat) => (i : Int) + 1).Perm
      ((List.range 10).map fun (i : Nat) => ((10 : Nat) : Int) - (i : Int)) :=
  sorts_on_descending_input (List.replicate 100 0) 10 11 (by decide) (by simp) (by decide)

/-! ## Fibonacci kernels -/

theorem wrap32_of_range (x : Int) (h1 : -2147483648 ≤ x) (h2 : x < 2147483648) :
    wrap32 x = x := by
  unfold wrap32; omega

theorem wrap32_add_wrap32 (a b : Int) : wrap32 (wrap32 a + wrap32 b) = wrap32 (a + b) := by
  unfold wrap32; omega

theorem fib_recursive_spec : ∀ (fuel k : Nat), 1 ≤ fuel → k ≤ fuel →
    fib_recursive fuel (k : Int) = some (wrap32 (fibSpec k)) := by
  intro fuel
  induction fuel with
  | zero => intro k h; omega
  | succ fuel ih =>
    intro k _ hk
    match k with
    | 0 => simp [fib_recursive, fibSpec, wrap32]
    | 1 => simp [fib_recursive, fibSpec, wrap32]
    | k + 2 =>
      have c : ¬ (((k + 2 : Nat) : Int) ≤ 1) := by omega
      have e1 : ((k + 2 : Nat) : Int) - 1 = ((k + 1 : Nat) : Int) := by omega
      have e2 : ((k + 2 : Nat) : Int) - 2 = (k : Int) := by omega
      rw [fib_recursive, if_neg c, e1, e2, ih (k + 1) (by omega) (by omega),
        ih k (by omega) (by omega)]
      simp only [Option.some_bind, fibSpec, wrap32_add_wrap32]

theorem fib_iterative_iterate (k : Nat) (hk : k + 2 < 2147483648) :
    fib_iterative_body^[k] { prev := 0, curr := 1, i := 2 }
      = { prev := wrap32 (fibSpec k), curr := wrap32 (fibSpec (k + 1)), i := (k : Int) + 2 } := by
  induction k with
  | zero => simp [fibSpec, wrap32]
  | succ k ih =>
    rw [Function.iterate_succ_apply', ih (by omega)]
    simp only [fib_iterative_body, wrap32_add_wrap32, fibSpec]
    have : wrap32 ((k : Int) + 2 + 1) = ((k + 1 : Nat) : Int) + 2 := by
      rw [wrap32_of_range _ (by omega) (by omega)]; push_cast; ring
    rw [this, add_comm (fibSpec k)]

theorem fib_iterative_spec (fuel k : Nat) (hk : k ≤ fuel) (hmax : k < 2147483647) :
    fib_iterative fuel (k : Int) = some (wrap32 (fibSpec k)) := by
  match k with
  | 0 => simp [fib_iterative, fibSpec, wrap32]
  | 1 => simp [fib_iterative, fibSpec, wrap32]
  | k + 2 =>
    have c : ¬ (((k + 2 : Nat) : Int) ≤ 1) := by omega
    rw [fib_iterative, if_neg c]
    rw [whileLoop_iterate _ _ (k + 1) fuel _ _ _ (by omega)]
    · rw [fib_iterative_iterate (k + 1) (by omega)]
      rfl
    · intro i hi
      rw [fib_iterative_iterate i (by omega)]
      simp only [decide_eq_true_eq]
      omega
    · rw [fib_iterative_iterate (k + 1) (by omega)]
      simp only [decide_eq_false_iff_not]
      push_cast
      omega

theorem fibSpec_pos_mono (k : Nat) : 0 ≤ fibSpec k ∧ fibSpec k ≤ fibSpec (k + 1) := by
  induction k with
  | zero => simp [fibSpec]
  | succ k ih =>
    refine ⟨le_trans ih.1 ih.2, ?_⟩
    rw [fibSpec]
    omega

theorem fibSpec_mono (j k : Nat) (h : j ≤ k) : fibSpec j ≤ fibSpec k := by
  induction k with
  | zero =>
    have : j = 0 := by omega
    rw [this]
  | succ k ih =>
    by_cases e : j = k + 1
    · rw [e]
    · exact le_trans (ih (by omega)) (fibSpec_pos_mono k).2

/-- C6: for every index `0 <= n <= 46`, `fib_iterative(n)` returns (given fuel `>= n`) the
`n`-th Fibonacci number `F(n)`, where `F(0) = 0`, `F(1) = 1` and `F(k) = F(k - 1) + F(k - 2)`. -/
theorem fib_iterative_returns_fib (fuel n : Nat) (hn : n ≤ 46) (hf : n ≤ fuel) :
    fib_iterative fuel (n : Int) = some (fibSpec n) := by
  rw [fib_iterative_spec fuel n hf (by omega)]
  have h46 : fibSpec 46 = 1836311903 := by decide
  have hle := fibSpec_mono n 46 hn
  have h0 := (fibSpec_pos_mono n).1
  rw [wrap32_of_range _ (by omega) (by omega)]

/-- Witness for C6 at `n = 35`, a benchmarked index. -/
theorem fib_iterative_returns_fib_witness :
    fib_iterative 35 ((35 : Nat) : Int) = some (fibSpec 35) :=
  fib_iterative_returns_fib 35 35 (by decide) (by decide)

/-! ## C7: the two Fibonacci kernels agree -/

theorem fib_iterative_loop_diverges (fuel : Nat) (s : FibState) (h : s.i ≤ 2147483647) :
    whileLoop (fun s : FibState => decide (s.i ≤ 2147483647)) fib_iterative_body fuel s
      = none := by
  induction fuel generalizing s with
  | zero => rfl
  | succ fuel ih =>
    rw [whileLoop, if_pos (by simpa using h)]
    apply ih
    simp only [fib_iterative_body, wrap32]
    omega

/-- C7 fails at `n = INT_MAX = 2147483647`: the test `i <= n` of `fib_iterative` can never
fail, so under wrap-around arithmetic the loop never ends (no amount of fuel gives a result),
while `fib_recursive` does return a value. -/
theorem fib_iterative_never_returns_at_int_max :
    (∀ fuel, fib_iterative fuel 2147483647 = none) ∧
    ∃ v, fib_recursive 2147483647 2147483647 = some v := by
  refine ⟨?_, ?_⟩
  · intro fuel
    rw [fib_iterative, if_neg (by decide), fib_iterative_loop_diverges fuel _ (by decide)]
    rfl
  · exact ⟨_, fib_recursive_spec 2147483647 2147483647 (by decide) (le_refl _)⟩

/-- C7, amended: for every `int n` below `INT_MAX` (negative `n` and `n <= 1` included, where
both return `n` unchanged), `fib_iterative(n)` and `fib_recursive(n)` both return, and return
the same value, under 32-bit wrap-around arithmetic and so also past the overflow point. -/
theorem fib_iterative_eq_fib_recursive (n : Int) (fuel : Nat) (hmax : n < 2147483647)
    (h1 : 1 ≤ fuel) (hf : n ≤ fuel) :
    ∃ v, fib_iterative fuel n = some v ∧ fib_recursive fuel n = some v ∧ (n ≤ 1 → v = n) := by
  by_cases c : n ≤ 1
  · obtain ⟨f, rfl⟩ : ∃ f, fuel = f + 1 := ⟨fuel - 1, by omega⟩
    exact ⟨n, by rw [fib_iterative, if_pos c], by rw [fib_recursive, if_pos c], fun _ => rfl⟩
  · obtain ⟨k, rfl⟩ : ∃ k : Nat, n = (k : Int) := ⟨n.toNat, by omega⟩
    exact ⟨_, fib_iterative_spec fuel k (by omega) (by omega),
      fib_recursive_spec fuel k h1 (by omega), fun h => absurd h c⟩

/-- Witness for the amended C7 at `n = 20`. -/
theorem fib_iterative_eq_fib_recursive_witness :
    ∃ v, fib_iterative 20 20 = some v ∧ fib_recursive 20 20 = some v ∧ ((20 : Int) ≤ 1 → v = 20) :=
  fib_iterative_eq_fib_recursive 20 20 (by decide) (by decide) (by decide)

/-! ## Matrix multiplication -/

theorem matrix_kloop_spec (A B : List Int) (i j : Nat) (C0 : IntMatrix)
    (hidx : i * 20 + j < C0.cells.length) (h0 : rd C0.cells (i * 20 + j) = 0) (K : Nat) :
    ((List.range K).foldl (matrix_multiply_inner A B i j) C0).cells.length = C0.cells.length ∧
    rd ((List.range K).foldl (matrix_multiply_inner A B i j) C0).cells (i * 20 + j)
      = wrap32 (matrix_dot K A B i j) ∧
    ∀ x, x ≠ i * 20 + j →
      rd ((List.range K).foldl (matrix_multiply_inner A B i j) C0).cells x = rd C0.cells x := by
  induction K with
  | zero =>
    refine ⟨rfl, ?_, fun _ _ => rfl⟩
    simp [matrix_dot, h0, wrap32]
  | succ K ih =>
    obtain ⟨h1, h2, h3⟩ := ih
    rw [List.range_succ, List.foldl_append]
    simp only [List.foldl_cons, List.foldl_nil]
    generalize (List.range K).foldl (matrix_multiply_inner A B i j) C0 = mid at h1 h2 h3 ⊢
    refine ⟨by simp [matrix_multiply_inner, length_wr, h1], ?_, ?_⟩
    · simp only [matrix_multiply_inner]
      rw [rd_wr_same _ _ _ (by omega), h2]
      simp only [matrix_dot, Finset.sum_range_succ]
      exact wrap32_add_wrap32 _ _
    · intro x hx
      simp only [matrix_multiply_inner]
      rw [rd_wr_other _ _ _ _ (Ne.symm hx)]
      exact h3 x hx

theorem matrix_cell_spec (size : Nat) (A B : List Int) (i j : Nat) (C0 : IntMatrix)
    (hidx : i * 20 + j < C0.cells.length) :
    (matrix_multiply_cell size A B i C0 j).cells.length = C0.cells.length ∧
    rd (matrix_multiply_cell size A B i C0 j).cells (i * 20 + j)
      = wrap32 (matrix_dot size A B i j) ∧
    ∀ x, x ≠ i * 20 + j → rd (matrix_multiply_cell size A B i C0 j).cells x = rd C0.cells x := by
  obtain ⟨h1, h2, h3⟩ := matrix_kloop_spec A B i j
    { cells := wr C0.cells (i * 20 + j) 0, overflow := C0.overflow }
    (by simpa [length_wr] using hidx) (rd_wr_same _ _ _ hidx) size
  refine ⟨by rw [matrix_multiply_cell, h1, length_wr], h2, ?_⟩
  intro x hx
  rw [matrix_multiply_cell, h3 x hx, rd_wr_other _ _ _ _ (Ne.symm hx)]

theorem matrix_row_spec (size : Nat) (A B : List Int) (i : Nat) (C0 : IntMatrix)
    (hi : i < 20) (hlen : C0.cells.length = 400) (J : Nat) (hJ : J ≤ 20) :
    ((List.range J).foldl (matrix_multiply_cell size A B i) C0).cells.length = 400 ∧
    (∀ j, j < J → rd ((List.range J).foldl (matrix_multiply_cell size A B i) C0).cells
      (i * 20 + j) = wrap32 (matrix_dot size A B i j)) ∧
    ∀ x, (x / 20 ≠ i ∨ J ≤ x % 20) →
      rd ((List.range J).foldl (matrix_multiply_cell size A B i) C0).cells x = rd C0.cells x := by
  induction J with
  | zero => exact ⟨hlen, fun j hj => by omega, fun _ _ => rfl⟩
  | succ J ih =>
    obtain ⟨h1, h2, h3⟩ := ih (by omega)
    rw [List.range_succ, List.foldl_append]
    simp only [List.foldl_cons, List.foldl_nil]
    generalize (List.range J).foldl (matrix_multiply_cell size A B i) C0 = mid at h1 h2 h3 ⊢
    obtain ⟨c1, c2, c3⟩ := matrix_cell_spec size A B i J mid (by omega)
    refine ⟨c1.trans h1, ?_, ?_⟩
    · intro j hj
      by_cases e : j = J
      · rw [e]; exact c2
      · rw [c3 _ (by omega)]
        exact h2 j (by omega)
    · intro x hx
      rw [c3 x (by omega)]
      exact h3 x (by omega)

/-- Result of `matrix_multiply` in 20 x 20 storage for `size <= 20`: every cell of the
`size x size` block holds the wrapped dot product and every other cell is untouched. -/
theorem matrix_multiply_spec (size : Nat) (A B C : List Int) (hs : size ≤ 20)
    (hlen : C.length = 400) :
    (matrix_multiply size A B C).cells.length = 400 ∧
    (∀ i j, i < size → j < size →
      rd (matrix_multiply size A B C).cells (i * 20 + j) = wrap32 (matrix_dot size A B i j)) ∧
    ∀ x, (size ≤ x / 20 ∨ size ≤ x % 20) →
      rd (matrix_multiply size A B C).cells x = rd C x := by
  have key : ∀ I, I ≤ size →
      ((List.range I).foldl
        (fun C i => (List.range size).foldl (matrix_multiply_cell size A B i) C)
        { cells := C, overflow := false }).cells.length = 400 ∧
      (∀ i j, i < I → j < size →
        rd ((List.range I).foldl
          (fun C i => (List.range size).foldl (matrix_multiply_cell size A B i) C)
          { cells := C, overflow := false }).cells
            (i * 20 + j) = wrap32 (matrix_dot size A B i j)) ∧
      ∀ x, (I ≤ x / 20 ∨ size ≤ x % 20) →
        rd ((List.range I).foldl
          (fun C i => (List.range size).foldl (matrix_multiply_cell size A B i) C)
          { cells := C, overflow := false }).cells x = rd C x := by
    intro I
    induction I with
    | zero => intro _; exact ⟨hlen, fun i j hi => by omega, fun _ _ => rfl⟩
    | succ I ih =>
      intro hI
      obtain ⟨h1, h2, h3⟩ := ih (by omega)
      rw [List.range_succ, List.foldl_append]
      simp only [List.foldl_cons, List.foldl_nil]
      generalize (List.range I).foldl
        (fun C i => (List.range size).foldl (matrix_multiply_cell size A B i) C)
        { cells := C, overflow := false } = mid at h1 h2 h3 ⊢
      obtain ⟨r1, r2, r3⟩ := matrix_row_spec size A B I mid (by omega) h1 size hs
      refine ⟨r1, ?_, ?_⟩
      · intro i j hi hj
        by_cases e : i = I
        · rw [e]; exact r2 j hj
        · rw [r3 _ (by omega)]
          exact h2 i j (by omega) hj
      · intro x hx
        rw [r3 x (by omega)]
        exact h3 x (by omega)
  exact key size (le_refl _)

/-- C8: for every `0 <= size <= 20` and all matrices `A`, `B`, `C` held in 20 x 20 storage
(three separate arrays, so without aliasing), after `matrix_multiply(size, A, B, C)` every entry
with `0 <= i, j < size` satisfies `C[i][j] = sum over k < size of A[i][k] * B[k][j]`, in integer
arithmetic modulo `2 ^ 32`. -/
theorem matrix_multiply_computes_product (size : Nat) (A B C : List Int)
    (hs : size ≤ 20) (_hA : A.length = 400) (_hB : B.length = 400) (hC : C.length = 400)
    (i j : Nat) (hi : i < size) (hj : j < size) :
    rd (matrix_multiply size A B C).cells (i * 20 + j)
      = wrap32 (∑ k in Finset.range size, rd A (i * 20 + k) * rd B (k * 20 + j)) :=
  (matrix_multiply_spec size A B C hs hC).2.1 i j hi hj

/-- Witness for C8: entry `(1, 0)` of a product of size 2. -/
theorem matrix_multiply_computes_product_witness :
    rd (matrix_multiply 2 (List.replicate 400 3) (List.replicate 400 (-5))
        (List.replicate 400 7)).cells (1 * 20 + 0)
      = wrap32 (∑ k in Finset.range 2, rd (List.replicate 400 (3 : Int)) (1 * 20 + k) *
          rd (List.replicate 400 (-5 : Int)) (k * 20 + 0)) :=
  matrix_multiply_computes_product 2 _ _ _ (by decide) (List.length_replicate _ _)
    (List.length_replicate _ _) (List.length_replicate _ _) 1 0 (by decide) (by decide)

/-! ## C9: the benchmark's matrices and the exact reference -/

theorem matrix_dot_bound (A B : List Int) (i j K : Nat)
    (hb : ∀ k, k < K → -1000 ≤ rd A (i * 20 + k) * rd B (k * 20 + j) ∧
      rd A (i * 20 + k) * rd B (k * 20 + j) ≤ 1000) :
    -1000 * (K : Int) ≤ matrix_dot K A B i j ∧ matrix_dot K A B i j ≤ 1000 * (K : Int) := by
  induction K with
  | zero => simp [matrix_dot]
  | succ K ih =>
    obtain ⟨h1, h2⟩ := ih (fun k hk => hb k (by omega))
    obtain ⟨h3, h4⟩ := hb K (by omega)
    simp only [matrix_dot, Finset.sum_range_succ] at h1 h2 ⊢
    push_cast
    omega

theorem inInt32_of_bound (x : Int) (h1 : -20000 ≤ x) (h2 : x ≤ 20000) : inInt32 x = true := by
  simp only [inInt32, Bool.and_eq_true, decide_eq_true_eq]
  omega

theorem matrix_kloop_no_overflow (A B : List Int) (i j : Nat) (C0 : IntMatrix)
    (hidx : i * 20 + j < C0.cells.length) (h0 : rd C0.cells (i * 20 + j) = 0) (K : Nat)
    (hK : K ≤ 20)
    (hb : ∀ k, k < K → -1000 ≤ rd A (i * 20 + k) * rd B (k * 20 + j) ∧
      rd A (i * 20 + k) * rd B (k * 20 + j) ≤ 1000) :
    ((List.range K).foldl (matrix_multiply_inner A B i j) C0).overflow = C0.overflow := by
  induction K with
  | zero => rfl
  | succ K ih =>
    have h1 := ih (by omega) (fun k hk => hb k (by omega))
    obtain ⟨-, h2, -⟩ := matrix_kloop_spec A B i j C0 hidx h0 K
    obtain ⟨d1, d2⟩ := matrix_dot_bound A B i j K (fun k hk => hb k (by omega))
    obtain ⟨p1, p2⟩ := hb K (by omega)
    rw [List.range_succ, List.foldl_append]
    simp only [List.foldl_cons, List.foldl_nil]
    generalize (List.range K).foldl (matrix_multiply_inner A B i j) C0 = mid at h1 h2 ⊢
    have hK' : (K : Int) ≤ 19 := by omega
    rw [wrap32_of_range _ (by omega) (by omega)] at h2
    simp only [matrix_multiply_inner, h1, h2]
    rw [wrap32_of_range _ (by omega) (by omega), inInt32_of_bound _ (by omega) (by omega),
      inInt32_of_bound _ (by omega) (by omega)]
    simp

theorem matrix_multiply_no_overflow (size : Nat) (A B C : List Int) (hs : size ≤ 20)
    (hlen : C.length = 400)
    (hb : ∀ i j k, i < size → j < size → k < size →
      -1000 ≤ rd A (i * 20 + k) * rd B (k * 20 + j) ∧
      rd A (i * 20 + k) * rd B (k * 20 + j) ≤ 1000) :
    (matrix_multiply size A B C).overflow = false ∧
    ∀ i j, i < size → j < size →
      rd (matrix_multiply size A B C).cells (i * 20 + j) = matrix_dot size A B i j := by
  have cell : ∀ (i j : Nat) (C0 : IntMatrix), i < size → j < size → C0.cells.length = 400 →
      (matrix_multiply_cell size A B i C0 j).overflow = C0.overflow := by
    intro i j C0 hi hj hl
    rw [matrix_multiply_cell, matrix_kloop_no_overflow A B i j _
      (by simp only [length_wr]; omega) (rd_wr_same _ _ _ (by omega)) size hs
      (fun k hk => hb i j k hi hj hk)]
  have row : ∀ (i : Nat) (C0 : IntMatrix), i < size → C0.cells.length = 400 → ∀ J, J ≤ size →
      ((List.range J).foldl (matrix_multiply_cell size A B i) C0).overflow = C0.overflow := by
    intro i C0 hi hl J
    induction J with
    | zero => intro _; rfl
    | succ J ih =>
      intro hJ
      rw [List.range_succ, List.foldl_append]
      simp only [List.foldl_cons, List.foldl_nil]
      rw [cell i J _ hi (by omega)
        (matrix_row_spec size A B i C0 (by omega) hl J (by omega)).1, ih (by omega)]
  have all : ∀ I, I ≤ size →
      ((List.range I).foldl
        (fun C i => (List.range size).foldl (matrix_multiply_cell size A B i) C)
        { cells := C, overflow := false }).overflow = false ∧
      ((List.range I).foldl
        (fun C i => (List.range size).foldl (matrix_multiply_cell size A B i) C)
        { cells := C, overflow := false }).cells.length = 400 := by
    intro I
    induction I with
    | zero => intro _; exact ⟨rfl, hlen⟩
    | succ I ih =>
      intro hI
      obtain ⟨h1, h2⟩ := ih (by omega)
      rw [List.range_succ, List.foldl_append]
      simp only [List.foldl_cons, List.foldl_nil]
      exact ⟨by rw [row I _ (by omega) h2 size (le_refl _), h1],
        (matrix_row_spec size A B I _ (by omega) h2 size hs).1⟩
  refine ⟨(all size (le_refl _)).1, ?_⟩
  intro i j hi hj
  obtain ⟨d1, d2⟩ := matrix_dot_bound A B i j size (fun k hk => hb i j k hi hj hk)
  have hs' : (size : Int) ≤ 20 := by omega
  rw [(matrix_multiply_spec size A B C hs hlen).2.1 i j hi hj,
    wrap32_of_range _ (by omega) (by omega)]

theorem matrix_populate_row (i : Nat) (st : MatrixRun) (hi : i < 20)
    (hA : st.A.length = 400) (hB : st.B.length = 400) (J : Nat) (hJ : J ≤ 20) :
    ((List.range J).foldl (fun (st : MatrixRun) j =>
        ({ A := wr st.A (i * 20 + j) ((i : Int) + (j : Int))
           B := wr st.B (i * 20 + j) ((i : Int) - (j : Int))
           C := st.C
           overflow := st.overflow } : MatrixRun)) st).A.length = 400 ∧
    ((List.range J).foldl (fun (st : MatrixRun) j =>
        ({ A := wr st.A (i * 20 + j) ((i : Int) + (j : Int))
           B := wr st.B (i * 20 + j) ((i : Int) - (j : Int))
           C := st.C
           overflow := st.overflow } : MatrixRun)) st).B.length = 400 ∧
    ((List.range J).foldl (fun (st : MatrixRun) j =>
        ({ A := wr st.A (i * 20 + j) ((i : Int) + (j : Int))
           B := wr st.B (i * 20 + j) ((i : Int) - (j : Int))
           C := st.C
           overflow := st.overflow } : MatrixRun)) st).C = st.C ∧
    (∀ j, j < J →
      rd ((List.range J).foldl (fun (st : MatrixRun) j =>
        ({ A := wr st.A (i * 20 + j) ((i : Int) + (j : Int))
           B := wr st.B (i * 20 + j) ((i : Int) - (j : Int))
           C := st.C
           overflow := st.overflow } : MatrixRun)) st).A (i * 20 + j) = (i : Int) + (j : Int) ∧
      rd ((List.range J).foldl (fun (st : MatrixRun) j =>
        ({ A := wr st.A (i * 20 + j) ((i : Int) + (j : Int))
           B := wr st.B (i * 20 + j) ((i : Int) - (j : Int))
           C := st.C
           overflow := st.overflow } : MatrixRun)) st).B (i * 20 + j) = (i : Int) - (j : Int)) ∧
    ∀ x, (x / 20 ≠ i ∨ J ≤ x % 20) →
      rd ((List.range J).foldl (fun (st : MatrixRun) j =>
        ({ A := wr st.A (i * 20 + j) ((i : Int) + (j : Int))
           B := wr st.B (i * 20 + j) ((i : Int) - (j : Int))
           C := st.C
           overflow := st.overflow } : MatrixRun)) st).A x = rd st.A x ∧
      rd ((List.range J).foldl (fun (st : MatrixRun) j =>
        ({ A := wr st.A (i * 20 + j) ((i : Int) + (j : Int))
           B := wr st.B (i * 20 + j) ((i : Int) - (j : Int))
           C := st.C
           overflow := st.overflow } : MatrixRun)) st).B x = rd st.B x := by
  induction J with
  | zero => exact ⟨hA, hB, rfl, fun j hj => by omega, fun _ _ => ⟨rfl, rfl⟩⟩
  | succ J ih =>
    obtain ⟨h1, h2, h3, h4, h5⟩ := ih (by omega)
    rw [List.range_succ, List.foldl_append]
    simp only [List.foldl_cons, List.foldl_nil]
    generalize (List.range J).foldl (fun (st : MatrixRun) j =>
        ({ A := wr st.A (i * 20 + j) ((i : Int) + (j : Int))
           B := wr st.B (i * 20 + j) ((i : Int) - (j : Int))
           C := st.C
           overflow := st.overflow } : MatrixRun)) st = mid at h1 h2 h3 h4 h5 ⊢
    refine ⟨by rw [length_wr, h1], by rw [length_wr, h2], h3, ?_, ?_⟩
    · intro j hj
      by_cases e : j = J
      · subst e
        exact ⟨rd_wr_same _ _ _ (by omega), rd_wr_same _ _ _ (by omega)⟩
      · rw [rd_wr_other _ _ _ _ (by omega), rd_wr_other _ _ _ _ (by omega)]
        exact h4 j (by omega)
    · intro x hx
      rw [rd_wr_other _ _ _ _ (by omega), rd_wr_other _ _ _ _ (by omega)]
      exact h5 x (by omega)

theorem matrix_populate_spec (n : Nat) (st : MatrixRun) (hn : n ≤ 20)
    (hA : st.A.length = 400) (hB : st.B.length = 400) :
    (matrix_populate n st).A.length = 400 ∧ (matrix_populate n st).B.length = 400 ∧
    (matrix_populate n st).C = st.C ∧
    ∀ i j, i < n → j < n →
      rd (matrix_populate n st).A (i * 20 + j) = (i : Int) + (j : Int) ∧
      rd (matrix_populate n st).B (i * 20 + j) = (i : Int) - (j : Int) := by
  have key : ∀ I, I ≤ n →
      ((List.range I).foldl (fun st i => (List.range n).foldl (fun (st : MatrixRun) j =>
        ({ A := wr st.A (i * 20 + j) ((i : Int) + (j : Int))
           B := wr st.B (i * 20 + j) ((i : Int) - (j : Int))
           C := st.C
           overflow := st.overflow } : MatrixRun)) st) st).A.length = 400 ∧
      ((List.range I).foldl (fun st i => (List.range n).foldl (fun (st : MatrixRun) j =>
        ({ A := wr st.A (i * 20 + j) ((i : Int) + (j : Int))
           B := wr st.B (i * 20 + j) ((i : Int) - (j : Int))
           C := st.C
           overflow := st.overflow } : MatrixRun)) st) st).B.length = 400 ∧
      ((List.range I).foldl (fun st i => (List.range n).foldl (fun (st : MatrixRun) j =>
        ({ A := wr st.A (i * 20 + j) ((i : Int) + (j : Int))
           B := wr st.B (i * 20 + j) ((i : Int) - (j : Int))
           C := st.C
           overflow := st.overflow } : MatrixRun)) st) st).C = st.C ∧
      ∀ i j, i < I → j < n →
        rd ((List.range I).foldl (fun st i => (List.range n).foldl (fun (st : MatrixRun) j =>
          ({ A := wr st.A (i * 20 + j) ((i : Int) + (j : Int))
             B := wr st.B (i * 20 + j) ((i : Int) - (j : Int))
             C := st.C
             overflow := st.overflow } : MatrixRun)) st) st).A (i * 20 + j)
          = (i : Int) + (j : Int) ∧
        rd ((List.range I).foldl (fun st i => (List.range n).foldl (fun (st : MatrixRun) j =>
          ({ A := wr st.A (i * 20 + j) ((i : Int) + (j : Int))
             B := wr st.B (i * 20 + j) ((i : Int) - (j : Int))
             C := st.C
             overflow := st.overflow } : MatrixRun)) st) st).B (i * 20 + j)
          = (i : Int) - (j : Int) := by
    intro I
    induction I with
    | zero => intro _; exact ⟨hA, hB, rfl, fun i j hi => by omega⟩
    | succ I ih =>
      intro hI
      obtain ⟨h1, h2, h3, h4⟩ := ih (by omega)
      rw [List.range_succ, List.foldl_append]
      simp only [List.foldl_cons, List.foldl_nil]
      generalize (List.range I).foldl (fun st i => (List.range n).foldl
        (fun (st : MatrixRun) j =>
          ({ A := wr st.A (i * 20 + j) ((i : Int) + (j : Int))
             B := wr st.B (i * 20 + j) ((i : Int) - (j : Int))
             C := st.C
             overflow := st.overflow } : MatrixRun)) st) st = mid at h1 h2 h3 h4 ⊢
      obtain ⟨r1, r2, r3, r4, r5⟩ := matrix_populate_row I mid (by omega) h1 h2 n hn
      refine ⟨r1, r2, r3.trans h3, ?_⟩
      intro i j hi hj
      by_cases e : i = I
      · subst e; exact r4 j hj
      · obtain ⟨a, b⟩ := r5 (i * 20 + j) (by omega)
        rw [a, b]
        exact h4 i j (by omega) hj
  exact key n (le_refl _)

theorem reference_sum_closed_form (n : Nat) (i j : Int) :
    6 * ∑ k in Finset.range n, (i + (k : Int)) * ((k : Int) - j) =
      (n : Int) * ((n : Int) - 1) * (2 * (n : Int) - 1)
        + 3 * (i - j) * ((n : Int) * ((n : Int) - 1)) - 6 * (n : Int) * i * j := by
  induction n with
  | zero => simp
  | succ n ih =>
    rw [Finset.sum_range_succ, mul_add, ih]
    push_cast
    ring

theorem six_dvd_square_pyramid (n : Nat) :
    ∃ a : Int, (n : Int) * ((n : Int) - 1) * (2 * (n : Int) - 1) = 6 * a := by
  induction n with
  | zero => exact ⟨0, by simp⟩
  | succ n ih =>
    obtain ⟨a, ha⟩ := ih
    refine ⟨a + (n : Int) * (n : Int), ?_⟩
    push_cast
    linear_combination ha

theorem two_dvd_consecutive (n : Nat) : ∃ b : Int, (n : Int) * ((n : Int) - 1) = 2 * b := by
  induction n with
  | zero => exact ⟨0, by simp⟩
  | succ n ih =>
    obtain ⟨b, hb⟩ := ih
    refine ⟨b + (n : Int), ?_⟩
    push_cast
    linear_combination hb

theorem reference_sum_eq (n : Nat) (i j : Int) :
    ∑ k in Finset.range n, (i + (k : Int)) * ((k : Int) - j) =
      (n : Int) * ((n : Int) - 1) * (2 * (n : Int) - 1) / 6
        + (i - j) * ((n : Int) * ((n : Int) - 1) / 2) - (n : Int) * i * j := by
  obtain ⟨a, ha⟩ := six_dvd_square_pyramid n
  obtain ⟨b, hb⟩ := two_dvd_consecutive n
  have h := reference_sum_closed_form n i j
  rw [ha, hb, Int.mul_ediv_cancel_left _ (by decide), Int.mul_ediv_cancel_left _ (by decide)]
  rw [ha, hb] at h
  have h6 : 6 * ∑ k in Finset.range n, (i + (k : Int)) * ((k : Int) - j)
      = 6 * (a + (i - j) * b - (n : Int) * i * j) := by linear_combination h
  exact Int.eq_of_mul_eq_mul_left (by decide) h6

theorem benchmark_matrix_size_reference (st : MatrixRun) (n : Nat) (hn : n ≤ 20)
    (hA : st.A.length = 400) (hB : st.B.length = 400) (hC : st.C.length = 400) :
    MatrixReference n (benchmark_matrix_size st n) ∧
    (benchmark_matrix_size st n).A.length = 400 ∧
    (benchmark_matrix_size st n).B.length = 400 ∧
    (benchmark_matrix_size st n).C.length = 400 := by
  obtain ⟨p1, p2, p3, p4⟩ := matrix_populate_spec n st hn hA hB
  have hC' : (matrix_populate n st).C.length = 400 := by rw [p3]; exact hC
  have hb : ∀ i j k, i < n → j < n → k < n →
      -1000 ≤ rd (matrix_populate n st).A (i * 20 + k) * rd (matrix_populate n st).B (k * 20 + j) ∧
      rd (matrix_populate n st).A (i * 20 + k) * rd (matrix_populate n st).B (k * 20 + j)
        ≤ 1000 := by
    intro i j k hi hj hk
    rw [(p4 i k hi hk).1, (p4 k j hk hj).2]
    have x0 : (0 : Int) ≤ (i : Int) + (k : Int) := by omega
    have x1 : (i : Int) + (k : Int) ≤ 38 := by omega
    have y0 : (0 : Int) ≤ 19 - ((k : Int) - (j : Int)) := by omega
    have y1 : (0 : Int) ≤ ((k : Int) - (j : Int)) + 19 := by omega
    have m1 := mul_nonneg x0 y0
    have m2 := mul_nonneg x0 y1
    constructor <;> nlinarith
  obtain ⟨q1, q2⟩ := matrix_multiply_no_overflow n _ _ _ hn hC' hb
  have q3 := (matrix_multiply_spec n (matrix_populate n st).A (matrix_populate n st).B
    (matrix_populate n st).C hn hC').1
  refine ⟨⟨q1, ?_⟩, p1, p2, q3⟩
  intro i j hi hj
  have hsum : rd (benchmark_matrix_size st n).C (i * 20 + j)
      = ∑ k in Finset.range n, ((i : Int) + (k : Int)) * ((k : Int) - (j : Int)) := by
    simp only [benchmark_matrix_size]
    rw [q2 i j hi hj, matrix_dot]
    apply Finset.sum_congr rfl
    intro k hk
    have hk' : k < n := Finset.mem_range.mp hk
    rw [(p4 i k hi hk').1, (p4 k j hk' hj).2]
  refine ⟨(p4 i j hi hj).1, (p4 i j hi hj).2, hsum, ?_⟩
  rw [hsum]
  exact reference_sum_eq n i j

/-- C9: in `benchmark_matrix_multiplication`, whatever the three 20 x 20 arrays held before,
for each configured `n` (10, then 20) the inputs hold `A[i][j] = i + j` and `B[i][j] = i - j`
for all `i, j < n` when the kernel starts, no product or partial sum leaves the 32-bit range,
and the product is the exact integer reference
`C[i][j] = sum over k < n of (i + k) * (k - j)
  = n (n - 1) (2 n - 1) / 6 + (i - j) * n (n - 1) / 2 - n * i * j`;
in particular `C[0][0]` is 285 for `n = 10` and 2470 for `n = 20`. -/
theorem benchmark_matrix_matches_reference (st : MatrixRun) (hA : st.A.length = 400)
    (hB : st.B.length = 400) (hC : st.C.length = 400) :
    ∃ r1 r2, benchmark_matrix_multiplication st = [r1, r2] ∧
      MatrixReference 10 r1 ∧ MatrixReference 20 r2 ∧ rd r1.C 0 = 285 ∧ rd r2.C 0 = 2470 := by
  obtain ⟨m1, a1, b1, c1⟩ := benchmark_matrix_size_reference st 10 (by decide) hA hB hC
  obtain ⟨m2, -, -, -⟩ :=
    benchmark_matrix_size_reference (benchmark_matrix_size st 10) 20 (by decide) a1 b1 c1
  refine ⟨_, _, rfl, m1, m2, ?_, ?_⟩
  · have := (m1.2 0 0 (by decide) (by decide)).2.2.2
    simp only [Nat.zero_mul, Nat.add_zero] at this
    rw [this]
    norm_num
  · have := (m2.2 0 0 (by decide) (by decide)).2.2.2
    simp only [Nat.zero_mul, Nat.add_zero] at this
    rw [this]
    norm_num

/-- Witness for C9 from arrays that hold 7, 8 and 9 everywhere. -/
theorem benchmark_matrix_matches_reference_witness :
    ∃ r1 r2, benchmark_matrix_multiplication
        ⟨List.replicate 400 7, List.replicate 400 8, List.replicate 400 9, false⟩ = [r1, r2] ∧
      MatrixReference 10 r1 ∧ MatrixReference 20 r2 ∧ rd r1.C 0 = 285 ∧ rd r2.C 0 = 2470 :=
  benchmark_matrix_matches_reference
    ⟨List.replicate 400 7, List.replicate 400 8, List.replicate 400 9, false⟩
    (List.length_replicate _ _) (List.length_replicate _ _) (List.length_replicate _ _)

/-! ## C12: the loop-overhead kernel -/

theorem loop_counter_iterate (v : Int) (k : Nat) :
    (List.range k).foldl (fun s _ => wrap32 (s + 1)) v = (fun s => wrap32 (s + 1))^[k] v := by
  induction k with
  | zero => rfl
  | succ k ih =>
    rw [List.range_succ, List.foldl_append, ih, Function.iterate_succ_apply']
    rfl

theorem loop_counter_value (v : Int) (k : Nat) (h1 : -2147483648 ≤ v) (h2 : v < 2147483648) :
    (fun s => wrap32 (s + 1))^[k] v = wrap32 (v + (k : Int)) := by
  induction k with
  | zero => simp [wrap32_of_range v h1 h2]
  | succ k ih =>
    rw [Function.iterate_succ_apply', ih]
    simp only [wrap32]
    push_cast
    omega

/-- C12: for every initial `int` value `v` of the counter and every `iterations >= 0`,
`loop_counter(sink, iterations)` applies the increment `*sink += 1` exactly `iterations` times
and leaves `*sink = v + iterations` modulo `2 ^ 32`; for `iterations <= 0` the counter is
unchanged. -/
theorem loop_counter_increments (v iterations : Int) (h1 : -2147483648 ≤ v)
    (h2 : v < 2147483648) :
    (0 ≤ iterations →
      loop_counter v iterations = (fun s => wrap32 (s + 1))^[iterations.toNat] v ∧
      loop_counter v iterations = wrap32 (v + iterations)) ∧
    (iterations ≤ 0 → loop_counter v iterations = v) := by
  refine ⟨fun h => ⟨loop_counter_iterate v _, ?_⟩, fun h => ?_⟩
  · rw [loop_counter, loop_counter_iterate, loop_counter_value v _ h1 h2]
    congr 2
    omega
  · have : iterations.toNat = 0 := by omega
    rw [loop_counter, this]
    rfl

/-- Witness for C12: five increments from `2147483646` wrap around to `-2147483645`. -/
theorem loop_counter_increments_witness :
    (0 ≤ (5 : Int) →
      loop_counter 2147483646 5 = (fun s => wrap32 (s + 1))^[(5 : Int).toNat] 2147483646 ∧
      loop_counter 2147483646 5 = wrap32 (2147483646 + 5)) ∧
    ((5 : Int) ≤ 0 → loop_counter 2147483646 5 = 2147483646) ∧
    loop_counter 2147483646 5 = -2147483645 :=
  ⟨(loop_counter_increments 2147483646 5 (by decide) (by decide)).1,
    (loop_counter_increments 2147483646 5 (by decide) (by decide)).2, by decide⟩

/-! ## C15 and C16: the loop-overhead and Fibonacci measurement wrappers -/

theorem loop_counter_eq (v n : Int) (h1 : -2147483648 ≤ v) (h2 : v < 2147483648)
    (hn : 0 ≤ n) : loop_counter v n = wrap32 (v + n) := by
  rw [loop_counter, loop_counter_iterate, loop_counter_value v _ h1 h2]
  congr 2
  omega

/-- The whole effect of `benchmark_loop_overhead`, for any clock: the header, one record per
iteration count carrying that count and the elapsed time, eight clock readings, and the
single counter carried from one timed call to the next. -/
theorem benchmark_loop_overhead_run {τ : Type} (clk : Clock τ) (w : Console) :
    benchmark_loop_overhead clk w =
      { console :=
          { out := w.out ++
              [{ fmt := "task,method,iterations,time_us\n", args := [] },
               { fmt := "loop,for_loop,%d,%lld\n"
                 args := [1000, clk.diff_us (clk.now w.ticks) (clk.now (w.ticks + 1))] },
               { fmt := "loop,for_loop,%d,%lld\n"
                 args := [10000, clk.diff_us (clk.now (w.ticks + 2)) (clk.now (w.ticks + 3))] },
               { fmt := "loop,for_loop,%d,%lld\n"
                 args := [100000, clk.diff_us (clk.now (w.ticks + 4)) (clk.now (w.ticks + 5))] },
               { fmt := "loop,for_loop,%d,%lld\n"
                 args := [1000000,
                   clk.diff_us (clk.now (w.ticks + 6)) (clk.now (w.ticks + 7))] }]
            ticks := w.ticks + 8 }
        sink := 1111000
        starts := [0, 1000, 11000, 111000] } := by
  have l1 : loop_counter 0 1000 = 1000 := by
    rw [loop_counter_eq 0 1000 (by decide) (by decide) (by decide)]; decide
  have l2 : loop_counter 1000 10000 = 11000 := by
    rw [loop_counter_eq 1000 10000 (by decide) (by decide) (by decide)]; decide
  have l3 : loop_counter 11000 100000 = 111000 := by
    rw [loop_counter_eq 11000 100000 (by decide) (by decide) (by decide)]; decide
  have l4 : loop_counter 111000 1000000 = 1111000 := by
    rw [loop_counter_eq 111000 1000000 (by decide) (by decide) (by decide)]; decide
  simp only [benchmark_loop_overhead, List.foldl_cons, List.foldl_nil,
    benchmark_loop_overhead_step, get_absolute_time, printf, l1, l2, l3, l4,
    List.append_assoc, List.cons_append, List.nil_append, Nat.add_assoc]

/-- C15 fails on the code: with a clock that counts its own readings, the counter holds
1000, 11000 and 111000 (not 0) at the start of the second, third and fourth timed call. -/
theorem benchmark_loop_overhead_counter_is_shared :
    (benchmark_loop_overhead ⟨fun k => (k : Int), fun a b => b - a⟩ ⟨[], 0⟩).starts
      = [0, 1000, 11000, 111000] ∧
    (benchmark_loop_overhead ⟨fun k => (k : Int), fun a b => b - a⟩ ⟨[], 0⟩).starts
      ≠ [0, 0, 0, 0] := by
  rw [benchmark_loop_overhead_run]
  exact ⟨rfl, by decide⟩

/-- C15, amended: in `benchmark_loop_overhead` the counter is initialised to 0 once, before
the first measurement, and carried through the four timed `loop_counter` calls (1000, 10000,
100000, 1000000 iterations), at whose starts it holds 0, 1000, 11000 and 111000; each record
printed carries only the iteration count and the elapsed time between its own two clock
readings, so no record depends on what an earlier measurement left in the counter. -/
theorem benchmark_loop_overhead_counter_carried {τ : Type} (clk : Clock τ) (w : Console) :
    (benchmark_loop_overhead clk w).starts = [0, 1000, 11000, 111000] ∧
    (benchmark_loop_overhead clk w).sink = 1111000 ∧
    (benchmark_loop_overhead clk w).console.out = w.out ++
      [{ fmt := "task,method,iterations,time_us\n", args := [] },
       { fmt := "loop,for_loop,%d,%lld\n"
         args := [1000, clk.diff_us (clk.now w.ticks) (clk.now (w.ticks + 1))] },
       { fmt := "loop,for_loop,%d,%lld\n"
         args := [10000, clk.diff_us (clk.now (w.ticks + 2)) (clk.now (w.ticks + 3))] },
       { fmt := "loop,for_loop,%d,%lld\n"
         args := [100000, clk.diff_us (clk.now (w.ticks + 4)) (clk.now (w.ticks + 5))] },
       { fmt := "loop,for_loop,%d,%lld\n"
         args := [1000000, clk.diff_us (clk.now (w.ticks + 6)) (clk.now (w.ticks + 7))] }] := by
  rw [benchmark_loop_overhead_run]
  exact ⟨rfl, rfl, rfl⟩

theorem fib_benchmark_values (fuel : Nat) (hf : 35 ≤ fuel) :
    fib_iterative fuel 10 = some 55 ∧ fib_recursive fuel 10 = some 55 ∧
    fib_iterative fuel 20 = some 6765 ∧ fib_recursive fuel 20 = some 6765 ∧
    fib_iterative fuel 30 = some 832040 ∧ fib_recursive fuel 30 = some 832040 ∧
    fib_iterative fuel 35 = some 9227465 ∧ fib_recursive fuel 35 = some 9227465 := by
  have i10 := fib_iterative_spec fuel 10 (by omega) (by decide)
  have r10 := fib_recursive_spec fuel 10 (by omega) (by omega)
  have i20 := fib_iterative_spec fuel 20 (by omega) (by decide)
  have r20 := fib_recursive_spec fuel 20 (by omega) (by omega)
  have i30 := fib_iterative_spec fuel 30 (by omega) (by decide)
  have r30 := fib_recursive_spec fuel 30 (by omega) (by omega)
  have i35 := fib_iterative_spec fuel 35 (by omega) (by decide)
  have r35 := fib_recursive_spec fuel 35 (by omega) (by omega)
  have v10 : wrap32 (fibSpec 10) = 55 := by decide
  have v20 : wrap32 (fibSpec 20) = 6765 := by decide
  have v30 : wrap32 (fibSpec 30) = 832040 := by decide
  have v35 : wrap32 (fibSpec 35) = 9227465 := by decide
  rw [v10] at i10 r10
  rw [v20] at i20 r20
  rw [v30] at i30 r30
  rw [v35] at i35 r35
  exact ⟨i10, r10, i20, r20, i30, r30, i35, r35⟩

/-- The whole effect of `benchmark_fibonacci`, for any clock. -/
theorem benchmark_fibonacci_run {τ : Type} (clk : Clock τ) (fuel : Nat) (w : Console)
    (hf : 35 ≤ fuel) :
    benchmark_fibonacci clk fuel w = some
      { out := w.out ++
          [{ fmt := "task,method,n,result,time_us\n", args := [] },
           { fmt := "fibonacci,iterative,%d,%d,%lld\n"
             args := [10, 55, clk.diff_us (clk.now w.ticks) (clk.now (w.ticks + 1))] },
           { fmt := "fibonacci,recursive,%d,%d,%lld\n"
             args := [10, 55, clk.diff_us (clk.now (w.ticks + 2)) (clk.now (w.ticks + 3))] },
           { fmt := "fibonacci,iterative,%d,%d,%lld\n"
             args := [20, 6765, clk.diff_us (clk.now (w.ticks + 4)) (clk.now (w.ticks + 5))] },
           { fmt := "fibonacci,recursive,%d,%d,%lld\n"
             args := [20, 6765, clk.diff_us (clk.now (w.ticks + 6)) (clk.now (w.ticks + 7))] },
           { fmt := "fibonacci,iterative,%d,%d,%lld\n"
             args := [30, 832040,
               clk.diff_us (clk.now (w.ticks + 8)) (clk.now (w.ticks + 9))] },
           { fmt := "fibonacci,recursive,%d,%d,%lld\n"
             args := [30, 832040,
               clk.diff_us (clk.now (w.ticks + 10)) (clk.now (w.ticks + 11))] },
           { fmt := "fibonacci,iterative,%d,%d,%lld\n"
             args := [35, 9227465,
               clk.diff_us (clk.now (w.ticks + 12)) (clk.now (w.ticks + 13))] },
           { fmt := "fibonacci,recursive,%d,%d,%lld\n"
             args := [35, 9227465,
               clk.diff_us (clk.now (w.ticks + 14)) (clk.now (w.ticks + 15))] }]
        ticks := w.ticks + 16 } := by
  obtain ⟨i10, r10, i20, r20, i30, r30, i35, r35⟩ := fib_benchmark_values fuel hf
  simp only [benchmark_fibonacci, List.foldlM_cons, List.foldlM_nil, benchmark_fibonacci_step,
    get_absolute_time, printf, i10, r10, i20, r20, i30, r30, i35, r35, Option.some_bind,
    Option.bind_eq_bind, Option.pure_def, List.append_assoc, List.cons_append,
    List.nil_append, Nat.add_assoc]

/-- C16: whatever the clock returns, `benchmark_fibonacci` (with fuel for the kernels, 35 is
enough) returns after printing the header `task,method,n,result,time_us` first and then, for
`n = 10, 20, 30, 35` in that order, one iterative record followed by one recursive record,
each with its fields in the order task, method, `n`, result, elapsed time; both records of a
given `n` carry the same result: 55, 6765, 832040 and 9227465. -/
theorem benchmark_fibonacci_output {τ : Type} (clk : Clock τ) (fuel : Nat) (w : Console)
    (hf : 35 ≤ fuel) :
    ∃ w1, benchmark_fibonacci clk fuel w = some w1 ∧
      w1.out = w.out ++
        [{ fmt := "task,method,n,result,time_us\n", args := [] },
         { fmt := "fibonacci,iterative,%d,%d,%lld\n"
           args := [10, 55, clk.diff_us (clk.now w.ticks) (clk.now (w.ticks + 1))] },
         { fmt := "fibonacci,recursive,%d,%d,%lld\n"
           args := [10, 55, clk.diff_us (clk.now (w.ticks + 2)) (clk.now (w.ticks + 3))] },
         { fmt := "fibonacci,iterative,%d,%d,%lld\n"
           args := [20, 6765, clk.diff_us (clk.now (w.ticks + 4)) (clk.now (w.ticks + 5))] },
         { fmt := "fibonacci,recursive,%d,%d,%lld\n"
           args := [20, 6765, clk.diff_us (clk.now (w.ticks + 6)) (clk.now (w.ticks + 7))] },
         { fmt := "fibonacci,iterative,%d,%d,%lld\n"
           args := [30, 832040, clk.diff_us (clk.now (w.ticks + 8)) (clk.now (w.ticks + 9))] },
         { fmt := "fibonacci,recursive,%d,%d,%lld\n"
           args := [30, 832040,
             clk.diff_us (clk.now (w.ticks + 10)) (clk.now (w.ticks + 11))] },
         { fmt := "fibonacci,iterative,%d,%d,%lld\n"
           args := [35, 9227465,
             clk.diff_us (clk.now (w.ticks + 12)) (clk.now (w.ticks + 13))] },
         { fmt := "fibonacci,recursive,%d,%d,%lld\n"
           args := [35, 9227465,
             clk.diff_us (clk.now (w.ticks + 14)) (clk.now (w.ticks + 15))] }] :=
  ⟨_, benchmark_fibonacci_run clk fuel w hf, rfl⟩

/-- Witness for C16 with a clock whose `k`-th reading is `7 k` and fuel 35. -/
theorem benchmark_fibonacci_output_witness :
    ∃ w1, benchmark_fibonacci ⟨fun k => 7 * (k : Int), fun a b => b - a⟩ 35 ⟨[], 0⟩ = some w1 ∧
      w1.out = [] ++
        [{ fmt := "task,method,n,result,time_us\n", args := [] },
         { fmt := "fibonacci,iterative,%d,%d,%lld\n", args := [10, 55, 7 * ((0 + 1 : Nat) : Int) - 7 * ((0 : Nat) : Int)] },
         { fmt := "fibonacci,recursive,%d,%d,%lld\n", args := [10, 55, 7 * ((0 + 3 : Nat) : Int) - 7 * ((0 + 2 : Nat) : Int)] },
         { fmt := "fibonacci,iterative,%d,%d,%lld\n", args := [20, 6765, 7 * ((0 + 5 : Nat) : Int) - 7 * ((0 + 4 : Nat) : Int)] },
         { fmt := "fibonacci,recursive,%d,%d,%lld\n", args := [20, 6765, 7 * ((0 + 7 : Nat) : Int) - 7 * ((0 + 6 : Nat) : Int)] },
         { fmt := "fibonacci,iterative,%d,%d,%lld\n", args := [30, 832040, 7 * ((0 + 9 : Nat) : Int) - 7 * ((0 + 8 : Nat) : Int)] },
         { fmt := "fibonacci,recursive,%d,%d,%lld\n", args := [30, 832040, 7 * ((0 + 11 : Nat) : Int) - 7 * ((0 + 10 : Nat) : Int)] },
         { fmt := "fibonacci,iterative,%d,%d,%lld\n", args := [35, 9227465, 7 * ((0 + 13 : Nat) : Int) - 7 * ((0 + 12 : Nat) : Int)] },
         { fmt := "fibonacci,recursive,%d,%d,%lld\n", args := [35, 9227465, 7 * ((0 + 15 : Nat) : Int) - 7 * ((0 + 14 : Nat) : Int)] }] :=
  benchmark_fibonacci_output ⟨fun k => 7 * (k : Int), fun a b => b - a⟩ 35 ⟨[], 0⟩ (by decide)

/-! ## Index logs of the sorting kernels -/

/-- The log of a left fold whose every step appends a list that depends on the element only. -/
theorem foldl_log_eq {β : Type} (f : IntArray → β → IntArray) (g : β → List Int)
    (h : ∀ st x, (f st x).log = st.log ++ g x) (l : List β) (st : IntArray) :
    (l.foldl f st).log = st.log ++ l.flatMap g := by
  induction l generalizing st with
  | nil => simp
  | cons x l ih =>
    rw [List.foldl_cons, ih, h]
    simp [List.append_assoc]

theorem bubble_sort_inner_log (st : IntArray) (j : Nat) :
    (bubble_sort_inner st j).log = st.log ++ [(j : Int), (j : Int) + 1] := rfl

theorem bubble_pass_log (st : IntArray) (J : Nat) :
    ((List.range J).foldl bubble_sort_inner st).log
      = st.log ++ (List.range J).flatMap fun (j : Nat) => [(j : Int), (j : Int) + 1] :=
  foldl_log_eq bubble_sort_inner _ bubble_sort_inner_log _ st

/-- The comparisons of `bubble_sort` do not depend on the data: pass `i` touches the pairs
`(j, j + 1)` for `j < n - i - 1`, in order. -/
theorem bubble_sort_log (st : IntArray) (n : Nat) :
    (bubble_sort st n).log = st.log ++
      (List.range (n - 1)).flatMap fun (i : Nat) =>
        (List.range (n - i - 1)).flatMap fun (j : Nat) => [(j : Int), (j : Int) + 1] :=
  foldl_log_eq (fun st i => (List.range (n - i - 1)).foldl bubble_sort_inner st) _
    (fun st i => bubble_pass_log st (n - i - 1)) _ st

theorem bubble_sort_log_bound (st : IntArray) (n : Nat) (y : Int)
    (hy : y ∈ (bubble_sort st n).log) : y ∈ st.log ∨ (0 ≤ y ∧ y < n) := by
  rw [bubble_sort_log] at hy
  simp only [List.mem_append, List.mem_flatMap, List.mem_range, List.mem_cons, List.mem_singleton,
    List.not_mem_nil, or_false] at hy
  rcases hy with h | ⟨i, hi, j, hj, h | h⟩
  · exact Or.inl h
  · right; omega
  · right; omega

theorem benchmark_sort_populate_log (st : IntArray) (n : Nat) :
    (benchmark_sort_populate st n).log = st.log ++ (List.range n).flatMap fun (i : Nat) => [(i : Int)] :=
  foldl_log_eq _ _ (fun _ _ => rfl) _ st

theorem benchmark_sort_populate_log_bound (st : IntArray) (n : Nat) (y : Int)
    (hy : y ∈ (benchmark_sort_populate st n).log) : y ∈ st.log ∨ (0 ≤ y ∧ y < n) := by
  rw [benchmark_sort_populate_log] at hy
  simp only [List.mem_append, List.mem_flatMap, List.mem_range, List.mem_singleton] at hy
  rcases hy with h | ⟨i, hi, h⟩
  · exact Or.inl h
  · right; omega

theorem partition_step_shape (pivot low high : Int) (d : Nat) (s : Int × IntArray)
    (log0 : List Int) (hd : low + d < high)
    (h1 : low - 1 ≤ s.1) (h2 : s.1 < low + d)
    (h3 : ∀ y ∈ s.2.log, y ∈ log0 ∨ (low ≤ y ∧ y ≤ high)) :
    low - 1 ≤ (partition_step pivot s (low + d)).1 ∧
    (partition_step pivot s (low + d)).1 < low + ((d + 1 : Nat) : Int) ∧
    ∀ y ∈ (partition_step pivot s (low + d)).2.log, y ∈ log0 ∨ (low ≤ y ∧ y ≤ high) := by
  by_cases c : rd s.2.arr (low + (d : Int)).toNat < pivot
  · simp only [partition_step, if_pos c]
    refine ⟨by omega, by push_cast; omega, ?_⟩
    intro y hy
    simp only [List.mem_append, List.mem_cons, List.mem_singleton, List.not_mem_nil,
      or_false] at hy
    rcases hy with h | h | h | h
    · exact h3 y h
    · right; omega
    · right; omega
    · right; omega
  · simp only [partition_step, if_neg c]
    refine ⟨h1, by push_cast; omega, ?_⟩
    intro y hy
    simp only [List.mem_append, List.mem_singleton] at hy
    rcases hy with h | h
    · exact h3 y h
    · right; omega

theorem partition_loop_shape (pivot low high : Int) (s0 : IntArray) (log0 : List Int)
    (h0 : ∀ y ∈ s0.log, y ∈ log0 ∨ (low ≤ y ∧ y ≤ high)) (d : Nat) (hd : low + d ≤ high) :
    low - 1 ≤ (((List.range d).map fun (k : Nat) => low + (k : Int)).foldl
      (partition_step pivot) (low - 1, s0)).1 ∧
    (((List.range d).map fun (k : Nat) => low + (k : Int)).foldl
      (partition_step pivot) (low - 1, s0)).1 < low + (d : Int) ∧
    ∀ y ∈ (((List.range d).map fun (k : Nat) => low + (k : Int)).foldl
      (partition_step pivot) (low - 1, s0)).2.log, y ∈ log0 ∨ (low ≤ y ∧ y ≤ high) := by
  induction d with
  | zero =>
    simp only [List.range_zero, List.map_nil, List.foldl_nil]
    exact ⟨le_refl _, by simp, h0⟩
  | succ d ih =>
    have hd' : low + (d : Int) < high := by push_cast at hd; omega
    obtain ⟨h1, h2, h3⟩ := ih (by omega)
    rw [List.range_succ, List.map_append, List.foldl_append]
    simp only [List.map_cons, List.map_nil, List.foldl_cons, List.foldl_nil]
    exact partition_step_shape pivot low high d _ log0 hd' h1 h2 h3

/-- Whatever the data, `partition(arr, low, high)` with `low <= high` returns an index of
`[low, high]` and touches only indices of `[low, high]`. -/
theorem partition_shape (st : IntArray) (low high : Int) (hlh : low ≤ high) :
    low ≤ (partition st low high).1 ∧ (partition st low high).1 ≤ high ∧
    ∀ y ∈ (partition st low high).2.log, y ∈ st.log ∨ (low ≤ y ∧ y ≤ high) := by
  have hd : low + (((high - low).toNat : Nat) : Int) = high := by omega
  obtain ⟨h1, h2, h3⟩ := partition_loop_shape (rd st.arr high.toNat) low high
    { arr := st.arr, log := st.log ++ [high] } st.log
    (by
      intro y hy
      simp only [List.mem_append, List.mem_singleton] at hy
      rcases hy with h | h
      · exact Or.inl h
      · right; omega)
    (high - low).toNat (by omega)
  rw [hd] at h2
  simp only [partition]
  refine ⟨by omega, by omega, ?_⟩
  intro y hy
  simp only [List.mem_append, List.mem_cons, List.mem_singleton, List.not_mem_nil,
    or_false] at hy
  rcases hy with h | h | h
  · exact h3 y h
  · right; omega
  · right; omega

/-- Whatever the data, `quick_sort(arr, low, high)` returns once the fuel covers the length of
the range, and touches only indices of `[low, high]`. -/
theorem quick_sort_shape : ∀ (fuel : Nat) (st : IntArray) (low high : Int),
    1 ≤ fuel → high - low + 1 ≤ fuel →
    ∃ out, quick_sort fuel st low high = some out ∧
      ∀ y ∈ out.log, y ∈ st.log ∨ (low ≤ y ∧ y ≤ high) := by
  intro fuel
  induction fuel with
  | zero => intro st low high h; omega
  | succ fuel ih =>
    intro st low high _ hsz
    by_cases c : low < high
    · obtain ⟨p1, p2, p3⟩ := partition_shape st low high (le_of_lt c)
      generalize hr : partition st low high = r at p1 p2 p3
      obtain ⟨st1, hq1, l1⟩ := ih r.2 low (r.1 - 1) (by omega) (by omega)
      obtain ⟨out, hq2, l2⟩ := ih st1 (r.1 + 1) high (by omega) (by omega)
      refine ⟨out, ?_, ?_⟩
      · rw [quick_sort, if_pos c]
        simp only [hr, hq1, Option.some_bind, hq2]
      · intro y hy
        rcases l2 y hy with h | h
        · rcases l1 y h with h' | h'
          · rcases p3 y h' with h'' | h''
            · exact Or.inl h''
            · exact Or.inr h''
          · right; omega
        · right; omega
    · exact ⟨st, by rw [quick_sort, if_neg c], fun y hy => Or.inl hy⟩

/-! ## C11: the sort kernels stay inside the buffer -/

theorem benchmark_bubble_sort_step_log {τ : Type} (clk : Clock τ) (st : SortRun) (n : Nat)
    (hn : n ≤ 100) (h : ∀ y ∈ st.test.log, 0 ≤ y ∧ y < 100) :
    ∀ y ∈ (benchmark_bubble_sort_step clk st n).test.log, 0 ≤ y ∧ y < 100 := by
  intro y hy
  simp only [benchmark_bubble_sort_step] at hy
  rcases bubble_sort_log_bound _ n y hy with h1 | h1
  · rcases benchmark_sort_populate_log_bound _ n y h1 with h2 | h2
    · exact h y h2
    · omega
  · omega

theorem benchmark_quick_sort_step_log {τ : Type} (clk : Clock τ) (fuel : Nat) (st : SortRun)
    (n : Nat) (hn : n ≤ 100) (hf : 100 < fuel) (h : ∀ y ∈ st.test.log, 0 ≤ y ∧ y < 100) :
    ∃ r, benchmark_quick_sort_step clk fuel st n = some r ∧
      (∀ y ∈ r.test.log, 0 ≤ y ∧ y < 100) ∧
      r.console = printf (get_absolute_time clk (get_absolute_time clk st.console).2).2
        "quicksort,quick,%d,%lld\n"
        [(n : Int), clk.diff_us (get_absolute_time clk st.console).1
          (get_absolute_time clk (get_absolute_time clk st.console).2).1] := by
  obtain ⟨out, hq, hlog⟩ := quick_sort_shape fuel (benchmark_sort_populate st.test n) 0
    ((n : Int) - 1) (by omega) (by omega)
  refine ⟨⟨_, out⟩, by simp only [benchmark_quick_sort_step, hq, Option.some_bind]; rfl, ?_, rfl⟩
  intro y hy
  rcases hlog y hy with h1 | h1
  · rcases benchmark_sort_populate_log_bound _ n y h1 with h2 | h2
    · exact h y h2
    · omega
  · omega

/-- C11: in a buffer `test` of 100 elements, for every `n` with `0 <= n <= 100`,
`bubble_sort(test, n)` reads and writes only indices of `[0, n)`, and
`quick_sort(test, 0, n - 1)` with its `partition` calls returns (fuel above `n`) having read
and written only indices of `[0, n)`; the configured sizes 10, 50, 100 are all `<= 100`, so
every index that `benchmark_bubble_sort` and `benchmark_quick_sort` touch, population loops
included, lies inside the 100-element buffer. -/
theorem sort_kernels_index_safe {τ : Type} (clk : Clock τ) (test : List Int)
    (htest : test.length = 100) :
    (∀ n, n ≤ 100 → ∀ y ∈ (bubble_sort ⟨test, []⟩ n).log,
      0 ≤ y ∧ y < n ∧ y < test.length) ∧
    (∀ n fuel, n ≤ 100 → n < fuel →
      ∃ out, quick_sort fuel ⟨test, []⟩ 0 ((n : Int) - 1) = some out ∧
        ∀ y ∈ out.log, 0 ≤ y ∧ y < n ∧ y < test.length) ∧
    (∀ n ∈ [10, 50, 100], n ≤ test.length) ∧
    (∀ w, ∀ y ∈ (benchmark_bubble_sort clk test w).test.log, 0 ≤ y ∧ y < test.length) ∧
    (∀ w fuel, 100 < fuel →
      ∃ r, benchmark_quick_sort clk fuel test w = some r ∧
        ∀ y ∈ r.test.log, 0 ≤ y ∧ y < test.length) := by
  rw [htest]
  refine ⟨?_, ?_, by decide, ?_, ?_⟩
  · intro n hn y hy
    rcases bubble_sort_log_bound _ n y hy with h | h
    · simp at h
    · omega
  · intro n fuel hn hf
    obtain ⟨out, hq, hlog⟩ := quick_sort_shape fuel ⟨test, []⟩ 0 ((n : Int) - 1) (by omega)
      (by omega)
    refine ⟨out, hq, ?_⟩
    intro y hy
    rcases hlog y hy with h | h
    · simp at h
    · omega
  · intro w
    simp only [benchmark_bubble_sort, List.foldl_cons, List.foldl_nil]
    apply benchmark_bubble_sort_step_log clk _ 100 (by decide)
    apply benchmark_bubble_sort_step_log clk _ 50 (by decide)
    apply benchmark_bubble_sort_step_log clk _ 10 (by decide)
    intro y hy
    simp at hy
  · intro w fuel hf
    obtain ⟨r1, e1, l1, -⟩ := benchmark_quick_sort_step_log clk fuel
      { console := printf w "task,method,size,time_us\n" [], test := { arr := test, log := [] } }
      10 (by decide) hf (by intro y hy; simp at hy)
    obtain ⟨r2, e2, l2, -⟩ := benchmark_quick_sort_step_log clk fuel r1 50 (by decide) hf l1
    obtain ⟨r3, e3, l3, -⟩ := benchmark_quick_sort_step_log clk fuel r2 100 (by decide) hf l2
    refine ⟨r3, ?_, l3⟩
    simp only [benchmark_quick_sort, List.foldlM_cons, List.foldlM_nil, e1, e2, e3,
      Option.bind_eq_bind, Option.some_bind, Option.pure_def]

/-- Witness for C11 with a buffer of 100 zeros. -/
theorem sort_kernels_index_safe_witness :
    (List.replicate 100 (0 : Int)).length = 100 ∧
    ∀ y ∈ (bubble_sort ⟨List.replicate 100 0, []⟩ 10).log,
      0 ≤ y ∧ y < (10 : Nat) ∧ y < (List.replicate 100 (0 : Int)).length :=
  ⟨List.length_replicate _ _,
    (sort_kernels_index_safe (⟨fun k => (k : Int), fun a b => b - a⟩ : Clock Int)
      (List.replicate 100 0) (List.length_replicate _ _)).1 10 (by decide)⟩

/-! ## C20: the passes of `bubble_sort` -/

theorem bubble_sort_passes_succ (st : IntArray) (n k : Nat) :
    bubble_sort_passes st n (k + 1)
      = (List.range (n - k - 1)).foldl bubble_sort_inner (bubble_sort_passes st n k) := by
  simp only [bubble_sort_passes, List.range_succ, List.foldl_append, List.foldl_cons,
    List.foldl_nil]

theorem bubble_sort_passes_top (st : IntArray) (n k : Nat) (hn : n ≤ st.arr.length)
    (hk : k ≤ n - 1) :
    (bubble_sort_passes st n k).arr.length = st.arr.length ∧
    ∀ x y, x < y → n - k ≤ y → y < n →
      rd (bubble_sort_passes st n k).arr x ≤ rd (bubble_sort_passes st n k).arr y := by
  obtain ⟨h1, -, h3, -⟩ := bubble_outer_spec st n hn k hk
  exact ⟨h1, h3⟩

theorem bubble_sort_passes_frame (st : IntArray) (n i : Nat) (hn : n ≤ st.arr.length)
    (k : Nat) (hik : i ≤ k) (hk : k ≤ n - 1) (x : Nat) (hx : n - i ≤ x) :
    rd (bubble_sort_passes st n k).arr x = rd (bubble_sort_passes st n i).arr x := by
  induction k with
  | zero =>
    have : i = 0 := by omega
    rw [this]
  | succ k ih =>
    by_cases e : i = k + 1
    · rw [e]
    · obtain ⟨t1, t2⟩ := bubble_sort_passes_top st n k hn (by omega)
      obtain ⟨-, -, -, -, p5⟩ := bubble_pass_spec (bubble_sort_passes st n k) n (n - k - 1)
        (by omega) (by omega) (fun x y hxy hy1 hy2 => t2 x y hxy (by omega) hy2)
        (n - k - 1) (le_refl _)
      rw [bubble_sort_passes_succ, p5 x (by omega)]
      exact ih (by omega) (by omega)

/-- C20: for `n >= 1` (and `n` cells in the array), `bubble_sort` is its `n - 1` outer passes,
and whatever the data pass `i` (`i = 0 .. n - 2`) compares exactly the adjacent pairs
`(j, j + 1)` for `0 <= j < n - i - 1`, in that order; after pass `i` the last `i + 1`
positions hold, in non-decreasing order, elements that are at least as large as every element
before them (the `i + 1` largest), and no later pass modifies them, so the unsorted region
shrinks by one element per pass. -/
theorem bubble_sort_pass_structure (arr : List Int) (n : Nat) (hn1 : 1 ≤ n)
    (hn : n ≤ arr.length) :
    bubble_sort ⟨arr, []⟩ n = bubble_sort_passes ⟨arr, []⟩ n (n - 1) ∧
    (List.range (n - 1)).length + 1 = n ∧
    (bubble_sort ⟨arr, []⟩ n).log =
      ((List.range (n - 1)).flatMap fun (i : Nat) =>
        (List.range (n - i - 1)).flatMap fun (j : Nat) => [(j : Int), (j : Int) + 1]) ∧
    ∀ i, i < n - 1 →
      (bubble_sort_passes ⟨arr, []⟩ n (i + 1)).log =
        (bubble_sort_passes ⟨arr, []⟩ n i).log ++
          ((List.range (n - i - 1)).flatMap fun (j : Nat) => [(j : Int), (j : Int) + 1]) ∧
      (∀ x y, x < y → n - (i + 1) ≤ y → y < n →
        rd (bubble_sort_passes ⟨arr, []⟩ n (i + 1)).arr x
          ≤ rd (bubble_sort_passes ⟨arr, []⟩ n (i + 1)).arr y) ∧
      ∀ k, i + 1 ≤ k → k ≤ n - 1 → ∀ x, n - (i + 1) ≤ x →
        rd (bubble_sort_passes ⟨arr, []⟩ n k).arr x
          = rd (bubble_sort_passes ⟨arr, []⟩ n (i + 1)).arr x := by
  refine ⟨rfl, by rw [List.length_range]; omega, ?_, ?_⟩
  · rw [bubble_sort_log]
    rfl
  · intro i hi
    refine ⟨?_, (bubble_sort_passes_top ⟨arr, []⟩ n (i + 1) hn (by omega)).2, ?_⟩
    · rw [bubble_sort_passes_succ, bubble_pass_log]
    · intro k hk1 hk2 x hx
      exact bubble_sort_passes_frame ⟨arr, []⟩ n (i + 1) hn k hk1 hk2 x hx

/-- Witness for C20 on an array of four elements. -/
theorem bubble_sort_pass_structure_witness :
    (bubble_sort ⟨[4, 2, 3, 1], []⟩ 4).log
      = [0, 1, 1, 2, 2, 3, 0, 1, 1, 2, 0, 1] ∧
    (bubble_sort_passes ⟨[4, 2, 3, 1], []⟩ 4 1).arr = [2, 3, 1, 4] ∧
    (bubble_sort_passes ⟨[4, 2, 3, 1], []⟩ 4 2).arr = [2, 1, 3, 4] ∧
    (bubble_sort_passes ⟨[4, 2, 3, 1], []⟩ 4 3).arr = [1, 2, 3, 4] ∧
    ∀ k, 0 + 1 ≤ k → k ≤ 4 - 1 → ∀ x, 4 - (0 + 1) ≤ x →
      rd (bubble_sort_passes ⟨[4, 2, 3, 1], []⟩ 4 k).arr x
        = rd (bubble_sort_passes ⟨[4, 2, 3, 1], []⟩ 4 (0 + 1)).arr x :=
  ⟨by decide, by decide, by decide, by decide,
    ((bubble_sort_pass_structure [4, 2, 3, 1] 4 (by decide) (by decide)).2.2.2 0
      (by decide)).2.2⟩

/-! ## C18: the contract of `partition` -/

theorem take_eq_of_rd (a b : List Int) (n : Nat) (hl : a.length = b.length)
    (h : ∀ x, x < n → rd a x = rd b x) : a.take n = b.take n := by
  apply List.ext_getElem (by simp [hl])
  intro i h1 h2
  rw [List.length_take] at h1 h2
  rw [List.getElem_take, List.getElem_take, ← rd_eq_getElem a _ (by omega),
    ← rd_eq_getElem b _ (by omega)]
  exact h _ (by omega)

/-- A permutation of an array that leaves every cell outside `[l, l + m)` alone permutes the
segment `[l, l + m)`. -/
theorem segment_perm_of_frame (a b : List Int) (l m : Nat) (hl : a.length = b.length)
    (hp : a.Perm b) (hf : ∀ x, (x < l ∨ l + m ≤ x) → rd a x = rd b x) :
    ((a.drop l).take m).Perm ((b.drop l).take m) := by
  have ha : a = a.take l ++ ((a.drop l).take m ++ a.drop (l + m)) := by
    rw [← List.drop_drop, List.take_append_drop, List.take_append_drop]
  have hb : b = b.take l ++ ((b.drop l).take m ++ b.drop (l + m)) := by
    rw [← List.drop_drop, List.take_append_drop, List.take_append_drop]
  have e1 : a.take l = b.take l := take_eq_of_rd a b l hl (fun x hx => hf x (Or.inl hx))
  have e2 : a.drop (l + m) = b.drop (l + m) :=
    drop_eq_of_rd a b (l + m) hl (fun x hx => hf x (Or.inr hx))
  rw [ha, hb, e1, e2] at hp
  exact (List.perm_append_right_iff _).mp ((List.perm_append_left_iff _).mp hp)

/-- C18: for every array `arr` and indices `0 <= low <= high < length`,
`partition(arr, low, high)` returns an index `p` with `low <= p <= high` such that afterwards
`arr[p]` is the pivot (the old `arr[high]`), every element of `[low, p)` is less than the
pivot, every element of `(p, high]` is greater than or equal to it, the segment `[low, high]`
is a permutation of its old contents, and every element outside `[low, high]` is unchanged. -/
theorem partition_contract (arr : List Int) (log : List Int) (low high : Int) (h0 : 0 ≤ low)
    (hlh : low ≤ high) (hh : high < arr.length) :
    low ≤ (partition ⟨arr, log⟩ low high).1 ∧ (partition ⟨arr, log⟩ low high).1 ≤ high ∧
    (partition ⟨arr, log⟩ low high).2.arr.length = arr.length ∧
    rd (partition ⟨arr, log⟩ low high).2.arr (partition ⟨arr, log⟩ low high).1.toNat
      = rd arr high.toNat ∧
    (∀ x : Nat, low ≤ x → (x : Int) < (partition ⟨arr, log⟩ low high).1 →
      rd (partition ⟨arr, log⟩ low high).2.arr x < rd arr high.toNat) ∧
    (∀ x : Nat, (partition ⟨arr, log⟩ low high).1 < x → (x : Int) ≤ high →
      rd arr high.toNat ≤ rd (partition ⟨arr, log⟩ low high).2.arr x) ∧
    (((partition ⟨arr, log⟩ low high).2.arr.drop low.toNat).take (high - low + 1).toNat).Perm
      ((arr.drop low.toNat).take (high - low + 1).toNat) ∧
    ∀ x : Nat, ((x : Int) < low ∨ high < x) →
      rd (partition ⟨arr, log⟩ low high).2.arr x = rd arr x := by
  obtain ⟨p1, p2, p3, p4, p5, p6, p7, p8, -⟩ := partition_spec ⟨arr, log⟩ low high h0 hlh hh
  refine ⟨p3, p4, p1, p5 _ (by omega), p6, p7, ?_, p8⟩
  exact segment_perm_of_frame _ _ low.toNat (high - low + 1).toNat p1 p2
    (fun x hx => p8 x (by omega))

/-- Witness for C18 on the segment `[1, 4]` of an array of six elements. -/
theorem partition_contract_witness :
    (partition ⟨[9, 5, 1, 7, 3, 0], []⟩ 1 4).1 = 2 ∧
    (partition ⟨[9, 5, 1, 7, 3, 0], []⟩ 1 4).2.arr = [9, 1, 3, 7, 5, 0] ∧
    (((partition ⟨[9, 5, 1, 7, 3, 0], []⟩ 1 4).2.arr.drop (1 : Int).toNat).take
        ((4 : Int) - 1 + 1).toNat).Perm
      ((([9, 5, 1, 7, 3, 0] : List Int).drop (1 : Int).toNat).take ((4 : Int) - 1 + 1).toNat) :=
  ⟨by decide, by decide,
    (partition_contract [9, 5, 1, 7, 3, 0] [] 1 4 (by decide) (by decide) (by decide)).2.2.2.2.2.2.1⟩

/-! ## C19: the worst case of `quick_sort` -/

theorem self_swap (a : List Int) (j : Nat) (hj : j < a.length) :
    wr (wr a j (rd a j)) j (rd a j) = a := by
  apply ext_rd _ _ (swap_length _ _ _ _ _)
  intro i _
  rw [swap_rd _ _ _ _ hj hj]
  by_cases e : i = j
  · rw [if_pos e, e]
  · rw [if_neg e, if_neg e]

/-- When no element of `[low, high)` is below the pivot, the loop of `partition` moves
nothing and leaves `i = low - 1`. -/
theorem partition_loop_min (a : List Int) (log : List Int) (pivot low : Int) (d : Nat)
    (h0 : 0 ≤ low) (hmin : ∀ x : Nat, low ≤ x → (x : Int) < low + d → ¬ rd a x < pivot) :
    (((List.range d).map fun (k : Nat) => low + (k : Int)).foldl
      (partition_step pivot) (low - 1, { arr := a, log := log })).1 = low - 1 ∧
    (((List.range d).map fun (k : Nat) => low + (k : Int)).foldl
      (partition_step pivot) (low - 1, { arr := a, log := log })).2.arr = a := by
  induction d with
  | zero => exact ⟨rfl, rfl⟩
  | succ d ih =>
    obtain ⟨h1, h2⟩ := ih (fun x hx1 hx2 => hmin x hx1 (by push_cast; omega))
    rw [List.range_succ, List.map_append, List.foldl_append]
    simp only [List.map_cons, List.map_nil, List.foldl_cons, List.foldl_nil]
    generalize ((List.range d).map fun (k : Nat) => low + (k : Int)).foldl
      (partition_step pivot) (low - 1, { arr := a, log := log }) = s at h1 h2 ⊢
    have c : ¬ rd s.2.arr (low + (d : Int)).toNat < pivot := by
      rw [h2]
      exact hmin (low + (d : Int)).toNat (by omega) (by push_cast; omega)
    simp only [partition_step, if_neg c]
    exact ⟨h1, h2⟩

/-- When every element of `[low, high)` is below the pivot, each iteration of the loop of
`partition` exchanges a cell with itself, and `i` ends at `high - 1`. -/
theorem partition_loop_max (a : List Int) (log : List Int) (pivot low : Int) (d : Nat)
    (h0 : 0 ≤ low) (hlen : low + d ≤ a.length)
    (hmax : ∀ x : Nat, low ≤ x → (x : Int) < low + d → rd a x < pivot) :
    (((List.range d).map fun (k : Nat) => low + (k : Int)).foldl
      (partition_step pivot) (low - 1, { arr := a, log := log })).1 = low + (d : Int) - 1 ∧
    (((List.range d).map fun (k : Nat) => low + (k : Int)).foldl
      (partition_step pivot) (low - 1, { arr := a, log := log })).2.arr = a := by
  induction d with
  | zero => exact ⟨by simp, rfl⟩
  | succ d ih =>
    obtain ⟨h1, h2⟩ := ih (by push_cast at hlen; omega)
      (fun x hx1 hx2 => hmax x hx1 (by push_cast; omega))
    rw [List.range_succ, List.map_append, List.foldl_append]
    simp only [List.map_cons, List.map_nil, List.foldl_cons, List.foldl_nil]
    generalize ((List.range d).map fun (k : Nat) => low + (k : Int)).foldl
      (partition_step pivot) (low - 1, { arr := a, log := log }) = s at h1 h2 ⊢
    have c : rd s.2.arr (low + (d : Int)).toNat < pivot := by
      rw [h2]
      exact hmax (low + (d : Int)).toNat (by omega) (by push_cast; omega)
    have e : (s.1 + 1).toNat = (low + (d : Int)).toNat := by rw [h1]; congr 1; omega
    have hstep : partition_step pivot s (low + (d : Int)) =
        (s.1 + 1, { arr := wr (wr s.2.arr (s.1 + 1).toNat (rd s.2.arr (low + (d : Int)).toNat))
                      (low + (d : Int)).toNat (rd s.2.arr (s.1 + 1).toNat)
                    log := s.2.log ++ [low + (d : Int), s.1 + 1, low + (d : Int)] }) := by
      simp only [partition_step, if_pos c]
    rw [hstep]
    refine ⟨by show s.1 + 1 = _; rw [h1]; push_cast; omega, ?_⟩
    show wr (wr s.2.arr (s.1 + 1).toNat (rd s.2.arr (low + (d : Int)).toNat))
      (low + (d : Int)).toNat (rd s.2.arr (s.1 + 1).toNat) = a
    rw [e, h2]
    exact self_swap a _ (by push_cast at hlen; omega)

/-- On a segment whose last element is its minimum, `partition` returns `low` after
exchanging the two ends of the segment. -/
theorem partition_min (st : IntArray) (low high : Int) (h0 : 0 ≤ low) (hlh : low ≤ high)
    (hmin : ∀ x : Nat, low ≤ x → (x : Int) < high → ¬ rd st.arr x < rd st.arr high.toNat) :
    (partition st low high).1 = low ∧
    (partition st low high).2.arr
      = wr (wr st.arr low.toNat (rd st.arr high.toNat)) high.toNat (rd st.arr low.toNat) := by
  have hd : low + (((high - low).toNat : Nat) : Int) = high := by omega
  obtain ⟨h1, h2⟩ := partition_loop_min st.arr (st.log ++ [high]) (rd st.arr high.toNat) low
    (high - low).toNat h0 (fun x hx1 hx2 => hmin x hx1 (by omega))
  simp only [partition, h1, h2]
  have e : (low - 1 + 1).toNat = low.toNat := by congr 1; omega
  rw [e]
  exact ⟨by omega, rfl⟩

/-- On a segment whose last element is its strict maximum, `partition` returns `high` and
leaves the array as it was. -/
theorem partition_max (st : IntArray) (low high : Int) (h0 : 0 ≤ low) (hlh : low ≤ high)
    (hh : high < st.arr.length)
    (hmax : ∀ x : Nat, low ≤ x → (x : Int) < high → rd st.arr x < rd st.arr high.toNat) :
    (partition st low high).1 = high ∧ (partition st low high).2.arr = st.arr := by
  have hd : low + (((high - low).toNat : Nat) : Int) = high := by omega
  obtain ⟨h1, h2⟩ := partition_loop_max st.arr (st.log ++ [high]) (rd st.arr high.toNat) low
    (high - low).toNat h0 (by omega) (fun x hx1 hx2 => hmax x hx1 (by omega))
  simp only [partition, h1, h2]
  have e : (low + (((high - low).toNat : Nat) : Int) - 1 + 1).toNat = high.toNat := by
    congr 1; omega
  rw [e]
  exact ⟨by omega, self_swap st.arr _ (by omega)⟩

theorem quick_sort_of_not_lt (fuel : Nat) (st : IntArray) (low high : Int) (h : ¬ low < high) :
    quick_sort (fuel + 1) st low high = some st := by
  rw [quick_sort, if_neg h]

theorem quick_sort_calls_of_not_lt (fuel : Nat) (st : IntArray) (low high : Int)
    (h : ¬ low < high) : quick_sort_calls fuel st low high = [] := by
  cases fuel with
  | zero => rfl
  | succ f => rw [quick_sort_calls, if_neg h]

theorem quick_sort_of_lt (fuel : Nat) (st : IntArray) (low high : Int) (h : low < high) :
    quick_sort (fuel + 1) st low high =
      (quick_sort fuel (partition st low high).2 low ((partition st low high).1 - 1)).bind
        fun st1 => quick_sort fuel st1 ((partition st low high).1 + 1) high := by
  rw [quick_sort, if_pos h]

theorem quick_sort_calls_of_lt (fuel : Nat) (st : IntArray) (low high : Int) (h : low < high) :
    quick_sort_calls (fuel + 1) st low high =
      (st, low, high) ::
        (quick_sort_calls fuel (partition st low high).2 low ((partition st low high).1 - 1) ++
          match quick_sort fuel (partition st low high).2 low ((partition st low high).1 - 1) with
          | some st1 => quick_sort_calls fuel st1 ((partition st low high).1 + 1) high
          | none => []) := by
  rw [quick_sort_calls, if_pos h]

/-- The run of `quick_sort` on a worst-case segment of `m` elements: it needs exactly
`max 1 m` stack frames, makes `m - 1` calls of `partition`, each of which returns one of its
two bounds, and these calls compare `m (m - 1) / 2` elements with their pivots. -/
theorem quick_sort_worst (m : Nat) : ∀ (st : IntArray) (low high : Int), 0 ≤ low →
    high < st.arr.length → high - low + 1 = (m : Int) → WorstShape st.arr low high →
    (∀ fuel, max 1 m ≤ fuel →
      (∃ out, quick_sort fuel st low high = some out) ∧
      (quick_sort_calls fuel st low high).length = m - 1 ∧
      2 * ((quick_sort_calls fuel st low high).map fun c => (c.2.2 - c.2.1).toNat).sum
        = m * (m - 1) ∧
      ∀ c ∈ quick_sort_calls fuel st low high,
        (partition c.1 c.2.1 c.2.2).1 = c.2.1 ∨ (partition c.1 c.2.1 c.2.2).1 = c.2.2) ∧
    (∀ fuel, fuel < max 1 m → quick_sort fuel st low high = none) := by
  induction m with
  | zero =>
    intro st low high _ _ hm _
    have hlt : ¬ low < high := by omega
    refine ⟨?_, ?_⟩
    · intro fuel hf
      obtain ⟨f, rfl⟩ : ∃ f, fuel = f + 1 := ⟨fuel - 1, by simp at hf; omega⟩
      rw [quick_sort_of_not_lt f st low high hlt, quick_sort_calls_of_not_lt _ st low high hlt]
      exact ⟨⟨st, rfl⟩, rfl, rfl, fun c hc => by simp at hc⟩
    · intro fuel hf
      have : fuel = 0 := by simp at hf; omega
      rw [this]; rfl
  | succ m ih =>
    intro st low high h0 hh hm hshape
    by_cases hm0 : m = 0
    · subst hm0
      have hlt : ¬ low < high := by push_cast at hm; omega
      refine ⟨?_, ?_⟩
      · intro fuel hf
        obtain ⟨f, rfl⟩ : ∃ f, fuel = f + 1 := ⟨fuel - 1, by simp at hf; omega⟩
        rw [quick_sort_of_not_lt f st low high hlt,
          quick_sort_calls_of_not_lt _ st low high hlt]
        exact ⟨⟨st, rfl⟩, rfl, rfl, fun c hc => by simp at hc⟩
      · intro fuel hf
        have : fuel = 0 := by simp at hf; omega
        rw [this]; rfl
    · have hm1 : 1 ≤ m := by omega
      have hlt : low < high := by push_cast at hm; omega
      have hmax1 : max 1 (m + 1) = m + 1 := by omega
      have hmax2 : max 1 m = m := by omega
      have harith : 2 * m + m * (m - 1) = (m + 1) * (m + 1 - 1) := by
        obtain ⟨k, rfl⟩ : ∃ k, m = k + 1 := ⟨m - 1, by omega⟩
        simp only [Nat.add_sub_cancel]
        ring
      have hcmp : (high - low).toNat = m := by push_cast at hm; omega
      rw [hmax1]
      rcases hshape with ⟨c, hc⟩ | ⟨c, hc, hcmax⟩
      · -- the pivot is the minimum: `partition` returns `low`
        have hmin : ∀ x : Nat, low ≤ x → (x : Int) < high →
            ¬ rd st.arr x < rd st.arr high.toNat := by
          intro x hx1 hx2
          rw [hc x hx1 (by omega), hc high.toNat (by omega) (by omega)]
          omega
        obtain ⟨r1, r2⟩ := partition_min st low high h0 (le_of_lt hlt) hmin
        have hrlen : (partition st low high).2.arr.length = st.arr.length := by
          rw [r2]; exact swap_length _ _ _ _ _
        have hshapeR : WorstShape (partition st low high).2.arr (low + 1) high := by
          refine Or.inr ⟨c, ?_, ?_⟩
          · intro x hx1 hx2
            rw [r2, swap_rd _ _ _ _ (by omega) (by omega), if_neg (by omega), if_neg (by omega)]
            exact hc x (by omega) (by omega)
          · rw [r2, swap_rd _ _ _ _ (by omega) (by omega), if_pos rfl,
              hc low.toNat (by omega) (by omega)]
            omega
        obtain ⟨ihA, ihB⟩ := ih (partition st low high).2 (low + 1) high (by omega)
          (by rw [hrlen]; exact hh) (by push_cast at hm; omega) hshapeR
        rw [hmax2] at ihA ihB
        have hempty : ¬ low < low - 1 := by omega
        refine ⟨?_, ?_⟩
        · intro fuel hf
          obtain ⟨f, rfl⟩ : ∃ f, fuel = f + 1 := ⟨fuel - 1, by omega⟩
          obtain ⟨g, rfl⟩ : ∃ g, f = g + 1 := ⟨f - 1, by omega⟩
          obtain ⟨⟨out, hout⟩, a2, a3, a4⟩ := ihA (g + 1) (by omega)
          rw [quick_sort_of_lt _ st low high hlt, quick_sort_calls_of_lt _ st low high hlt, r1,
            quick_sort_of_not_lt g _ low (low - 1) hempty,
            quick_sort_calls_of_not_lt _ _ low (low - 1) hempty]
          simp only [Option.some_bind, List.nil_append, List.length_cons, List.map_cons,
            List.sum_cons, List.mem_cons]
          refine ⟨⟨out, hout⟩, by rw [a2]; omega, ?_, ?_⟩
          · rw [hcmp, Nat.mul_add, a3]
            exact harith
          · intro cl hcl
            rcases hcl with rfl | hcl
            · exact Or.inl r1
            · exact a4 cl hcl
        · intro fuel hf
          cases fuel with
          | zero => rfl
          | succ f =>
            rw [quick_sort_of_lt _ st low high hlt, r1]
            cases f with
            | zero => rfl
            | succ g =>
              rw [quick_sort_of_not_lt g _ low (low - 1) hempty]
              exact ihB (g + 1) (by omega)
      · -- the pivot is the maximum: `partition` returns `high`
        have hmax : ∀ x : Nat, low ≤ x → (x : Int) < high →
            rd st.arr x < rd st.arr high.toNat := by
          intro x hx1 hx2
          rw [hc x hx1 hx2]
          omega
        obtain ⟨r1, r2⟩ := partition_max st low high h0 (le_of_lt hlt) hh hmax
        have hshapeL : WorstShape (partition st low high).2.arr low (high - 1) := by
          refine Or.inl ⟨c, ?_⟩
          intro x hx1 hx2
          rw [r2]
          exact hc x hx1 (by omega)
        obtain ⟨ihA, ihB⟩ := ih (partition st low high).2 low (high - 1) h0
          (by rw [r2]; omega) (by push_cast at hm; omega) hshapeL
        rw [hmax2] at ihA ihB
        have hempty : ¬ high + 1 < high := by omega
        refine ⟨?_, ?_⟩
        · intro fuel hf
          obtain ⟨f, rfl⟩ : ∃ f, fuel = f + 1 := ⟨fuel - 1, by omega⟩
          obtain ⟨g, rfl⟩ : ∃ g, f = g + 1 := ⟨f - 1, by omega⟩
          obtain ⟨⟨out, hout⟩, a2, a3, a4⟩ := ihA (g + 1) (by omega)
          rw [quick_sort_of_lt _ st low high hlt, quick_sort_calls_of_lt _ st low high hlt, r1,
            hout]
          simp only [Option.some_bind, quick_sort_of_not_lt g _ (high + 1) high hempty,
            quick_sort_calls_of_not_lt _ _ (high + 1) high hempty, List.append_nil,
            List.length_cons, List.map_cons, List.sum_cons, List.mem_cons]
          refine ⟨⟨out, rfl⟩, by rw [a2]; omega, ?_, ?_⟩
          · rw [hcmp, Nat.mul_add, a3]
            exact harith
          · intro cl hcl
            rcases hcl with rfl | hcl
            · exact Or.inr r1
            · exact a4 cl hcl
        · intro fuel hf
          cases fuel with
          | zero => rfl
          | succ f =>
            rw [quick_sort_of_lt _ st low high hlt, r1, ihB f (by omega)]
            rfl

theorem rd_descending (n x : Nat) (hx : x < n) :
    rd ((List.range n).map fun (i : Nat) => (n : Int) - (i : Int)) x = (n : Int) - (x : Int) := by
  rw [rd_eq_getElem _ _ (by simpa using hx)]
  simp

theorem rd_swapped_descending (n x : Nat) (hn : 2 ≤ n) (hx : x < n) :
    rd ((1 : Int) :: (((List.range (n - 2)).map fun (i : Nat) => (n : Int) - 1 - (i : Int))
        ++ [(n : Int)])) x
      = if x = n - 1 then (n : Int) else if x = 0 then 1 else (n : Int) - (x : Int) := by
  cases x with
  | zero =>
    rw [if_neg (by omega), if_pos rfl]
    rfl
  | succ k =>
    rw [rd_eq_getElem _ _ (by simp; omega)]
    by_cases hk : k = n - 2
    · rw [if_pos (by omega)]
      simp [List.getElem_append_right, hk]
    · rw [if_neg (by omega), if_neg (by omega)]
      have hk2 : k < n - 2 := by omega
      simp [List.getElem_append_left, hk2]
      omega

/-- Claim C19. On the strictly descending array `n, n - 1, ..., 1` with `n ≥ 2`, the first
call of `partition` over `[0, n - 1]` returns index `0` and leaves `1, n - 1, ..., 2, n`;
`quick_sort` returns, every call of `partition` it makes returns its `low` or its `high`
bound, so that one of the two recursive calls gets an empty range; `partition` is called
`n - 1` times and makes `n (n - 1) / 2` comparisons with a pivot in total; the recursion
needs `n` nested frames, the top call and `n - 1` levels below it, and runs out with
`n - 1`. -/
theorem quick_sort_descending_worst_case (n : Nat) (log : List Int) (hn : 2 ≤ n) :
    (partition ⟨(List.range n).map fun (i : Nat) => (n : Int) - (i : Int), log⟩
        0 ((n : Int) - 1)).1 = 0 ∧
    (partition ⟨(List.range n).map fun (i : Nat) => (n : Int) - (i : Int), log⟩
        0 ((n : Int) - 1)).2.arr
      = (1 : Int) :: (((List.range (n - 2)).map fun (i : Nat) => (n : Int) - 1 - (i : Int))
          ++ [(n : Int)]) ∧
    (∀ fuel, n ≤ fuel →
      (∃ out, quick_sort fuel
        ⟨(List.range n).map fun (i : Nat) => (n : Int) - (i : Int), log⟩ 0 ((n : Int) - 1)
          = some out) ∧
      (quick_sort_calls fuel
        ⟨(List.range n).map fun (i : Nat) => (n : Int) - (i : Int), log⟩ 0 ((n : Int) - 1)).length
          = n - 1 ∧
      ((quick_sort_calls fuel
        ⟨(List.range n).map fun (i : Nat) => (n : Int) - (i : Int), log⟩ 0 ((n : Int) - 1)).map
          fun c => partition_comparisons c.2.1 c.2.2).sum = n * (n - 1) / 2 ∧
      ∀ c ∈ quick_sort_calls fuel
        ⟨(List.range n).map fun (i : Nat) => (n : Int) - (i : Int), log⟩ 0 ((n : Int) - 1),
        ((partition c.1 c.2.1 c.2.2).1 = c.2.1 ∨ (partition c.1 c.2.1 c.2.2).1 = c.2.2) ∧
        (¬ c.2.1 < (partition c.1 c.2.1 c.2.2).1 - 1 ∨
          ¬ (partition c.1 c.2.1 c.2.2).1 + 1 < c.2.2)) ∧
    (∀ fuel, fuel < n → quick_sort fuel
      ⟨(List.range n).map fun (i : Nat) => (n : Int) - (i : Int), log⟩ 0 ((n : Int) - 1)
        = none) := by
  have hlen : ((List.range n).map fun (i : Nat) => (n : Int) - (i : Int)).length = n := by simp
  have hmin : ∀ x : Nat, (0 : Int) ≤ x → (x : Int) < (n : Int) - 1 →
      ¬ rd ((List.range n).map fun (i : Nat) => (n : Int) - (i : Int)) x
        < rd ((List.range n).map fun (i : Nat) => (n : Int) - (i : Int)) ((n : Int) - 1).toNat := by
    intro x _ hx
    rw [rd_descending n x (by omega), rd_descending n _ (by omega)]
    omega
  obtain ⟨p1, p2⟩ := partition_min
    ⟨(List.range n).map fun (i : Nat) => (n : Int) - (i : Int), log⟩ 0 ((n : Int) - 1)
    le_rfl (by omega) hmin
  have hshape : WorstShape ((List.range n).map fun (i : Nat) => (n : Int) - (i : Int))
      0 ((n : Int) - 1) := by
    refine Or.inl ⟨(n : Int), ?_⟩
    intro x _ hx
    exact rd_descending n x (by omega)
  obtain ⟨hA, hB⟩ := quick_sort_worst n
    ⟨(List.range n).map fun (i : Nat) => (n : Int) - (i : Int), log⟩ 0 ((n : Int) - 1)
    le_rfl (by rw [hlen]; omega) (by omega) hshape
  have hmaxn : max 1 n = n := by omega
  rw [hmaxn] at hA hB
  refine ⟨p1, ?_, ?_, hB⟩
  · rw [p2]
    apply ext_rd
    · simp [length_wr]; omega
    · intro x hx
      rw [swap_length, hlen] at hx
      have e1 : ((n : Int) - 1).toNat = n - 1 := by omega
      have e0 : (0 : Int).toNat = 0 := rfl
      rw [swap_rd _ _ _ _ (by rw [hlen]; omega) (by rw [hlen]; omega),
        rd_swapped_descending n x hn hx, e1, e0, rd_descending n 0 (by omega)]
      by_cases hx1 : x = n - 1
      · rw [if_pos hx1, if_pos hx1]; simp
      · rw [if_neg hx1, if_neg hx1]
        by_cases hx0 : x = 0
        · rw [if_pos hx0, if_pos hx0, rd_descending n _ (by omega)]
          omega
        · rw [if_neg hx0, if_neg hx0, rd_descending n x hx]
  · intro fuel hf
    obtain ⟨a1, a2, a3, a4⟩ := hA fuel hf
    refine ⟨a1, a2, ?_, ?_⟩
    · have e : (fun (c : IntArray × Int × Int) => partition_comparisons c.2.1 c.2.2)
          = fun c => (c.2.2 - c.2.1).toNat := by
        funext c
        simp [partition_comparisons]
      rw [e]
      omega
    · intro c hc
      rcases a4 c hc with h | h
      · exact ⟨Or.inl h, Or.inl (by rw [h]; omega)⟩
      · exact ⟨Or.inr h, Or.inr (by rw [h]; omega)⟩

theorem quick_sort_descending_worst_case_witness :
    2 ≤ 4 ∧
    (partition ⟨[4, 3, 2, 1], []⟩ 0 3).1 = 0 ∧
    (partition ⟨[4, 3, 2, 1], []⟩ 0 3).2.arr = [1, 3, 2, 4] ∧
    (quick_sort_calls 4 ⟨[4, 3, 2, 1], []⟩ 0 3).length = 3 ∧
    ((quick_sort_calls 4 ⟨[4, 3, 2, 1], []⟩ 0 3).map
      fun c => partition_comparisons c.2.1 c.2.2).sum = 6 ∧
    quick_sort 3 ⟨[4, 3, 2, 1], []⟩ 0 3 = none := by
  have h := quick_sort_descending_worst_case 4 [] (by decide)
  exact ⟨by decide, h.1, h.2.1, (h.2.2.1 4 le_rfl).2.1, (h.2.2.1 4 le_rfl).2.2.1,
    h.2.2.2 3 (by decide)⟩

/-! ## The suite driver -/

theorem fft_populate_length {α : Type} [Zero α] [Mul α] [Div α] [NatCast α] [OfNat α 2]
    (PI : α) (sinf : α → α) (N k : Nat) (sig : Signal α) :
    ((List.range k).foldl
      (fun (sig : Signal α) i =>
        { real := wr sig.real i (sinf (2 * PI * (i : α) / (N : α)))
          imag := wr sig.imag i 0
          log := sig.log ++ [i] }) sig).real.length = sig.real.length ∧
    ((List.range k).foldl
      (fun (sig : Signal α) i =>
        { real := wr sig.real i (sinf (2 * PI * (i : α) / (N : α)))
          imag := wr sig.imag i 0
          log := sig.log ++ [i] }) sig).imag.length = sig.imag.length := by
  induction k with
  | zero => exact ⟨rfl, rfl⟩
  | succ k ih =>
    rw [List.range_succ, List.foldl_append]
    simp only [List.foldl_cons, List.foldl_nil, length_wr]
    exact ih

/-- Whatever the arithmetic of `float` does, `fft_radix2` returns on arrays of length
`2 ^ p`. -/
theorem fft_radix2_returns {α : Type} [Zero α] [One α] [Add α] [Sub α] [Mul α] [Div α]
    [Neg α] [NatCast α] [OfNat α 2] (PI : α) (cosf sinf : α → α) (p fuel : Nat)
    (hf : 2 ^ p < fuel) (sig : Signal α) (hr : sig.real.length = 2 ^ p)
    (hi : sig.imag.length = 2 ^ p) :
    ∃ out, fft_radix2 PI cosf sinf fuel sig (2 ^ p) = some out := by
  have hp : p < fuel := lt_trans (Nat.lt_pow_self (by decide) p) hf
  obtain ⟨sig1, hrev, -⟩ := bit_reverse_spec p fuel hp sig hr hi
  obtain ⟨out, hloop, -⟩ :=
    fft_stage_loop_shape PI cosf sinf p fuel hf p 0 sig1 fuel (by omega) hp
  rw [show (0 : Nat) + 1 = 1 from rfl] at hloop
  have hloop2 : fft_stage_loop PI cosf sinf fuel sig1 (2 ^ p) = some (p + 1, out) := hloop
  exact ⟨out, by simp only [fft_radix2, hrev, Option.some_bind, hloop2, Option.map_some']⟩

/-- The output of `benchmark_fft`, for any clock and any arithmetic. -/
theorem benchmark_fft_run {α τ : Type} [Zero α] [One α] [Add α] [Sub α] [Mul α] [Div α]
    [Neg α] [NatCast α] [OfNat α 2] (PI : α) (cosf sinf : α → α) (clk : Clock τ) (fuel : Nat)
    (real imag : List α) (w : Console) (hf : 128 < fuel) (hr : real.length = 128)
    (hi : imag.length = 128) :
    ∃ r, benchmark_fft PI cosf sinf clk fuel real imag w = some r ∧
      r.2 = { out := w.out ++
                [⟨"task,method,size,time_us\n", []⟩,
                 ⟨"fft,radix2,%d,%lld\n",
                   [128, clk.diff_us (clk.now w.ticks) (clk.now (w.ticks + 1))]⟩]
              ticks := w.ticks + 2 } := by
  obtain ⟨h1, h2⟩ := fft_populate_length PI sinf 128 128 ⟨real, imag, []⟩
  obtain ⟨out, hout⟩ := fft_radix2_returns PI cosf sinf 7 fuel hf
    (fft_populate PI sinf 128 ⟨real, imag, []⟩) (h1.trans hr) (h2.trans hi)
  have e : (2 : Nat) ^ 7 = 128 := by decide
  rw [e] at hout
  refine ⟨(out, _), by simp only [benchmark_fft, hout, Option.map_some']; rfl, ?_⟩
  simp only [get_absolute_time, printf, List.append_assoc, List.cons_append, List.nil_append,
    Nat.cast_ofNat]

/-- The output of `benchmark_matrix_multiplication`, for any clock. -/
theorem benchmark_matrix_multiplication_run_out {τ : Type} (clk : Clock τ) (st : MatrixRun)
    (w : Console) :
    (benchmark_matrix_multiplication_run clk st w).2 =
      { out := w.out ++
          [⟨"task,method,size,time_us\n", []⟩,
           ⟨"matrix,multiply,%d,%lld\n",
             [10, clk.diff_us (clk.now w.ticks) (clk.now (w.ticks + 1))]⟩,
           ⟨"matrix,multiply,%d,%lld\n",
             [20, clk.diff_us (clk.now (w.ticks + 2)) (clk.now (w.ticks + 3))]⟩]
        ticks := w.ticks + 4 } := by
  simp only [benchmark_matrix_multiplication_run, List.foldl_cons, List.foldl_nil,
    benchmark_matrix_multiplication_step, get_absolute_time, printf, List.append_assoc,
    List.cons_append, List.nil_append, Nat.add_assoc, Nat.cast_ofNat]

/-- The output of `benchmark_bubble_sort`, for any clock. -/
theorem benchmark_bubble_sort_out {τ : Type} (clk : Clock τ) (test : List Int) (w : Console) :
    (benchmark_bubble_sort clk test w).console =
      { out := w.out ++
          [⟨"task,method,size,time_us\n", []⟩,
           ⟨"bubblesort,bubble,%d,%lld\n",
             [10, clk.diff_us (clk.now w.ticks) (clk.now (w.ticks + 1))]⟩,
           ⟨"bubblesort,bubble,%d,%lld\n",
             [50, clk.diff_us (clk.now (w.ticks + 2)) (clk.now (w.ticks + 3))]⟩,
           ⟨"bubblesort,bubble,%d,%lld\n",
             [100, clk.diff_us (clk.now (w.ticks + 4)) (clk.now (w.ticks + 5))]⟩]
        ticks := w.ticks + 6 } := by
  simp only [benchmark_bubble_sort, List.foldl_cons, List.foldl_nil,
    benchmark_bubble_sort_step, get_absolute_time, printf, List.append_assoc,
    List.cons_append, List.nil_append, Nat.add_assoc, Nat.cast_ofNat]

/-- The output of `benchmark_quick_sort`, for any clock. -/
theorem benchmark_quick_sort_out {τ : Type} (clk : Clock τ) (fuel : Nat) (test : List Int)
    (w : Console) (hf : 100 < fuel) :
    ∃ r, benchmark_quick_sort clk fuel test w = some r ∧
      r.console =
        { out := w.out ++
            [⟨"task,method,size,time_us\n", []⟩,
             ⟨"quicksort,quick,%d,%lld\n",
               [10, clk.diff_us (clk.now w.ticks) (clk.now (w.ticks + 1))]⟩,
             ⟨"quicksort,quick,%d,%lld\n",
               [50, clk.diff_us (clk.now (w.ticks + 2)) (clk.now (w.ticks + 3))]⟩,
             ⟨"quicksort,quick,%d,%lld\n",
               [100, clk.diff_us (clk.now (w.ticks + 4)) (clk.now (w.ticks + 5))]⟩]
          ticks := w.ticks + 6 } := by
  obtain ⟨r1, e1, l1, c1⟩ := benchmark_quick_sort_step_log clk fuel
    ⟨printf w "task,method,size,time_us\n" [], ⟨test, []⟩⟩ 10 (by decide) hf
    (fun y hy => by simp at hy)
  obtain ⟨r2, e2, l2, c2⟩ := benchmark_quick_sort_step_log clk fuel r1 50 (by decide) hf l1
  obtain ⟨r3, e3, -, c3⟩ := benchmark_quick_sort_step_log clk fuel r2 100 (by decide) hf l2
  refine ⟨r3, ?_, ?_⟩
  · simp only [benchmark_quick_sort, List.foldlM_cons, List.foldlM_nil, e1, e2, e3,
      Option.some_bind, Option.bind_eq_bind, Option.pure_def]
  · rw [c3, c2, c1]
    simp only [get_absolute_time, printf, List.append_assoc, List.cons_append,
      List.nil_append, Nat.add_assoc, Nat.cast_ofNat]

/-- Claim C17. Whatever the clock returns and whatever the arithmetic of `float` does,
`run_software_benchmarks` (with fuel for the kernels, above 128 is enough, and the two FFT
buffers of length 128) returns, after 42 clock readings, having printed exactly the output
below: the six families once each in the order Fibonacci, bubble sort, quick sort, loop
overhead, matrix multiplication, FFT; the header of each family before its first record; and
one divider after each family, six dividers among the 33 lines in total. -/
theorem run_software_benchmarks_output {α τ : Type} [Zero α] [One α] [Add α] [Sub α] [Mul α] [Div α]
    [Neg α] [NatCast α] [OfNat α 2] (PI : α) (cosf sinf : α → α)
    (clk : Clock τ) (fuel : Nat) (stack : Stack α) (w : Console) (hf : 128 < fuel)
    (hr : stack.real.length = 128) (hi : stack.imag.length = 128) :
    ∃ w1, run_software_benchmarks PI cosf sinf clk fuel stack w = some w1 ∧
      w1.ticks = w.ticks + 42 ∧
      w1.out = w.out ++
        ([⟨"task,method,n,result,time_us\n", []⟩,
         ⟨"fibonacci,iterative,%d,%d,%lld\n", [10, 55, clk.diff_us (clk.now w.ticks) (clk.now (w.ticks + 1))]⟩,
         ⟨"fibonacci,recursive,%d,%d,%lld\n", [10, 55, clk.diff_us (clk.now (w.ticks + 2)) (clk.now (w.ticks + 3))]⟩,
         ⟨"fibonacci,iterative,%d,%d,%lld\n", [20, 6765, clk.diff_us (clk.now (w.ticks + 4)) (clk.now (w.ticks + 5))]⟩,
         ⟨"fibonacci,recursive,%d,%d,%lld\n", [20, 6765, clk.diff_us (clk.now (w.ticks + 6)) (clk.now (w.ticks + 7))]⟩,
         ⟨"fibonacci,iterative,%d,%d,%lld\n", [30, 832040, clk.diff_us (clk.now (w.ticks + 8)) (clk.now (w.ticks + 9))]⟩,
         ⟨"fibonacci,recursive,%d,%d,%lld\n", [30, 832040, clk.diff_us (clk.now (w.ticks + 10)) (clk.now (w.ticks + 11))]⟩,
         ⟨"fibonacci,iterative,%d,%d,%lld\n", [35, 9227465, clk.diff_us (clk.now (w.ticks + 12)) (clk.now (w.ticks + 13))]⟩,
         ⟨"fibonacci,recursive,%d,%d,%lld\n", [35, 9227465, clk.diff_us (clk.now (w.ticks + 14)) (clk.now (w.ticks + 15))]⟩,
         ⟨"----------------------\n", []⟩,
         ⟨"task,method,size,time_us\n", []⟩,
         ⟨"bubblesort,bubble,%d,%lld\n", [10, clk.diff_us (clk.now (w.ticks + 16)) (clk.now (w.ticks + 17))]⟩,
         ⟨"bubblesort,bubble,%d,%lld\n", [50, clk.diff_us (clk.now (w.ticks + 18)) (clk.now (w.ticks + 19))]⟩,
         ⟨"bubblesort,bubble,%d,%lld\n", [100, clk.diff_us (clk.now (w.ticks + 20)) (clk.now (w.ticks + 21))]⟩,
         ⟨"----------------------\n", []⟩,
         ⟨"task,method,size,time_us\n", []⟩,
         ⟨"quicksort,quick,%d,%lld\n", [10, clk.diff_us (clk.now (w.ticks + 22)) (clk.now (w.ticks + 23))]⟩,
         ⟨"quicksort,quick,%d,%lld\n", [50, clk.diff_us (clk.now (w.ticks + 24)) (clk.now (w.ticks + 25))]⟩,
         ⟨"quicksort,quick,%d,%lld\n", [100, clk.diff_us (clk.now (w.ticks + 26)) (clk.now (w.ticks + 27))]⟩,
         ⟨"----------------------\n", []⟩,
         ⟨"task,method,iterations,time_us\n", []⟩,
         ⟨"loop,for_loop,%d,%lld\n", [1000, clk.diff_us (clk.now (w.ticks + 28)) (clk.now (w.ticks + 29))]⟩,
         ⟨"loop,for_loop,%d,%lld\n", [10000, clk.diff_us (clk.now (w.ticks + 30)) (clk.now (w.ticks + 31))]⟩,
         ⟨"loop,for_loop,%d,%lld\n", [100000, clk.diff_us (clk.now (w.ticks + 32)) (clk.now (w.ticks + 33))]⟩,
         ⟨"loop,for_loop,%d,%lld\n", [1000000, clk.diff_us (clk.now (w.ticks + 34)) (clk.now (w.ticks + 35))]⟩,
         ⟨"----------------------\n", []⟩,
         ⟨"task,method,size,time_us\n", []⟩,
         ⟨"matrix,multiply,%d,%lld\n", [10, clk.diff_us (clk.now (w.ticks + 36)) (clk.now (w.ticks + 37))]⟩,
         ⟨"matrix,multiply,%d,%lld\n", [20, clk.diff_us (clk.now (w.ticks + 38)) (clk.now (w.ticks + 39))]⟩,
         ⟨"----------------------\n", []⟩,
         ⟨"task,method,size,time_us\n", []⟩,
         ⟨"fft,radix2,%d,%lld\n", [128, clk.diff_us (clk.now (w.ticks + 40)) (clk.now (w.ticks + 41))]⟩,
         ⟨"----------------------\n", []⟩] : List Printf) ∧
      (w1.out.drop w.out.length).length = 33 ∧
      ((w1.out.drop w.out.length).map fun r => r.fmt).count "----------------------\n" = 6 := by
  obtain ⟨w1, h1, hw1⟩ : ∃ w1, benchmark_fibonacci clk fuel w = some w1 ∧ w1 = _ :=
    ⟨_, benchmark_fibonacci_run clk fuel w (by omega), rfl⟩
  obtain ⟨r3, e3, c3⟩ := benchmark_quick_sort_out clk fuel stack.quick_test
    (printf (benchmark_bubble_sort clk stack.bubble_test
      (printf w1 "----------------------\n" [])).console "----------------------\n" []) (by omega)
  obtain ⟨r6, e6, c6⟩ := benchmark_fft_run PI cosf sinf clk fuel stack.real stack.imag
    (printf (benchmark_matrix_multiplication_run clk stack.matrices
      (printf (benchmark_loop_overhead clk
        (printf r3.console "----------------------\n" [])).console "----------------------\n" [])).2 "----------------------\n" []) hf hr hi
  have hout : (printf r6.2 "----------------------\n" []) =
      { out := w.out ++
        ([⟨"task,method,n,result,time_us\n", []⟩,
         ⟨"fibonacci,iterative,%d,%d,%lld\n", [10, 55, clk.diff_us (clk.now w.ticks) (clk.now (w.ticks + 1))]⟩,
         ⟨"fibonacci,recursive,%d,%d,%lld\n", [10, 55, clk.diff_us (clk.now (w.ticks + 2)) (clk.now (w.ticks + 3))]⟩,
         ⟨"fibonacci,iterative,%d,%d,%lld\n", [20, 6765, clk.diff_us (clk.now (w.ticks + 4)) (clk.now (w.ticks + 5))]⟩,
         ⟨"fibonacci,recursive,%d,%d,%lld\n", [20, 6765, clk.diff_us (clk.now (w.ticks + 6)) (clk.now (w.ticks + 7))]⟩,
         ⟨"fibonacci,iterative,%d,%d,%lld\n", [30, 832040, clk.diff_us (clk.now (w.ticks + 8)) (clk.now (w.ticks + 9))]⟩,
         ⟨"fibonacci,recursive,%d,%d,%lld\n", [30, 832040, clk.diff_us (clk.now (w.ticks + 10)) (clk.now (w.ticks + 11))]⟩,
         ⟨"fibonacci,iterative,%d,%d,%lld\n", [35, 9227465, clk.diff_us (clk.now (w.ticks + 12)) (clk.now (w.ticks + 13))]⟩,
         ⟨"fibonacci,recursive,%d,%d,%lld\n", [35, 9227465, clk.diff_us (clk.now (w.ticks + 14)) (clk.now (w.ticks + 15))]⟩,
         ⟨"----------------------\n", []⟩,
         ⟨"task,method,size,time_us\n", []⟩,
         ⟨"bubblesort,bubble,%d,%lld\n", [10, clk.diff_us (clk.now (w.ticks + 16)) (clk.now (w.ticks + 17))]⟩,
         ⟨"bubblesort,bubble,%d,%lld\n", [50, clk.diff_us (clk.now (w.ticks + 18)) (clk.now (w.ticks + 19))]⟩,
         ⟨"bubblesort,bubble,%d,%lld\n", [100, clk.diff_us (clk.now (w.ticks + 20)) (clk.now (w.ticks + 21))]⟩,
         ⟨"----------------------\n", []⟩,
         ⟨"task,method,size,time_us\n", []⟩,
         ⟨"quicksort,quick,%d,%lld\n", [10, clk.diff_us (clk.now (w.ticks + 22)) (clk.now (w.ticks + 23))]⟩,
         ⟨"quicksort,quick,%d,%lld\n", [50, clk.diff_us (clk.now (w.ticks + 24)) (clk.now (w.ticks + 25))]⟩,
         ⟨"quicksort,quick,%d,%lld\n", [100, clk.diff_us (clk.now (w.ticks + 26)) (clk.now (w.ticks + 27))]⟩,
         ⟨"----------------------\n", []⟩,
         ⟨"task,method,iterations,time_us\n", []⟩,
         ⟨"loop,for_loop,%d,%lld\n", [1000, clk.diff_us (clk.now (w.ticks + 28)) (clk.now (w.ticks + 29))]⟩,
         ⟨"loop,for_loop,%d,%lld\n", [10000, clk.diff_us (clk.now (w.ticks + 30)) (clk.now (w.ticks + 31))]⟩,
         ⟨"loop,for_loop,%d,%lld\n", [100000, clk.diff_us (clk.now (w.ticks + 32)) (clk.now (w.ticks + 33))]⟩,
         ⟨"loop,for_loop,%d,%lld\n", [1000000, clk.diff_us (clk.now (w.ticks + 34)) (clk.now (w.ticks + 35))]⟩,
         ⟨"----------------------\n", []⟩,
         ⟨"task,method,size,time_us\n", []⟩,
         ⟨"matrix,multiply,%d,%lld\n", [10, clk.diff_us (clk.now (w.ticks + 36)) (clk.now (w.ticks + 37))]⟩,
         ⟨"matrix,multiply,%d,%lld\n", [20, clk.diff_us (clk.now (w.ticks + 38)) (clk.now (w.ticks + 39))]⟩,
         ⟨"----------------------\n", []⟩,
         ⟨"task,method,size,time_us\n", []⟩,
         ⟨"fft,radix2,%d,%lld\n", [128, clk.diff_us (clk.now (w.ticks + 40)) (clk.now (w.ticks + 41))]⟩,
         ⟨"----------------------\n", []⟩] : List Printf)
        ticks := w.ticks + 42 } := by
    rw [c6, benchmark_matrix_multiplication_run_out, benchmark_loop_overhead_run, c3,
      benchmark_bubble_sort_out, hw1]
    simp only [printf, List.append_assoc, List.cons_append, List.nil_append, Nat.add_assoc,
      Nat.reduceAdd]
  refine ⟨printf r6.2 "----------------------\n" [], ?_, ?_, ?_, ?_, ?_⟩
  · simp only [run_software_benchmarks, h1, Option.some_bind, e3, e6, Option.map_some']
  · rw [hout]
  · rw [hout]
  · rw [hout]
    simp only [List.drop_left, List.length_cons, List.length_nil]
  · rw [hout]
    simp only [List.drop_left, List.map_cons, List.map_nil]
    decide

theorem run_software_benchmarks_output_witness :
    ∃ w1, run_software_benchmarks (3 : ℚ) (fun _ => 0) (fun _ => -1)
        ⟨fun k => 10 * (k : Int), fun a b => b - a⟩ 129
        ⟨List.replicate 100 7, List.replicate 100 (-3), ⟨[], [], [], false⟩,
          List.replicate 128 5, List.replicate 128 9⟩ ⟨[], 0⟩ = some w1 ∧
      w1.ticks = 42 ∧
      w1.out =
        [⟨"task,method,n,result,time_us\n", []⟩,
         ⟨"fibonacci,iterative,%d,%d,%lld\n", [10, 55, 10]⟩,
         ⟨"fibonacci,recursive,%d,%d,%lld\n", [10, 55, 10]⟩,
         ⟨"fibonacci,iterative,%d,%d,%lld\n", [20, 6765, 10]⟩,
         ⟨"fibonacci,recursive,%d,%d,%lld\n", [20, 6765, 10]⟩,
         ⟨"fibonacci,iterative,%d,%d,%lld\n", [30, 832040, 10]⟩,
         ⟨"fibonacci,recursive,%d,%d,%lld\n", [30, 832040, 10]⟩,
         ⟨"fibonacci,iterative,%d,%d,%lld\n", [35, 9227465, 10]⟩,
         ⟨"fibonacci,recursive,%d,%d,%lld\n", [35, 9227465, 10]⟩,
         ⟨"----------------------\n", []⟩,
         ⟨"task,method,size,time_us\n", []⟩,
         ⟨"bubblesort,bubble,%d,%lld\n", [10, 10]⟩,
         ⟨"bubblesort,bubble,%d,%lld\n", [50, 10]⟩,
         ⟨"bubblesort,bubble,%d,%lld\n", [100, 10]⟩,
         ⟨"----------------------\n", []⟩,
         ⟨"task,method,size,time_us\n", []⟩,
         ⟨"quicksort,quick,%d,%lld\n", [10, 10]⟩,
         ⟨"quicksort,quick,%d,%lld\n", [50, 10]⟩,
         ⟨"quicksort,quick,%d,%lld\n", [100, 10]⟩,
         ⟨"----------------------\n", []⟩,
         ⟨"task,method,iterations,time_us\n", []⟩,
         ⟨"loop,for_loop,%d,%lld\n", [1000, 10]⟩,
         ⟨"loop,for_loop,%d,%lld\n", [10000, 10]⟩,
         ⟨"loop,for_loop,%d,%lld\n", [100000, 10]⟩,
         ⟨"loop,for_loop,%d,%lld\n", [1000000, 10]⟩,
         ⟨"----------------------\n", []⟩,
         ⟨"task,method,size,time_us\n", []⟩,
         ⟨"matrix,multiply,%d,%lld\n", [10, 10]⟩,
         ⟨"matrix,multiply,%d,%lld\n", [20, 10]⟩,
         ⟨"----------------------\n", []⟩,
         ⟨"task,method,size,time_us\n", []⟩,
         ⟨"fft,radix2,%d,%lld\n", [128, 10]⟩,
         ⟨"----------------------\n", []⟩] := by
  obtain ⟨w1, h1, h2, h3, -⟩ := run_software_benchmarks_output (3 : ℚ) (fun _ => 0)
    (fun _ => -1) ⟨fun k => 10 * (k : Int), fun a b => b - a⟩ 129
    ⟨List.replicate 100 7, List.replicate 100 (-3), ⟨[], [], [], false⟩,
      List.replicate 128 5, List.replicate 128 9⟩ ⟨[], 0⟩ (by decide)
    (List.length_replicate _ _) (List.length_replicate _ _)
  refine ⟨w1, h1, by simpa using h2, ?_⟩
  rw [h3]
  simp

/-! ## Roots of unity, the spectrum of the benchmark's sine, and the inverse transform -/

theorem isTwiddle_primitive (n : Nat) (hn : n ≠ 0) (W : ℂ) (h : IsTwiddle n W) :
    IsPrimitiveRoot W n := by
  have h1 := Complex.isPrimitiveRoot_exp n hn
  have e : W = (Complex.exp (2 * Real.pi * Complex.I / n))⁻¹ := by
    unfold IsTwiddle at h
    rw [h, ← Complex.exp_neg]
    congr 1
    push_cast
    ring
  rw [e]
  exact IsPrimitiveRoot.inv_iff.mpr h1

/-- Orthogonality of the powers of a primitive `n`-th root of unity. -/
theorem twiddle_sum (n : Nat) (W : ℂ) (hW : IsPrimitiveRoot W n) (m : Nat) :
    ∑ j in Finset.range n, W ^ (j * m) = if n ∣ m then (n : ℂ) else 0 := by
  have e : ∀ j, W ^ (j * m) = (W ^ m) ^ j := fun j => by rw [← pow_mul, mul_comm]
  simp only [e]
  split_ifs with hd
  · rw [(hW.pow_eq_one_iff_dvd m).mpr hd]
    simp
  · have hne : W ^ m ≠ 1 := fun h => hd ((hW.pow_eq_one_iff_dvd m).mp h)
    have hg := geom_sum_mul (W ^ m) n
    rw [← pow_mul, mul_comm m n, pow_mul, hW.pow_eq_one, one_pow, sub_self] at hg
    rcases mul_eq_zero.mp hg with h | h
    · exact h
    · exact absurd (sub_eq_zero.mp h) hne

theorem twiddle_inv (n : Nat) (hn : 0 < n) (W : ℂ) (hW : IsPrimitiveRoot W n) :
    W ^ (n - 1) = W⁻¹ := by
  apply eq_inv_of_mul_eq_one_left
  rw [← pow_succ, Nat.sub_add_cancel hn, hW.pow_eq_one]

/-- The output of `fft_radix2` over the reals as sums of powers of the twiddle `W`. -/
theorem fft_radix2_dft_pow (p fuel : Nat) (hf : 2 ^ p < fuel) (sig : Signal ℝ)
    (hr : sig.real.length = 2 ^ p) (hi : sig.imag.length = 2 ^ p) (W : ℂ)
    (hW : IsTwiddle (2 ^ p) W) :
    ∃ out, fft_radix2 Real.pi Real.cos Real.sin fuel sig (2 ^ p) = some out ∧
      out.real.length = 2 ^ p ∧ out.imag.length = 2 ^ p ∧
      ∀ k, k < 2 ^ p → cx out k = ∑ l in Finset.range (2 ^ p), cx sig l * W ^ (k * l) := by
  obtain ⟨out, hout, h1, h2, hcx⟩ := fft_radix2_spec p fuel hf sig hr hi
  refine ⟨out, hout, h1, h2, ?_⟩
  intro k hk
  have h := hcx W hW 0 k (by simp) hk
  simp only [zero_mul, zero_add, bitrev, subDFT, mul_one, add_zero, pow_zero] at h
  exact h

theorem fft_populate_prefix {α : Type} [Zero α] [Mul α] [Div α] [NatCast α] [OfNat α 2]
    (PI : α) (sinf : α → α) (N k : Nat) (sig : Signal α) (h1 : k ≤ sig.real.length)
    (h2 : k ≤ sig.imag.length) :
    ∀ x, x < k →
      rd ((List.range k).foldl
        (fun (sig : Signal α) i =>
          { real := wr sig.real i (sinf (2 * PI * (i : α) / (N : α)))
            imag := wr sig.imag i 0
            log := sig.log ++ [i] }) sig).real x = sinf (2 * PI * (x : α) / (N : α)) ∧
      rd ((List.range k).foldl
        (fun (sig : Signal α) i =>
          { real := wr sig.real i (sinf (2 * PI * (i : α) / (N : α)))
            imag := wr sig.imag i 0
            log := sig.log ++ [i] }) sig).imag x = 0 := by
  induction k with
  | zero => intro x hx; omega
  | succ k ih =>
    intro x hx
    obtain ⟨l1, l2⟩ := fft_populate_length PI sinf N k sig
    rw [List.range_succ, List.foldl_append]
    simp only [List.foldl_cons, List.foldl_nil]
    by_cases e : x = k
    · subst e
      rw [rd_wr_same _ _ _ (by rw [l1]; omega), rd_wr_same _ _ _ (by rw [l2]; omega)]
      exact ⟨rfl, rfl⟩
    · rw [rd_wr_other _ _ _ _ (Ne.symm e), rd_wr_other _ _ _ _ (Ne.symm e)]
      exact ih (by omega) (by omega) x (by omega)

/-- The sample `sin(2 pi l / n)` in terms of the twiddle `W = e^(-2 pi i / n)`. -/
theorem twiddle_sin (n l : Nat) (hn : 0 < n) (W : ℂ) (hW : IsTwiddle n W) :
    ((Real.sin (2 * Real.pi * (l : ℝ) / (n : ℝ)) : ℝ) : ℂ)
      = (W ^ l - W ^ ((n - 1) * l)) * Complex.I / 2 := by
  have hp := isTwiddle_primitive n (by omega) W hW
  have hne : (n : ℂ) ≠ 0 := by exact_mod_cast hn.ne'
  have e1 : W ^ l = Complex.exp (-((2 * Real.pi * (l : ℝ) / (n : ℝ) : ℝ) : ℂ) * Complex.I) := by
    unfold IsTwiddle at hW
    rw [hW, ← Complex.exp_nat_mul]
    congr 1
    push_cast
    ring
  have e2 : W ^ ((n - 1) * l)
      = Complex.exp (((2 * Real.pi * (l : ℝ) / (n : ℝ) : ℝ) : ℂ) * Complex.I) := by
    rw [pow_mul, twiddle_inv n hn W hp, inv_pow, e1, ← Complex.exp_neg]
    congr 1
    ring
  rw [Complex.ofReal_sin, Complex.sin, e1, e2]

theorem fft_populate_spec {α : Type} [Zero α] [Mul α] [Div α] [NatCast α] [OfNat α 2]
    (PI : α) (sinf : α → α) (N : Nat) (sig : Signal α) (h1 : N ≤ sig.real.length)
    (h2 : N ≤ sig.imag.length) :
    (fft_populate PI sinf N sig).real.length = sig.real.length ∧
    (fft_populate PI sinf N sig).imag.length = sig.imag.length ∧
    ∀ x, x < N →
      rd (fft_populate PI sinf N sig).real x = sinf (2 * PI * (x : α) / (N : α)) ∧
      rd (fft_populate PI sinf N sig).imag x = 0 := by
  unfold fft_populate
  exact ⟨(fft_populate_length PI sinf N N sig).1, (fft_populate_length PI sinf N N sig).2,
    fft_populate_prefix PI sinf N N sig h1 h2⟩

/-- The transform of one period of a sine sampled at 128 points, as a sum of powers of the
twiddle `W = e^(-2 pi i / 128)`: `-64 i` at `k = 1`, `64 i` at `k = 127`, zero elsewhere. -/
theorem sine_spectrum_sum (W : ℂ) (hW : IsTwiddle 128 W) (k : Nat) (hk : k < 128) :
    ∑ l in Finset.range 128,
        ((Real.sin (2 * Real.pi * (l : ℝ) / ((128 : ℕ) : ℝ)) : ℝ) : ℂ) * W ^ (k * l)
      = if k = 1 then -(64 * Complex.I) else if k = 127 then 64 * Complex.I else 0 := by
  have hp := isTwiddle_primitive 128 (by decide) W hW
  have e : ∀ l : Nat,
      ((Real.sin (2 * Real.pi * (l : ℝ) / ((128 : ℕ) : ℝ)) : ℝ) : ℂ) * W ^ (k * l)
        = (W ^ (l * (k + 1)) - W ^ (l * (127 + k))) * (Complex.I / 2) := by
    intro l
    rw [twiddle_sin 128 l (by decide) W hW]
    ring
  simp only [e]
  rw [← Finset.sum_mul, Finset.sum_sub_distrib, twiddle_sum 128 W hp, twiddle_sum 128 W hp]
  have d1 : 128 ∣ k + 1 ↔ k = 127 := by omega
  have d2 : 128 ∣ 127 + k ↔ k = 1 := by omega
  simp only [d1, d2]
  by_cases h1 : k = 1
  · subst h1
    norm_num
    ring
  · by_cases h2 : k = 127
    · subst h2
      norm_num
      ring
    · rw [if_neg h1, if_neg h2, if_neg h1, if_neg h2]
      ring

/-- Exact-arithmetic spectrum of the benchmark's input: over the reals, `benchmark_fft`
returns with `X[1] = (0, -64)`, `X[127] = (0, 64)` and every other bin `(0, 0)` in its
arrays, whatever the buffers held before. -/
theorem benchmark_fft_sine_spectrum {τ : Type} (clk : Clock τ) (fuel : Nat)
    (real imag : List ℝ) (w : Console) (hf : 128 < fuel) (hr : real.length = 128)
    (hi : imag.length = 128) :
    ∃ r, benchmark_fft Real.pi Real.cos Real.sin clk fuel real imag w = some r ∧
      ∀ k, k < 128 →
        rd r.1.real k = 0 ∧
        rd r.1.imag k = if k = 1 then -64 else if k = 127 then 64 else 0 := by
  have e7 : (2 : Nat) ^ 7 = 128 := by decide
  obtain ⟨l1, l2, hpre⟩ := fft_populate_spec Real.pi Real.sin 128 ⟨real, imag, []⟩
    (le_of_eq hr.symm) (le_of_eq hi.symm)
  have hW := isTwiddle_mk (2 ^ 7)
  obtain ⟨out, hout, -, -, hdft⟩ := fft_radix2_dft_pow 7 fuel (by rw [e7]; exact hf)
    (fft_populate Real.pi Real.sin 128 ⟨real, imag, []⟩) (l1.trans hr) (l2.trans hi) _ hW
  rw [e7] at hout hdft hW
  refine ⟨(out, _), by simp only [benchmark_fft, hout, Option.map_some']; rfl, ?_⟩
  intro k hk
  have hk2 := hdft k hk
  have hsum : ∑ l in Finset.range 128,
      cx (fft_populate Real.pi Real.sin 128 ⟨real, imag, []⟩) l *
        (⟨Real.cos (-2 * Real.pi / ((128 : ℕ) : ℝ)),
          Real.sin (-2 * Real.pi / ((128 : ℕ) : ℝ))⟩ : ℂ) ^ (k * l)
      = ∑ l in Finset.range 128,
        ((Real.sin (2 * Real.pi * (l : ℝ) / ((128 : ℕ) : ℝ)) : ℝ) : ℂ) *
          (⟨Real.cos (-2 * Real.pi / ((128 : ℕ) : ℝ)),
            Real.sin (-2 * Real.pi / ((128 : ℕ) : ℝ))⟩ : ℂ) ^ (k * l) := by
    apply Finset.sum_congr rfl
    intro l hl
    have hl2 : l < 128 := Finset.mem_range.mp hl
    obtain ⟨p1, p2⟩ := hpre l hl2
    have : cx (fft_populate Real.pi Real.sin 128 ⟨real, imag, []⟩) l
        = ((Real.sin (2 * Real.pi * (l : ℝ) / ((128 : ℕ) : ℝ)) : ℝ) : ℂ) := by
      unfold cx
      rw [p1, p2]
      rfl
    rw [this]
  rw [hsum, sine_spectrum_sum _ hW k hk] at hk2
  have hre := congrArg Complex.re hk2
  have him := congrArg Complex.im hk2
  have c1 : (cx out k).re = rd out.real k := rfl
  have c2 : (cx out k).im = rd out.imag k := rfl
  rw [c1] at hre
  rw [c2] at him
  refine ⟨?_, ?_⟩
  · rw [hre]
    split_ifs <;> simp
  · rw [him]
    split_ifs <;> simp

theorem rd_map {α : Type} [Zero α] (f : α → α) (a : List α) (i : Nat) (h : i < a.length) :
    rd (a.map f) i = f (rd a i) := by
  rw [rd_eq_getElem _ _ (by simpa using h), rd_eq_getElem _ _ h]
  simp

theorem twiddle_conj (n : Nat) (W : ℂ) (hW : IsTwiddle n W) : (starRingEnd ℂ) W = W⁻¹ := by
  unfold IsTwiddle at hW
  rw [hW, ← Complex.exp_conj, ← Complex.exp_neg]
  congr 1
  rw [map_mul, Complex.conj_ofReal, Complex.conj_I]
  ring

theorem dvd_shift_iff (n l m : Nat) (hl : l < n) (hm : m < n) : n ∣ l + (n - m) ↔ l = m := by
  constructor
  · rintro ⟨c, hc⟩
    have h2 : c = 1 := by
      rcases Nat.lt_or_ge c 1 with h | h
      · have : c = 0 := by omega
        subst this
        omega
      · rcases Nat.lt_or_ge c 2 with h3 | h3
        · omega
        · have := Nat.mul_le_mul_left n h3
          omega
    subst h2
    omega
  · intro h
    subst h
    exact ⟨1, by omega⟩

/-- Orthogonality of the rows of the transform with those of its conjugate. -/
theorem twiddle_orthogonal (n : Nat) (W : ℂ) (hp : IsPrimitiveRoot W n) (l m : Nat)
    (hl : l < n) (hm : m < n) :
    ∑ k in Finset.range n, W ^ (k * l) * W⁻¹ ^ (m * k) = if l = m then (n : ℂ) else 0 := by
  have hinv : W⁻¹ ^ m = W ^ (n - m) := by
    rw [inv_pow]
    apply inv_eq_of_mul_eq_one_left
    rw [← pow_add, Nat.sub_add_cancel (le_of_lt hm), hp.pow_eq_one]
  have e : ∀ k, W ^ (k * l) * W⁻¹ ^ (m * k) = W ^ (k * (l + (n - m))) := by
    intro k
    rw [pow_mul W⁻¹, hinv]
    ring
  simp only [e]
  rw [twiddle_sum n W hp]
  simp only [dvd_shift_iff n l m hl hm]

/-- Exact-arithmetic inversion: over the reals, for `n = 2 ^ p` and any complex input of
length `n`, `fft_radix2` followed by the conjugate-twiddle transform with `1/n` scaling
gives the input back. -/
theorem fft_radix2_inverse_reconstructs (p fuel : Nat) (hf : 2 ^ p < fuel) (real imag : List ℝ)
    (log : List Nat) (hr : real.length = 2 ^ p) (hi : imag.length = 2 ^ p) :
    ∃ X, fft_radix2 Real.pi Real.cos Real.sin fuel ⟨real, imag, log⟩ (2 ^ p) = some X ∧
      ∃ y, inverse_by_conjugation Real.pi Real.cos Real.sin fuel X (2 ^ p) = some y ∧
        y.real = real ∧ y.imag = imag := by
  have hW := isTwiddle_mk (2 ^ p)
  have hn : 0 < 2 ^ p := by positivity
  have hp := isTwiddle_primitive (2 ^ p) (by omega) _ hW
  have hne : (((2 ^ p : ℕ) : ℝ)) ≠ 0 := by exact_mod_cast hn.ne'
  obtain ⟨X, hX, x1, x2, hXdft⟩ := fft_radix2_dft_pow p fuel hf ⟨real, imag, log⟩ hr hi _ hW
  obtain ⟨Y, hY, y1, y2, hYdft⟩ := fft_radix2_dft_pow p fuel hf
    ⟨X.real, X.imag.map (fun v => -v), X.log⟩ x1 (by simpa using x2) _ hW
  have hc : ∀ l, l < 2 ^ p →
      cx ⟨X.real, X.imag.map (fun v => -v), X.log⟩ l = (starRingEnd ℂ) (cx X l) := by
    intro l hl
    apply Complex.ext
    · rfl
    · show rd (X.imag.map (fun v => -v)) l = -(rd X.imag l)
      exact rd_map _ _ _ (by rw [x2]; exact hl)
  have key : ∀ m, m < 2 ^ p →
      (starRingEnd ℂ) (cx Y m) = ((2 ^ p : ℕ) : ℂ) * cx ⟨real, imag, log⟩ m := by
    intro m hm
    rw [hYdft m hm, map_sum]
    have e1 : ∀ l ∈ Finset.range (2 ^ p),
        (starRingEnd ℂ) (cx ⟨X.real, X.imag.map (fun v => -v), X.log⟩ l *
          (⟨Real.cos (-2 * Real.pi / ((2 ^ p : ℕ) : ℝ)),
            Real.sin (-2 * Real.pi / ((2 ^ p : ℕ) : ℝ))⟩ : ℂ) ^ (m * l))
        = ∑ j in Finset.range (2 ^ p), cx ⟨real, imag, log⟩ j *
            ((⟨Real.cos (-2 * Real.pi / ((2 ^ p : ℕ) : ℝ)),
              Real.sin (-2 * Real.pi / ((2 ^ p : ℕ) : ℝ))⟩ : ℂ) ^ (l * j) *
             (⟨Real.cos (-2 * Real.pi / ((2 ^ p : ℕ) : ℝ)),
              Real.sin (-2 * Real.pi / ((2 ^ p : ℕ) : ℝ))⟩ : ℂ)⁻¹ ^ (m * l)) := by
      intro l hl
      have hl2 : l < 2 ^ p := Finset.mem_range.mp hl
      rw [map_mul, map_pow, hc l hl2, Complex.conj_conj, twiddle_conj _ _ hW, hXdft l hl2,
        Finset.sum_mul]
      apply Finset.sum_congr rfl
      intro j _
      ring
    rw [Finset.sum_congr rfl e1, Finset.sum_comm]
    have e2 : ∀ j ∈ Finset.range (2 ^ p),
        ∑ l in Finset.range (2 ^ p), cx ⟨real, imag, log⟩ j *
            ((⟨Real.cos (-2 * Real.pi / ((2 ^ p : ℕ) : ℝ)),
              Real.sin (-2 * Real.pi / ((2 ^ p : ℕ) : ℝ))⟩ : ℂ) ^ (l * j) *
             (⟨Real.cos (-2 * Real.pi / ((2 ^ p : ℕ) : ℝ)),
              Real.sin (-2 * Real.pi / ((2 ^ p : ℕ) : ℝ))⟩ : ℂ)⁻¹ ^ (m * l))
        = if j = m then ((2 ^ p : ℕ) : ℂ) * cx ⟨real, imag, log⟩ j else 0 := by
      intro j hj
      rw [← Finset.mul_sum, twiddle_orthogonal _ _ hp j m (Finset.mem_range.mp hj) hm]
      split_ifs
      · ring
      · ring
    rw [Finset.sum_congr rfl e2, Finset.sum_ite_eq' (Finset.range (2 ^ p)) m,
      if_pos (Finset.mem_range.mpr hm)]
  refine ⟨X, hX, ⟨Y.real.map (fun v => v / ((2 ^ p : ℕ) : ℝ)),
    Y.imag.map (fun v => -v / ((2 ^ p : ℕ) : ℝ)), Y.log⟩, ?_, ?_, ?_⟩
  · simp only [inverse_by_conjugation, hY, Option.map_some']
  · apply ext_rd
    · rw [List.length_map, y1, hr]
    · intro m hm
      rw [List.length_map, y1] at hm
      rw [rd_map _ _ _ (by rw [y1]; exact hm)]
      have h := congrArg Complex.re (key m hm)
      rw [Complex.conj_re, Complex.mul_re, Complex.natCast_re, Complex.natCast_im] at h
      have c1 : (cx Y m).re = rd Y.real m := rfl
      have c2 : (cx ⟨real, imag, log⟩ m).re = rd real m := rfl
      rw [c1, c2] at h
      rw [h]
      field_simp
  · apply ext_rd
    · rw [List.length_map, y2, hi]
    · intro m hm
      rw [List.length_map, y2] at hm
      rw [rd_map _ _ _ (by rw [y2]; exact hm)]
      have h := congrArg Complex.im (key m hm)
      rw [Complex.conj_im, Complex.mul_im, Complex.natCast_re, Complex.natCast_im] at h
      have c1 : (cx Y m).im = rd Y.imag m := rfl
      have c2 : (cx ⟨real, imag, log⟩ m).im = rd imag m := rfl
      rw [c1, c2] at h
      rw [h]
      field_simp

/-! ## C22: `bit_reverse` is an involution -/

/-- The index log of `bit_reverse` after `k` iterations: iteration `i` logs the pair
`(i, bitrev p i)` exactly when `i < bitrev p i`. -/
theorem bit_reverse_prefix_log {α : Type} [Zero α] (p fuel : Nat) (hf : p < fuel)
    (sig : Signal α) (hr : sig.real.length = 2 ^ p) (hi : sig.imag.length = 2 ^ p) (k : Nat)
    (hk : k ≤ 2 ^ p) :
    ∃ j out, (List.range k).foldlM (bit_reverse_step fuel (2 ^ p)) (0, sig) = some (j, out) ∧
      out.log = sig.log ++
        (List.range k).flatMap fun i => if i < bitrev p i then [i, bitrev p i] else [] := by
  induction k with
  | zero => exact ⟨0, sig, by simp, by simp⟩
  | succ k ih =>
    obtain ⟨j, out, hfold, hlog⟩ := ih (by omega)
    have hk2 : k < 2 ^ p := by omega
    obtain ⟨j2, out2, hfold2, hj, -⟩ := bit_reverse_prefix p fuel hf sig hr hi k (by omega)
    rw [hfold] at hfold2
    have hjk : j = bitrev p k := by
      have := hj hk2
      cases hfold2
      exact this
    subst hjk
    obtain ⟨jm, hjm, -⟩ := bit_reverse_carry p fuel k hf hk2
    rw [List.range_succ, List.foldlM_append, hfold]
    simp only [Option.bind_eq_bind, Option.some_bind, List.foldlM_cons, List.foldlM_nil,
      bit_reverse_step, Nat.shiftRight_eq_div_pow, pow_one, hjm, Option.map_some',
      Option.bind_some]
    refine ⟨_, _, rfl, ?_⟩
    rw [List.flatMap_append, ← List.append_assoc, ← hlog]
    by_cases c : k < bitrev p k
    · simp [c]
    · simp [c]

/-- The list of the swaps of `bit_reverse`, as logged, has no repetition, and holds exactly
the indices that differ from their reversal. -/
theorem bit_reverse_swaps_once (p : Nat) :
    ((List.range (2 ^ p)).flatMap fun i => if i < bitrev p i then [i, bitrev p i] else []).Nodup ∧
    ∀ y, y ∈ ((List.range (2 ^ p)).flatMap
        fun i => if i < bitrev p i then [i, bitrev p i] else []) ↔
      (y < 2 ^ p ∧ bitrev p y ≠ y) := by
  refine ⟨?_, ?_⟩
  · rw [List.nodup_flatMap]
    refine ⟨?_, ?_⟩
    · intro i _
      by_cases c : i < bitrev p i
      · rw [if_pos c]
        simp
        omega
      · rw [if_neg c]
        exact List.nodup_nil
    · have hp : List.Pairwise (fun a b => a < b ∧ a < 2 ^ p ∧ b < 2 ^ p)
          (List.range (2 ^ p)) := by
        rw [List.pairwise_iff_getElem]
        intro i j hi hj hij
        simp only [List.getElem_range]
        simp only [List.length_range] at hi hj
        exact ⟨hij, hi, hj⟩
      refine hp.imp ?_
      intro a b hab
      obtain ⟨hlt, ha, hb⟩ := hab
      have ra := bitrev_bitrev p a ha
      have rb := bitrev_bitrev p b hb
      intro y hya hyb
      simp only [] at hya hyb
      by_cases ca : a < bitrev p a
      · by_cases cb : b < bitrev p b
        · rw [if_pos ca] at hya
          rw [if_pos cb] at hyb
          simp only [List.mem_cons, List.mem_singleton, List.not_mem_nil, or_false] at hya hyb
          rcases hya with h1 | h1 <;> rcases hyb with h2 | h2
          · omega
          · have : bitrev p a = b := by rw [h1.symm, h2, rb]
            omega
          · have : bitrev p b = a := by rw [h2.symm, h1, ra]
            omega
          · have : a = b := by rw [← ra, ← rb, h1.symm, h2.symm]
            omega
        · rw [if_neg cb] at hyb
          simp at hyb
      · rw [if_neg ca] at hya
        simp at hya
  · intro y
    rw [List.mem_flatMap]
    constructor
    · rintro ⟨i, hi, hy⟩
      have hi2 : i < 2 ^ p := List.mem_range.mp hi
      have ri := bitrev_bitrev p i hi2
      by_cases c : i < bitrev p i
      · rw [if_pos c] at hy
        simp only [List.mem_cons, List.mem_singleton, List.not_mem_nil, or_false] at hy
        rcases hy with h | h
        · subst h
          exact ⟨hi2, by omega⟩
        · subst h
          exact ⟨bitrev_lt p i, by rw [ri]; omega⟩
      · rw [if_neg c] at hy
        simp at hy
    · rintro ⟨hy, hne⟩
      have ry := bitrev_bitrev p y hy
      by_cases c : y < bitrev p y
      · exact ⟨y, List.mem_range.mpr hy, by rw [if_pos c]; simp⟩
      · refine ⟨bitrev p y, List.mem_range.mpr (bitrev_lt p y), ?_⟩
        rw [ry, if_pos (by omega)]
        simp

/-- Claim C22. For `n = 2 ^ p` and arrays `real`, `imag` of length `n`, `bit_reverse` (given
fuel above `p` for its carry loop) returns, and applied again to its own output it returns
both arrays with their original contents.  The swaps of one application are those logged:
iteration `i` exchanges `i` with `bitrev p i` exactly when `i < bitrev p i`, so every index
that differs from its reversal takes part in exactly one swap and every fixed point in
none. -/
theorem bit_reverse_involution {α : Type} [Zero α] (p fuel : Nat) (hf : p < fuel)
    (real imag : List α) (log : List Nat) (hr : real.length = 2 ^ p)
    (hi : imag.length = 2 ^ p) :
    ∃ out1 out2, bit_reverse fuel ⟨real, imag, log⟩ (2 ^ p) = some out1 ∧
      bit_reverse fuel out1 (2 ^ p) = some out2 ∧
      out2.real = real ∧ out2.imag = imag ∧
      out1.log = log ++
        ((List.range (2 ^ p)).flatMap
          fun i => if i < bitrev p i then [i, bitrev p i] else []) ∧
      ∀ y, ((List.range (2 ^ p)).flatMap
          fun i => if i < bitrev p i then [i, bitrev p i] else []).count y
        = if y < 2 ^ p ∧ bitrev p y ≠ y then 1 else 0 := by
  obtain ⟨out1, h1, r1, i1, v1, -⟩ := bit_reverse_spec p fuel hf ⟨real, imag, log⟩ hr hi
  obtain ⟨out2, h2, r2, i2, v2, -⟩ := bit_reverse_spec p fuel hf out1 r1 i1
  obtain ⟨j, o, hfold, hlog⟩ :=
    bit_reverse_prefix_log p fuel hf ⟨real, imag, log⟩ hr hi (2 ^ p) (le_refl _)
  have ho : o = out1 := by
    have : bit_reverse fuel ⟨real, imag, log⟩ (2 ^ p) = some o := by
      simp [bit_reverse, hfold]
    rw [h1] at this
    cases this
    rfl
  subst ho
  obtain ⟨hnd, hmem⟩ := bit_reverse_swaps_once p
  refine ⟨o, out2, h1, h2, ?_, ?_, hlog, ?_⟩
  · apply ext_rd _ _ (r2.trans hr.symm)
    intro x hx
    rw [r2] at hx
    rw [(v2 x hx).1, (v1 _ (bitrev_lt p x)).1, bitrev_bitrev p x hx]
  · apply ext_rd _ _ (i2.trans hi.symm)
    intro x hx
    rw [i2] at hx
    rw [(v2 x hx).2, (v1 _ (bitrev_lt p x)).2, bitrev_bitrev p x hx]
  · intro y
    by_cases c : y < 2 ^ p ∧ bitrev p y ≠ y
    · rw [if_pos c]
      exact List.count_eq_one_of_mem hnd ((hmem y).mpr c)
    · rw [if_neg c]
      exact List.count_eq_zero_of_not_mem (fun h => c ((hmem y).mp h))

/-- Witness for C22 at `n = 8`. -/
theorem bit_reverse_involution_witness :
    ∃ out1 out2,
      bit_reverse 4 ⟨[0, 1, 2, 3, 4, 5, 6, 7], [10, 11, 12, 13, 14, 15, 16, 17], []⟩ (2 ^ 3)
        = some out1 ∧
      bit_reverse 4 out1 (2 ^ 3) = some out2 ∧
      out2.real = ([0, 1, 2, 3, 4, 5, 6, 7] : List Int) ∧
      out2.imag = ([10, 11, 12, 13, 14, 15, 16, 17] : List Int) ∧
      out1.log = [1, 4, 3, 6] := by
  obtain ⟨out1, out2, h1, h2, h3, h4, h5, -⟩ := bit_reverse_involution 3 4 (by decide)
    ([0, 1, 2, 3, 4, 5, 6, 7] : List Int) [10, 11, 12, 13, 14, 15, 16, 17] [] rfl rfl
  exact ⟨out1, out2, h1, h2, h3, h4, by rw [h5]; decide⟩

/-! ## C23: the additions of the Fibonacci kernels and the range of `int` -/

theorem fibSpec_range (k : Nat) (hk : k ≤ 46) : 0 ≤ fibSpec k ∧ fibSpec k ≤ 1836311903 := by
  have h46 : fibSpec 46 = 1836311903 := by decide
  have hle := fibSpec_mono k 46 hk
  exact ⟨(fibSpec_pos_mono k).1, by omega⟩

/-- The instrumented loop of `fib_iterative` runs the loop of `fib_iterative` itself on its
first component. -/
theorem fib_iterative_sums_faithful (n : Int) (fuel : Nat) (s : FibState) (l : List Int) :
    (whileLoop (fun s : FibState × List Int => decide (s.1.i ≤ n)) fib_iterative_body_sums fuel
        (s, l)).map (fun s => s.1)
      = whileLoop (fun s : FibState => decide (s.i ≤ n)) fib_iterative_body fuel s := by
  induction fuel generalizing s l with
  | zero => rfl
  | succ fuel ih =>
    rw [whileLoop, whileLoop]
    by_cases c : s.i ≤ n
    · rw [if_pos (by simpa using c), if_pos (by simpa using c)]
      exact ih _ _
    · rw [if_neg (by simpa using c), if_neg (by simpa using c)]
      rfl

/-- The instrumented loop state after `k` iterations, while no sum has left the range of
`int`: the sums so far are `F(2), ..., F(k + 1)` and the increments `3, ..., k + 2`. -/
theorem fib_iterative_sums_iterate (k : Nat) (hk : k ≤ 46) (l : List Int) :
    fib_iterative_body_sums^[k] ({ prev := 0, curr := 1, i := 2 }, l)
      = (fib_iterative_body^[k] { prev := 0, curr := 1, i := 2 },
          l ++ (List.range k).flatMap fun (j : Nat) => [fibSpec (j + 2), (j : Int) + 3]) := by
  induction k with
  | zero => simp
  | succ k ih =>
    rw [Function.iterate_succ_apply', ih (by omega), Function.iterate_succ_apply',
      List.range_succ, List.flatMap_append, ← List.append_assoc]
    simp only [fib_iterative_body_sums, List.flatMap_cons, List.flatMap_nil, List.append_nil]
    rw [fib_iterative_iterate k (by omega)]
    obtain ⟨a0, a1⟩ := fibSpec_range k (by omega)
    obtain ⟨b0, b1⟩ := fibSpec_range (k + 1) (by omega)
    rw [wrap32_of_range _ (by omega) (by omega), wrap32_of_range _ (by omega) (by omega)]
    have e1 : fibSpec k + fibSpec (k + 1) = fibSpec (k + 2) := by
      rw [fibSpec]
      omega
    have e2 : (k : Int) + 2 + 1 = (k : Int) + 3 := by omega
    rw [e1, e2]

/-- The additions of `fib_iterative(n)` for `2 <= n <= 47`. -/
theorem fib_iterative_sums_spec (fuel n : Nat) (h2 : 2 ≤ n) (hn : n ≤ 47) (hf : n ≤ fuel) :
    fib_iterative_sums fuel (n : Int)
      = some ((List.range (n - 1)).flatMap
          fun (j : Nat) => [fibSpec (j + 2), (j : Int) + 3]) := by
  have c : ¬ ((n : Int) ≤ 1) := by omega
  rw [fib_iterative_sums, if_neg c,
    whileLoop_iterate _ _ (n - 1) fuel _ _ _ (by omega)]
  · rw [fib_iterative_sums_iterate (n - 1) (by omega)]
    simp
  · intro i hi
    rw [fib_iterative_sums_iterate i (by omega), fib_iterative_iterate i (by omega)]
    simp only [decide_eq_true_eq]
    omega
  · rw [fib_iterative_sums_iterate (n - 1) (by omega), fib_iterative_iterate (n - 1) (by omega)]
    simp only [decide_eq_false_iff_not]
    omega

/-- Every sum of `fib_recursive(k)` adds the results of the calls for `j - 1` and `j - 2`,
for some `2 <= j <= k`. -/
theorem fib_recursive_sums_mem : ∀ (fuel k : Nat), k ≤ fuel →
    ∀ x ∈ fib_recursive_sums fuel (k : Int),
      ∃ j, j + 2 ≤ k ∧ x = wrap32 (fibSpec (j + 1)) + wrap32 (fibSpec j) := by
  intro fuel
  induction fuel with
  | zero => intro k _ x hx; simp [fib_recursive_sums] at hx
  | succ fuel ih =>
    intro k hk x hx
    match k with
    | 0 => simp [fib_recursive_sums] at hx
    | 1 => simp [fib_recursive_sums] at hx
    | m + 2 =>
      have c : ¬ (((m + 2 : Nat) : Int) ≤ 1) := by omega
      have e1 : ((m + 2 : Nat) : Int) - 1 = ((m + 1 : Nat) : Int) := by omega
      have e2 : ((m + 2 : Nat) : Int) - 2 = (m : Int) := by omega
      rw [fib_recursive_sums, if_neg c, e1, e2,
        fib_recursive_spec fuel (m + 1) (by omega) (by omega),
        fib_recursive_spec fuel m (by omega) (by omega)] at hx
      simp only [List.mem_append, List.mem_singleton] at hx
      rcases hx with (h | h) | h
      · obtain ⟨j, h1, h2⟩ := ih (m + 1) (by omega) x h
        exact ⟨j, by omega, h2⟩
      · obtain ⟨j, h1, h2⟩ := ih m (by omega) x h
        exact ⟨j, by omega, h2⟩
      · exact ⟨m, le_refl _, h⟩

theorem fib_recursive_sums_range (fuel k : Nat) (hk : k ≤ 46) (hf : k ≤ fuel) :
    ∀ x ∈ fib_recursive_sums fuel (k : Int), 0 ≤ x ∧ x ≤ 2147483647 := by
  intro x hx
  obtain ⟨j, h1, h2⟩ := fib_recursive_sums_mem fuel k hf x hx
  obtain ⟨a0, a1⟩ := fibSpec_range j (by omega)
  obtain ⟨b0, b1⟩ := fibSpec_range (j + 1) (by omega)
  obtain ⟨c0, c1⟩ := fibSpec_range (j + 2) (by omega)
  rw [wrap32_of_range _ (by omega) (by omega), wrap32_of_range _ (by omega) (by omega)] at h2
  have e : fibSpec (j + 2) = fibSpec (j + 1) + fibSpec j := by rw [fibSpec]
  omega

/-- Claim C23. For every `0 <= n <= 46`, every addition that `fib_iterative(n)` and
`fib_recursive(n)` perform (the increments `++i` included) has an exact value in
`[0, INT_MAX]`, and both return `F(n)`, with `F(46) = 1836311903`.  For `n = 47` every
addition but the final sum is still in range; the final sum `F(46) + F(45)` has the exact
value `F(47) = 2971215073`, above `INT_MAX = 2147483647`, and with 32-bit wrap-around both
kernels return `-1323752223`, which is not `F(47)`. -/
theorem fib_additions_fit_int :
    (∀ n fuel : Nat, n ≤ 46 → n ≤ fuel → 1 ≤ fuel →
      (∃ l, fib_iterative_sums fuel (n : Int) = some l ∧ ∀ x ∈ l, 0 ≤ x ∧ x ≤ 2147483647) ∧
      (∀ x ∈ fib_recursive_sums fuel (n : Int), 0 ≤ x ∧ x ≤ 2147483647) ∧
      fib_iterative fuel (n : Int) = some (fibSpec n) ∧
      fib_recursive fuel (n : Int) = some (fibSpec n)) ∧
    fibSpec 46 = 1836311903 ∧ fibSpec 47 = 2971215073 ∧ (2147483647 : Int) < fibSpec 47 ∧
    (∀ fuel : Nat, 47 ≤ fuel →
      (∃ l, fib_iterative_sums fuel 47 = some (l ++ [2971215073, 48]) ∧
        ∀ x ∈ l, 0 ≤ x ∧ x ≤ 2147483647) ∧
      (∃ l, fib_recursive_sums fuel 47 = l ++ [2971215073] ∧
        ∀ x ∈ l, 0 ≤ x ∧ x ≤ 2147483647) ∧
      fib_iterative fuel 47 = some (-1323752223) ∧
      fib_recursive fuel 47 = some (-1323752223) ∧
      (-1323752223 : Int) ≠ fibSpec 47) := by
  have h46 : fibSpec 46 = 1836311903 := by decide
  have h45 : fibSpec 45 = 1134903170 := by decide
  have h47 : fibSpec 47 = 2971215073 := by
    rw [fibSpec, h46, h45]
    rfl
  refine ⟨?_, h46, h47, by rw [h47]; decide, ?_⟩
  · intro n fuel hn hf h1
    obtain ⟨r0, r1⟩ := fibSpec_range n hn
    refine ⟨?_, fib_recursive_sums_range fuel n hn hf, ?_, ?_⟩
    · by_cases c : n ≤ 1
      · refine ⟨[], by rw [fib_iterative_sums, if_pos (by omega)], ?_⟩
        intro x hx
        simp at hx
      · refine ⟨_, fib_iterative_sums_spec fuel n (by omega) (by omega) hf, ?_⟩
        intro x hx
        rw [List.mem_flatMap] at hx
        obtain ⟨j, hj, hx⟩ := hx
        have hj2 : j < n - 1 := List.mem_range.mp hj
        obtain ⟨c0, c1⟩ := fibSpec_range (j + 2) (by omega)
        simp only [List.mem_cons, List.mem_singleton, List.not_mem_nil, or_false] at hx
        rcases hx with h | h
        · omega
        · omega
    · rw [fib_iterative_spec fuel n hf (by omega), wrap32_of_range _ (by omega) (by omega)]
    · rw [fib_recursive_spec fuel n h1 hf, wrap32_of_range _ (by omega) (by omega)]
  · intro fuel hf
    have hw : wrap32 (fibSpec 47) = -1323752223 := by
      rw [h47]
      decide
    refine ⟨?_, ?_, ?_, ?_, by rw [h47]; decide⟩
    · refine ⟨(List.range 45).flatMap fun (j : Nat) => [fibSpec (j + 2), (j : Int) + 3], ?_, ?_⟩
      · have e := fib_iterative_sums_spec fuel 47 (by decide) (le_refl _) hf
        have e46 : (47 : Nat) - 1 = 45 + 1 := rfl
        rw [e46, List.range_succ, List.flatMap_append] at e
        simp only [List.flatMap_cons, List.flatMap_nil, List.append_nil] at e
        rw [show (45 : Nat) + 2 = 47 from rfl, h47] at e
        exact e
      · intro x hx
        rw [List.mem_flatMap] at hx
        obtain ⟨j, hj, hx⟩ := hx
        have hj2 : j < 45 := List.mem_range.mp hj
        obtain ⟨c0, c1⟩ := fibSpec_range (j + 2) (by omega)
        simp only [List.mem_cons, List.mem_singleton, List.not_mem_nil, or_false] at hx
        rcases hx with h | h
        · omega
        · omega
    · obtain ⟨f, rfl⟩ : ∃ f, fuel = f + 1 := ⟨fuel - 1, by omega⟩
      refine ⟨fib_recursive_sums f 46 ++ fib_recursive_sums f 45, ?_, ?_⟩
      · have c : ¬ ((47 : Int) ≤ 1) := by decide
        have r46 := fib_recursive_spec f 46 (by omega) (by omega)
        have r45 := fib_recursive_spec f 45 (by omega) (by omega)
        rw [h46] at r46
        rw [h45] at r45
        have v46 : wrap32 1836311903 = 1836311903 := by decide
        have v45 : wrap32 1134903170 = 1134903170 := by decide
        rw [v46] at r46
        rw [v45] at r45
        rw [fib_recursive_sums, if_neg c]
        have e1 : (47 : Int) - 1 = ((46 : Nat) : Int) := rfl
        have e2 : (47 : Int) - 2 = ((45 : Nat) : Int) := rfl
        rw [e1, e2, r46, r45]
        rfl
      · intro x hx
        rcases List.mem_append.mp hx with h | h
        · exact fib_recursive_sums_range f 46 (by decide) (by omega) x h
        · exact fib_recursive_sums_range f 45 (by decide) (by omega) x h
    · have e := fib_iterative_spec fuel 47 hf (by decide)
      rw [hw] at e
      exact e
    · have e := fib_recursive_spec fuel 47 (by omega) hf
      rw [hw] at e
      exact e

/-- Witness for C23 at `n = 10` with the sums listed, and at the overflowing index 47. -/
theorem fib_additions_fit_int_witness :
    fib_iterative_sums 10 10 = some [1, 3, 2, 4, 3, 5, 5, 6, 8, 7, 13, 8, 21, 9, 34, 10, 55, 11] ∧
    (∀ x ∈ fib_recursive_sums 10 ((10 : Nat) : Int), 0 ≤ x ∧ x ≤ 2147483647) ∧
    fib_iterative 10 ((10 : Nat) : Int) = some (fibSpec 10) ∧
    fib_iterative 47 47 = some (-1323752223) ∧
    fib_recursive 47 47 = some (-1323752223) :=
  ⟨by decide,
    (fib_additions_fit_int.1 10 10 (by decide) (by decide) (by decide)).2.1,
    (fib_additions_fit_int.1 10 10 (by decide) (by decide) (by decide)).2.2.1,
    (fib_additions_fit_int.2.2.2.2 47 (le_refl _)).2.2.1,
    (fib_additions_fit_int.2.2.2.2 47 (le_refl _)).2.2.2.1⟩

/-! ## C21: what `matrix_multiply` depends on and what it leaves alone -/

theorem foldl_sim {σ τ ι : Type} (R : σ → τ → Prop) (f : σ → ι → σ) (g : τ → ι → τ)
    (l : List ι) (h : ∀ x ∈ l, ∀ s t, R s t → R (f s x) (g t x)) (s : σ) (t : τ)
    (hst : R s t) : R (l.foldl f s) (l.foldl g t) := by
  induction l generalizing s t with
  | nil => exact hst
  | cons x xs ih =>
    simp only [List.foldl_cons]
    exact ih (fun y hy => h y (List.mem_cons_of_mem _ hy)) _ _
      (h x (List.mem_cons_self _ _) s t hst)

theorem rd_matrix_at (mem : List Int) (a y : Nat) (hy : y < 400) :
    rd (matrix_at mem a) y = rd mem (a + y) := by
  unfold matrix_at
  rw [rd_eq_getElem _ _ (by simpa using hy)]
  simp

theorem matrix_at_length (mem : List Int) (a : Nat) : (matrix_at mem a).length = 400 := by
  simp [matrix_at]

/-- Writing the same value to `C[i][j]` in the memory and in the matrix keeps them in step. -/
theorem MemSim.write (mem : List Int) (c : Nat) (m : List Int) (C : IntMatrix) (idx : Nat)
    (v : Int) (o : Bool) (h : MemSim mem c m C) (hidx : idx < 400)
    (hc : c + 400 ≤ mem.length) :
    MemSim mem c (wr m (c + idx) v) { cells := wr C.cells idx v, overflow := o } := by
  obtain ⟨h1, h2, h3, h4⟩ := h
  refine ⟨by rw [length_wr, h1], by simp only [length_wr]; exact h2, ?_, ?_⟩
  · intro y hy
    rw [rd_wr _ _ _ _ (by omega), rd_wr _ _ _ _ (by omega)]
    by_cases e : y = idx
    · rw [if_pos (by omega), if_pos e]
    · rw [if_neg (by omega), if_neg e]
      exact h3 y hy
  · intro x hx
    rw [rd_wr_other _ _ _ _ (by omega)]
    exact h4 x hx

theorem matrix_multiply_at_inner_sim (mem : List Int) (a b c i j k : Nat) (m : List Int)
    (C : IntMatrix) (h : MemSim mem c m C) (hi : i < 20) (hj : j < 20) (hk : k < 20)
    (ha : a + 400 ≤ c ∨ c + 400 ≤ a) (hb : b + 400 ≤ c ∨ c + 400 ≤ b)
    (hc : c + 400 ≤ mem.length) :
    MemSim mem c (matrix_multiply_at_inner a b c i j m k)
      (matrix_multiply_inner (matrix_at mem a) (matrix_at mem b) i j C k) := by
  have e1 : rd m (c + (i * 20 + j)) = rd C.cells (i * 20 + j) := h.2.2.1 _ (by omega)
  have e2 : rd m (a + (i * 20 + k)) = rd (matrix_at mem a) (i * 20 + k) := by
    rw [rd_matrix_at _ _ _ (by omega)]
    exact h.2.2.2 _ (by omega)
  have e3 : rd m (b + (k * 20 + j)) = rd (matrix_at mem b) (k * 20 + j) := by
    rw [rd_matrix_at _ _ _ (by omega)]
    exact h.2.2.2 _ (by omega)
  simp only [matrix_multiply_at_inner, matrix_multiply_inner, e1, e2, e3]
  exact MemSim.write mem c m C _ _ _ h (by omega) hc

theorem matrix_multiply_at_cell_sim (mem : List Int) (size a b c i j : Nat) (m : List Int)
    (C : IntMatrix) (h : MemSim mem c m C) (hs : size ≤ 20) (hi : i < 20) (hj : j < 20)
    (ha : a + 400 ≤ c ∨ c + 400 ≤ a) (hb : b + 400 ≤ c ∨ c + 400 ≤ b)
    (hc : c + 400 ≤ mem.length) :
    MemSim mem c (matrix_multiply_at_cell size a b c i m j)
      (matrix_multiply_cell size (matrix_at mem a) (matrix_at mem b) i C j) := by
  unfold matrix_multiply_at_cell matrix_multiply_cell
  apply foldl_sim (MemSim mem c)
  · intro k hk s t hst
    have hk2 : k < size := List.mem_range.mp hk
    exact matrix_multiply_at_inner_sim mem a b c i j k s t hst hi hj (by omega) ha hb hc
  · exact MemSim.write mem c m C _ _ _ h (by omega) hc

/-- On one memory in which `C` overlaps neither `A` nor `B`, `matrix_multiply` does to the
cells of `C` what `matrix_multiply` on three separate arrays does, and nothing to any other
cell. -/
theorem matrix_multiply_at_refines (mem : List Int) (size a b c : Nat) (hs : size ≤ 20)
    (ha : a + 400 ≤ c ∨ c + 400 ≤ a) (hb : b + 400 ≤ c ∨ c + 400 ≤ b)
    (hc : c + 400 ≤ mem.length) :
    MemSim mem c (matrix_multiply_at size a b c mem)
      (matrix_multiply size (matrix_at mem a) (matrix_at mem b) (matrix_at mem c)) := by
  unfold matrix_multiply_at matrix_multiply
  apply foldl_sim (MemSim mem c)
  · intro i hi s t hst
    have hi2 : i < size := List.mem_range.mp hi
    apply foldl_sim (MemSim mem c)
    · intro j hj s2 t2 hst2
      have hj2 : j < size := List.mem_range.mp hj
      exact matrix_multiply_at_cell_sim mem size a b c i j s2 t2 hst2 hs (by omega) (by omega)
        ha hb hc
    · exact hst
  · exact ⟨rfl, matrix_at_length mem c, fun y hy => (rd_matrix_at mem c y hy).symm,
      fun _ _ => rfl⟩

/-- The matrices `A` and `B` read from two memories that agree outside `C` are the same. -/
theorem matrix_at_congr (mem mem2 : List Int) (a c : Nat) (ha : a + 400 ≤ c ∨ c + 400 ≤ a)
    (h : ∀ x, (x < c ∨ c + 400 ≤ x) → rd mem2 x = rd mem x) :
    matrix_at mem2 a = matrix_at mem a := by
  unfold matrix_at
  apply List.map_congr_left
  intro y hy
  have hy2 : y < 400 := List.mem_range.mp hy
  exact h _ (by omega)

/-- Claim C21. For every `size` in `[0, 20]` and all `A`, `B`: the `size x size` block of
`C` after `matrix_multiply(size, A, B, C)` is the same for every prior content of `C`, and
every entry of `C` outside the block is unchanged.  With the three matrices in one memory,
`C` overlapping neither `A` nor `B`, the call changes no cell outside `C` (so `A` and `B` are
unchanged), no cell of `C` outside the block, and leaves in the block values that do not
depend on what `C` held.  In the benchmark the matrices after the `n = 20` measurement are
the same whatever the `n = 10` measurement, or anything else, left in them. -/
theorem matrix_multiply_frame :
    (∀ (size : Nat) (A B C C2 : List Int), size ≤ 20 → C.length = 400 → C2.length = 400 →
      (∀ i j, i < size → j < size →
        rd (matrix_multiply size A B C).cells (i * 20 + j)
          = rd (matrix_multiply size A B C2).cells (i * 20 + j)) ∧
      (matrix_multiply size A B C).cells.length = C.length ∧
      ∀ x, (size ≤ x / 20 ∨ size ≤ x % 20) →
        rd (matrix_multiply size A B C).cells x = rd C x) ∧
    (∀ (size a b c : Nat) (mem mem2 : List Int), size ≤ 20 →
      (a + 400 ≤ c ∨ c + 400 ≤ a) → (b + 400 ≤ c ∨ c + 400 ≤ b) → c + 400 ≤ mem.length →
      mem2.length = mem.length → (∀ x, (x < c ∨ c + 400 ≤ x) → rd mem2 x = rd mem x) →
      (matrix_multiply_at size a b c mem).length = mem.length ∧
      (∀ x, (x < c ∨ c + 400 ≤ x) → rd (matrix_multiply_at size a b c mem) x = rd mem x) ∧
      (∀ y, y < 400 → (size ≤ y / 20 ∨ size ≤ y % 20) →
        rd (matrix_multiply_at size a b c mem) (c + y) = rd mem (c + y)) ∧
      ∀ i j, i < size → j < size →
        rd (matrix_multiply_at size a b c mem) (c + (i * 20 + j))
          = rd (matrix_multiply_at size a b c mem2) (c + (i * 20 + j))) ∧
    (∀ st st2 : MatrixRun, st.A.length = 400 → st.B.length = 400 → st.C.length = 400 →
      st2.A.length = 400 → st2.B.length = 400 → st2.C.length = 400 →
      (benchmark_matrix_size (benchmark_matrix_size st 10) 20).C
        = (benchmark_matrix_size st2 20).C) := by
  refine ⟨?_, ?_, ?_⟩
  · intro size A B C C2 hs hC hC2
    obtain ⟨p1, p2, p3⟩ := matrix_multiply_spec size A B C hs hC
    obtain ⟨-, q2, -⟩ := matrix_multiply_spec size A B C2 hs hC2
    refine ⟨?_, p1.trans hC.symm, p3⟩
    intro i j hi hj
    rw [p2 i j hi hj, q2 i j hi hj]
  · intro size a b c mem mem2 hs ha hb hc hlen hagree
    obtain ⟨s1, -, s3, s4⟩ := matrix_multiply_at_refines mem size a b c hs ha hb hc
    obtain ⟨-, -, t3, -⟩ := matrix_multiply_at_refines mem2 size a b c hs ha hb
      (by rw [hlen]; exact hc)
    obtain ⟨-, p2, p3⟩ := matrix_multiply_spec size (matrix_at mem a) (matrix_at mem b)
      (matrix_at mem c) hs (matrix_at_length mem c)
    obtain ⟨-, q2, -⟩ := matrix_multiply_spec size (matrix_at mem2 a) (matrix_at mem2 b)
      (matrix_at mem2 c) hs (matrix_at_length mem2 c)
    refine ⟨s1, s4, ?_, ?_⟩
    · intro y hy hout
      rw [s3 y hy, p3 y hout, rd_matrix_at mem c y hy]
    · intro i j hi hj
      rw [s3 _ (by omega), t3 _ (by omega), p2 i j hi hj, q2 i j hi hj,
        matrix_at_congr mem mem2 a c ha hagree, matrix_at_congr mem mem2 b c hb hagree]
  · intro st st2 hA hB hC hA2 hB2 hC2
    obtain ⟨-, a1, b1, c1⟩ := benchmark_matrix_size_reference st 10 (by decide) hA hB hC
    obtain ⟨m1, -, -, l1⟩ :=
      benchmark_matrix_size_reference (benchmark_matrix_size st 10) 20 (by decide) a1 b1 c1
    obtain ⟨m2, -, -, l2⟩ := benchmark_matrix_size_reference st2 20 (by decide) hA2 hB2 hC2
    apply ext_rd _ _ (l1.trans l2.symm)
    intro x hx
    rw [l1] at hx
    have ex : x = x / 20 * 20 + x % 20 := by omega
    rw [ex, (m1.2 (x / 20) (x % 20) (by omega) (by omega)).2.2.1,
      (m2.2 (x / 20) (x % 20) (by omega) (by omega)).2.2.1]

/-- Witness for C21: a product of size 2 computed over an output buffer of sevens and over
one of nines. -/
theorem matrix_multiply_frame_witness :
    rd (matrix_multiply 2 (List.replicate 400 3) (List.replicate 400 (-5))
        (List.replicate 400 7)).cells (1 * 20 + 0)
      = rd (matrix_multiply 2 (List.replicate 400 3) (List.replicate 400 (-5))
        (List.replicate 400 9)).cells (1 * 20 + 0) ∧
    rd (matrix_multiply 2 (List.replicate 400 3) (List.replicate 400 (-5))
        (List.replicate 400 7)).cells 45 = rd (List.replicate 400 (7 : Int)) 45 ∧
    (matrix_multiply_at 2 0 400 800 (List.replicate 1200 1)).length
      = (List.replicate 1200 (1 : Int)).length :=
  ⟨(matrix_multiply_frame.1 2 (List.replicate 400 3) (List.replicate 400 (-5))
      (List.replicate 400 7) (List.replicate 400 9) (by decide) (List.length_replicate _ _)
      (List.length_replicate _ _)).1 1 0 (by decide) (by decide),
    (matrix_multiply_frame.1 2 (List.replicate 400 3) (List.replicate 400 (-5))
      (List.replicate 400 7) (List.replicate 400 9) (by decide) (List.length_replicate _ _)
      (List.length_replicate _ _)).2.2 45 (Or.inl (by decide)),
    (matrix_multiply_frame.2.1 2 0 400 800 (List.replicate 1200 1) (List.replicate 1200 1)
      (by decide) (Or.inl (by decide)) (Or.inl (by decide))
      (by rw [List.length_replicate]) rfl (fun _ _ => rfl)).1⟩

end RP2040
